import Mathlib

/-!
Block scheduler of the MPM simulation (`MPMScheduler<3>`)

A shallow embedding of `src/simulation3d/mpm/mpm_scheduler.h` and
`src/simulation3d/mpm/mpm_scheduler.cpp`.

Conventions of the embedding

* `int` and `int64` values are mathematical integers (`Int`).  Signed overflow is
  undefined behaviour in C++ and is not modelled; the scheduler keeps its step
  multiples below the sentinel `1LL << 60`.
* A division or remainder of integers by zero makes the operation fail, and so does
  the read of the state array at an index outside the lattice in `update`: such
  operations return `Option`, and `none` stands for the undefined behaviour of the
  C++ program.  C++ `/` and `%` on integers truncate towards zero (`Int.tdiv`,
  `Int.tmod`).
* `real` is `float`.  The values that the caller gives (positions, velocities, time
  steps, level set samples) are finite floats, written as rationals, and float
  literals stand for their exact values; `std::min`, `std::max`, `abs` and
  comparisons are exact on them.  In `update_dt_limits` every sum, difference,
  product and quotient of reals is rounded to the nearest binary32 value, ties to
  even (`round_f32`), as the program computes it.  A computed value of magnitude
  `2 ^ 128` or more stands for a float that is not finite: an infinity after an
  overflow or a division by zero, or a NaN (`fdiv`).  `int64(x)` is `real_to_int64`;
  outside the range of `int64` the conversion is undefined in C++, and the embedding
  takes the result `-2^63` of the x86-64 conversion.  The block coordinate
  `int(pos / grid_block_size)` of a particle is computed without rounding of the
  quotient.
* The level set behind the member pointer `levelset` is an object of the caller; it
  is passed to `update_dt_limits` as the pair of the queries made on it.
* `MPMParticle<DIM> *` is a handle (`ParticlePtr`) into the particle memory `heap`,
  which is owned by the caller of the scheduler.
* Every array of the scheduler is created by `initialize` with the resolution `res`
  and is only ever assigned arrays of that same resolution, so the embedding keeps
  one `res` for all of them: `inside` and `get_region` are functions of `res`, and an
  array is a function on lattice indices.
-/

namespace Taichi

/-! ## Indices, regions and arrays -/

/-- Integer vector `Vector3i`. -/
structure Vector3i where
  x : Int
  y : Int
  z : Int
deriving DecidableEq, Repr

/-- Real vector `Vector3`. -/
structure Vector3 where
  x : ℚ
  y : ℚ
  z : ℚ
deriving DecidableEq

/-- Lattice index `Index3D` with its coordinates `i`, `j`, `k`. -/
structure Index3D where
  i : Int
  j : Int
  k : Int
deriving DecidableEq, Repr

/-- The index shifted by `(dx, dy, dz)`: `ind.neighbour(dx, dy, dz)`. -/
def Index3D.neighbour (ind : Index3D) (dx dy dz : Int) : Index3D :=
  ⟨ind.i + dx, ind.j + dy, ind.k + dz⟩

/-- Modelled from the spec: `ArrayND<3, T>` of `taichi/math/array.h`, which is not among
the sources.  An array over the block lattice, read with `a ind` for `a[ind]`. -/
abbrev Array3 (α : Type) := Index3D → α

/-- The assignment `a[ind] = v`. -/
def Array3.set {α : Type} (a : Array3 α) (ind : Index3D) (v : α) : Array3 α :=
  fun p => if p = ind then v else a p

/-- Modelled from the spec: `ArrayND::inside`, the bounds check of a lattice index against
the resolution. -/
def inside (res : Vector3i) (ind : Index3D) : Bool :=
  decide (0 ≤ ind.i) && decide (ind.i < res.x) && decide (0 ≤ ind.j) && decide (ind.j < res.y)
    && decide (0 ≤ ind.k) && decide (ind.k < res.z)

/-- The integers `0, 1, ..., n - 1` (empty when `n ≤ 0`): the values of a loop variable
`for (int i = 0; i < n; i++)`. -/
def range_int (n : Int) : List Int :=
  (List.range n.toNat).map Int.ofNat

/-- Modelled from the spec: `ArrayND::get_region`, all lattice indices of the resolution in
traversal order (`i` outermost, `k` innermost). -/
def get_region (res : Vector3i) : List Index3D :=
  (range_int res.x).flatMap fun i =>
    (range_int res.y).flatMap fun j =>
      (range_int res.z).map fun k => Index3D.mk i j k

/-- The 27 offsets visited by the loops
`for dx in -1..1, for dy in -1..1, for dz in -1..1`, in loop order. -/
def neighbour_offsets : List (Int × Int × Int) :=
  [-1, 0, 1].flatMap fun dx => [-1, 0, 1].flatMap fun dy => [-1, 0, 1].map fun dz => (dx, dy, dz)

/-! ## Particles -/

/-- The tag the scheduler writes into a particle (`Particle::INACTIVE` and so on). -/
inductive ParticleState where
  | INACTIVE
  | BUFFER
  | UPDATING
deriving DecidableEq, Repr

/-- Modelled from the spec: the part of `MPMParticle<DIM>` (`mpm_particle.h`, not among the
sources) that the scheduler reads or writes. -/
structure MPMParticle where
  pos : Vector3
  v : Vector3
  allowed_dt : ℚ
  state : ParticleState
  color : Vector3

/-- A particle pointer `MPMParticle<DIM> *`. -/
abbrev ParticlePtr := Nat

/-- The conversion `int(r)` of a real to an integer: truncation towards zero. -/
def real_to_int (r : ℚ) : Int :=
  Int.tdiv r.num r.den

/-! ## The scheduler -/

/-- The state of `MPMScheduler<3>`, together with the particle memory `heap` that its
particle pointers refer to. -/
structure MPMScheduler where
  max_dt_int_strength : Array3 Int
  max_dt_int_cfl : Array3 Int
  max_dt_int : Array3 Int
  belonging : Array3 Int
  states : Array3 Int
  updated : Array3 Int
  max_vel : Array3 Vector3
  min_vel : Array3 Vector3
  max_vel_expanded : Array3 Vector3
  min_vel_expanded : Array3 Vector3
  particle_groups : Int → List ParticlePtr
  res : Vector3i
  sim_res : Vector3i
  active_particles : List ParticlePtr
  active_grid_points : List Vector3i
  base_delta_t : ℚ
  cfl : ℚ
  strength_dt_mul : ℚ
  grid_block_size : Int
  node_id : Int
  heap : ParticlePtr → MPMParticle

/-- The float literal `1e30f` (its exact value). -/
def FLT_1e30 : ℚ := 1000000015047466219876688855040

/-- The sentinel `1LL << 60`. -/
def DT_INF : Int := 2 ^ 60

/-- The bucket index `x * res[1] * res[2] + y * res[2] + z` of a block. -/
def bucket_index (res : Vector3i) (x y z : Int) : Int :=
  res.z * res.y * x + res.z * y + z

/-- The assignments of `MPMScheduler::initialize` once the lattice resolution `res` is
computed. -/
def initialize_fields (heap : ParticlePtr → MPMParticle) (sim_res res : Vector3i)
    (base_delta_t cfl strength_dt_mul : ℚ) (node_id grid_block_size : Int) : MPMScheduler :=
  { max_dt_int_strength := fun _ => 0
    max_dt_int_cfl := fun _ => 0
    max_dt_int := fun _ => 1
    belonging := fun _ => 0
    states := fun _ => 0
    updated := fun _ => 1
    max_vel := fun _ => ⟨-FLT_1e30, -FLT_1e30, -FLT_1e30⟩
    min_vel := fun _ => ⟨FLT_1e30, FLT_1e30, FLT_1e30⟩
    max_vel_expanded := fun _ => ⟨0, 0, 0⟩
    min_vel_expanded := fun _ => ⟨0, 0, 0⟩
    particle_groups := fun _ => []
    res := res
    sim_res := sim_res
    active_particles := []
    active_grid_points := []
    base_delta_t := base_delta_t
    cfl := cfl
    strength_dt_mul := strength_dt_mul
    grid_block_size := grid_block_size
    node_id := node_id
    heap := heap }

/-- `MPMScheduler::initialize`.  The three divisions by `grid_block_size` fail when it is
zero.  The level set pointer is not part of the embedding. -/
def initialize_scheduler (heap : ParticlePtr → MPMParticle) (sim_res : Vector3i) (base_delta_t cfl
    strength_dt_mul : ℚ) (node_id grid_block_size : Int) : Option MPMScheduler :=
  if grid_block_size = 0 then none
  else
    some (initialize_fields heap sim_res
      ⟨Int.tdiv (sim_res.x + grid_block_size - 1) grid_block_size,
       Int.tdiv (sim_res.y + grid_block_size - 1) grid_block_size,
       Int.tdiv (sim_res.z + grid_block_size - 1) grid_block_size⟩
      base_delta_t cfl strength_dt_mul node_id grid_block_size)

/-- `MPMScheduler::reset`: `states = 0`. -/
def reset (s : MPMScheduler) : MPMScheduler :=
  { s with states := fun _ => 0 }

/-- `MPMScheduler::has_particle`: the bucket of the block is not empty. -/
def has_particle (s : MPMScheduler) (ind : Index3D) : Bool :=
  decide (0 < (s.particle_groups (ind.i * s.res.y * s.res.z + ind.j * s.res.z + ind.k)).length)

/-- One iteration of the loop of `set_time`.  The remainder `t_int % max_dt_int[ind]` fails
for a zero divisor. -/
def set_time_step (t_int : Int) (s : MPMScheduler) (ind : Index3D) : Option MPMScheduler :=
  if s.max_dt_int ind = 0 then none
  else if Int.tmod t_int (s.max_dt_int ind) = 0 then
    some { s with states := s.states.set ind 1 }
  else some s

/-- `MPMScheduler::set_time`. -/
def set_time (s : MPMScheduler) (t_int : Int) : Option MPMScheduler :=
  (get_region s.res).foldlM (set_time_step t_int) s

/-! ### expand -/

/-- The arrays written by the lambda `update` of `expand`. -/
structure ExpandAcc where
  new_min_vel : Array3 Vector3
  new_max_vel : Array3 Vector3
  new_states : Array3 Int

/-- The lambda `update` of `expand`, called for the block `ind` and the offset
`(dx, dy, dz)`: it writes into the entries of the neighbour. -/
def expand_update (expand_vel expand_state : Bool) (min_vel max_vel : Array3 Vector3)
    (states : Array3 Int) (acc : ExpandAcc) (ind : Index3D) (dx dy dz : Int) : ExpandAcc :=
  let nb := ind.neighbour dx dy dz
  let acc1 : ExpandAcc :=
    if expand_vel then
      { acc with
        new_min_vel := acc.new_min_vel.set nb
          ⟨min (acc.new_min_vel nb).x (min_vel ind).x,
           min (acc.new_min_vel nb).y (min_vel ind).y,
           min (acc.new_min_vel nb).z (min_vel ind).z⟩
        new_max_vel := acc.new_max_vel.set nb
          ⟨max (acc.new_max_vel nb).x (max_vel ind).x,
           max (acc.new_max_vel nb).y (max_vel ind).y,
           max (acc.new_max_vel nb).z (max_vel ind).z⟩ }
    else acc
  if expand_state then
    if states ind ≠ 0 then { acc1 with new_states := acc1.new_states.set nb 1 } else acc1
  else acc1

/-- The body of the three offset loops of `expand` for one block `ind`. -/
def expand_block (res : Vector3i) (expand_vel expand_state : Bool)
    (min_vel max_vel : Array3 Vector3) (states : Array3 Int) (acc : ExpandAcc)
    (ind : Index3D) : ExpandAcc :=
  neighbour_offsets.foldl
    (fun a d =>
      if inside res (ind.neighbour d.1 d.2.1 d.2.2) then
        expand_update expand_vel expand_state min_vel max_vel states a ind d.1 d.2.1 d.2.2
      else a)
    acc

/-- `MPMScheduler::expand`. -/
def expand (s : MPMScheduler) (expand_vel expand_state : Bool) : MPMScheduler :=
  let old_states := s.states
  let acc0 : ExpandAcc :=
    { new_min_vel := fun _ => ⟨FLT_1e30, FLT_1e30, FLT_1e30⟩
      new_max_vel := fun _ => ⟨-FLT_1e30, -FLT_1e30, -FLT_1e30⟩
      new_states := fun _ => 0 }
  let acc := (get_region s.res).foldl
    (expand_block s.res expand_vel expand_state s.min_vel s.max_vel s.states) acc0
  let s1 := { s with min_vel_expanded := acc.new_min_vel, max_vel_expanded := acc.new_max_vel }
  if expand_state then
    { s1 with states := fun p => acc.new_states p + old_states p }
  else s1

/-! ### update -/

/-- The block coordinate `int(pos / grid_block_size)` of a particle (`get_rough_pos`, and the
same expressions in `insert_particle` and `update_particle_states`). -/
def get_rough_pos (s : MPMScheduler) (p : ParticlePtr) : Index3D :=
  ⟨real_to_int ((s.heap p).pos.x / (s.grid_block_size : ℚ)),
   real_to_int ((s.heap p).pos.y / (s.grid_block_size : ℚ)),
   real_to_int ((s.heap p).pos.z / (s.grid_block_size : ℚ))⟩

/-- The write `heap[p] = v` into the particle memory. -/
def heap_set (h : ParticlePtr → MPMParticle) (p : ParticlePtr) (v : MPMParticle) :
    ParticlePtr → MPMParticle :=
  fun q => if q = p then v else h q

/-- The float literal `0.7f` (its exact value). -/
def FLT_0_7 : ℚ := 11744051 / 16777216

/-- The float literal `0.3f` (its exact value). -/
def FLT_0_3 : ℚ := 5033165 / 16777216

/-- `MPMScheduler::update_particle_states`. -/
def update_particle_states (s : MPMScheduler) : MPMScheduler :=
  s.active_particles.foldl
    (fun st p =>
      let q := st.heap p
      if st.states (get_rough_pos st p) = 2 then
        let q1 : MPMParticle := { q with color := ⟨1, 1, 1⟩, state := ParticleState.UPDATING }
        { st with heap := heap_set st.heap p q1 }
      else
        let q1 : MPMParticle :=
          { q with color := ⟨FLT_0_7, FLT_0_7, FLT_0_7⟩, state := ParticleState.BUFFER }
        { st with heap := heap_set st.heap p q1 })
    s

/-- `MPMScheduler::reset_particle_states`. -/
def reset_particle_states (s : MPMScheduler) : MPMScheduler :=
  s.active_particles.foldl
    (fun st p =>
      let q := st.heap p
      let q1 : MPMParticle :=
        { q with state := ParticleState.INACTIVE, color := ⟨FLT_0_3, FLT_0_3, FLT_0_3⟩ }
      { st with heap := heap_set st.heap p q1 })
    s

/-- The grid nodes `(i, j, k)` with `0 ≤ i ≤ sim_res[0]`, `0 ≤ j ≤ sim_res[1]`,
`0 ≤ k ≤ sim_res[2]` in the order of the loops of `update`. -/
def grid_nodes (sim_res : Vector3i) : List Vector3i :=
  (range_int (sim_res.x + 1)).flatMap fun i =>
    (range_int (sim_res.y + 1)).flatMap fun j =>
      (range_int (sim_res.z + 1)).map fun k => Vector3i.mk i j k

/-- The body of the grid node loops of `update`.  The divisions by `grid_block_size` fail when
it is zero, and the read `states[i / grid_block_size][j / grid_block_size][k / grid_block_size]`
fails when that index is outside the array. -/
def update_grid_step (s : MPMScheduler) (acc : List Vector3i) (p : Vector3i) :
    Option (List Vector3i) :=
  if s.grid_block_size = 0 then none
  else if inside s.res ⟨Int.tdiv p.x s.grid_block_size, Int.tdiv p.y s.grid_block_size,
      Int.tdiv p.z s.grid_block_size⟩ = false then none
  else if s.states ⟨Int.tdiv p.x s.grid_block_size, Int.tdiv p.y s.grid_block_size,
      Int.tdiv p.z s.grid_block_size⟩ ≠ 0 then some (acc ++ [p])
  else some acc

/-- The second loop of `update`: the buckets of the blocks with a non-zero state. -/
def collect_active_particles (s : MPMScheduler) : List ParticlePtr :=
  (get_region s.res).foldl
    (fun acc ind =>
      if s.states ind ≠ 0 then
        acc ++ s.particle_groups (s.res.z * s.res.y * ind.i + s.res.z * ind.j + ind.k)
      else acc)
    []

/-- `MPMScheduler::update`. -/
def update (s : MPMScheduler) : Option MPMScheduler :=
  match (grid_nodes s.sim_res).foldlM (update_grid_step s) [] with
  | none => none
  | some pts =>
    some (update_particle_states
      { s with active_grid_points := pts, active_particles := collect_active_particles s })

/-! ### update_max_dt_int -/

/-- One iteration of the loop of `update_max_dt_int` on the scheduler and the running
minimum `ret`.  The remainder `t_int % max_dt_int[ind]` fails for a zero divisor. -/
def update_max_dt_int_step (t_int : Int) (acc : MPMScheduler × Int) (ind : Index3D) :
    Option (MPMScheduler × Int) :=
  let s := acc.1
  let ret := acc.2
  let this_step_limit := min (s.max_dt_int_cfl ind) (s.max_dt_int_strength ind)
  if s.max_dt_int ind = 0 then none
  else
    let allowed_multiplier : Int := if Int.tmod t_int (s.max_dt_int ind) = 0 then 2 else 1
    let s1 := { s with
      max_dt_int := s.max_dt_int.set ind (min (s.max_dt_int ind * allowed_multiplier)
        this_step_limit) }
    if has_particle s1 ind then some (s1, min ret (s1.max_dt_int ind))
    else some (s1, ret)

/-- `MPMScheduler::update_max_dt_int`: the scheduler after the call and the returned value. -/
def update_max_dt_int (s : MPMScheduler) (t_int : Int) : Option (MPMScheduler × Int) :=
  (get_region s.res).foldlM (update_max_dt_int_step t_int) (s, DT_INF)

/-! ### particle buckets -/

/-- The write `particle_groups[index] = v`. -/
def groups_set (g : Int → List ParticlePtr) (index : Int) (v : List ParticlePtr) :
    Int → List ParticlePtr :=
  fun n => if n = index then v else g n

/-- `MPMScheduler::insert_particle`. -/
def insert_particle (s : MPMScheduler) (p : ParticlePtr) (is_new_particle : Bool) :
    MPMScheduler :=
  let x := real_to_int ((s.heap p).pos.x / (s.grid_block_size : ℚ))
  let y := real_to_int ((s.heap p).pos.y / (s.grid_block_size : ℚ))
  let z := real_to_int ((s.heap p).pos.z / (s.grid_block_size : ℚ))
  if inside s.res ⟨x, y, z⟩ then
    let index := s.res.z * s.res.y * x + s.res.z * y + z
    let s1 := { s with
      particle_groups := groups_set s.particle_groups index (s.particle_groups index ++ [p])
      updated := s.updated.set ⟨x, y, z⟩ 1 }
    if is_new_particle then
      { s1 with
        max_dt_int := s1.max_dt_int.set ⟨x, y, z⟩ 1
        active_particles := s1.active_particles ++ [p] }
    else s1
  else s

/-- `MPMScheduler::update_particle_groups`. -/
def update_particle_groups (s : MPMScheduler) : MPMScheduler :=
  let s1 := (get_region s.res).foldl
    (fun st ind =>
      if st.states ind = 0 then st
      else
        { st with
          particle_groups := groups_set st.particle_groups
            (st.res.z * st.res.y * ind.i + st.res.z * ind.j + ind.k) []
          updated := st.updated.set ind 1 })
    s
  s1.active_particles.foldl (fun st p => insert_particle st p false) s1

/-! ### enforce_smoothness -/

/-- The body of the three offset loops of `enforce_smoothness` for one block `ind`: reads come
from `max_dt_int`, writes go to `new_max_dt_int`. -/
def smooth_block (res : Vector3i) (max_dt_int : Array3 Int) (new_max_dt_int : Array3 Int)
    (ind : Index3D) : Array3 Int :=
  neighbour_offsets.foldl
    (fun nw d =>
      let neighbour_ind := ind.neighbour d.1 d.2.1 d.2.2
      if inside res neighbour_ind then
        nw.set ind (min (nw ind) (max_dt_int neighbour_ind * 2))
      else nw)
    new_max_dt_int

/-- `MPMScheduler::enforce_smoothness`. -/
def enforce_smoothness (s : MPMScheduler) (_t_int_increment : Int) : MPMScheduler :=
  let new_max_dt_int := (get_region s.res).foldl
    (fun nw ind => if s.states ind ≠ 0 then smooth_block s.res s.max_dt_int nw ind else nw)
    s.max_dt_int
  { s with max_dt_int := new_max_dt_int }

/-! ### update_dt_limits -/

/-- Rounding of a rational to the nearest integer, ties to the even one. -/
def round_half_even (q : ℚ) : Int :=
  if q - (⌊q⌋ : ℚ) < 1 / 2 then ⌊q⌋
  else if 1 / 2 < q - (⌊q⌋ : ℚ) then ⌊q⌋ + 1
  else if ⌊q⌋ % 2 = 0 then ⌊q⌋ else ⌊q⌋ + 1

/-- The binary exponent of a float near `x`: `floor(log2 |x|)`, and `-126` in the subnormal
range. -/
def float_exponent (x : ℚ) : Int :=
  max (Int.log 2 |x|) (-126)

/-- The binary32 value nearest to `x`, ties to even: `x` is rounded to a multiple of
`2 ^ (float_exponent x - 23)`.  The exponent is not bounded from above: a result of magnitude
`2 ^ 128` or more is one that overflows, and stands for the infinity of its sign. -/
def round_f32 (x : ℚ) : ℚ :=
  (round_half_even (x / 2 ^ (float_exponent x - 23)) : ℚ) * 2 ^ (float_exponent x - 23)

/-- The float sum `a + b` of two floats, of which `b` is finite. -/
def fadd (a b : ℚ) : ℚ := round_f32 (a + b)

/-- The float difference `a - b` of two finite floats. -/
def fsub (a b : ℚ) : ℚ := round_f32 (a - b)

/-- The float product `a * b` of two finite floats. -/
def fmul (a b : ℚ) : ℚ := round_f32 (a * b)

/-- The float quotient `a / b`.  A dividend that is not finite gives a quotient that is not
finite, and so does the divisor zero (an infinity, or the NaN of `0 / 0`); an infinite divisor
gives the quotient zero.  Of a quotient that is not finite only the magnitude `2 ^ 128` or more
is meant, not the sign: the scheduler only converts such a quotient to `int64`. -/
def fdiv (a b : ℚ) : ℚ :=
  if 2 ^ 128 ≤ |a| then a
  else if b = 0 then 2 ^ 128
  else if 2 ^ 128 ≤ |b| then 0
  else round_f32 (a / b)

/-- The conversion `int64(x)` of a float: truncation towards zero.  For a value outside the range
of `int64`, among them the values that are not finite, the conversion is undefined in C++; the
embedding gives it the result of the x86-64 conversion instruction, `-2^63`. -/
def real_to_int64 (x : ℚ) : Int :=
  if -2 ^ 63 ≤ real_to_int x ∧ real_to_int x < 2 ^ 63 then real_to_int x else -2 ^ 63

/-- The float literal `0.01f` (its exact value). -/
def FLT_0_01 : ℚ := 5368709 / 536870912

/-- The float literal `1e-7f` (its exact value). -/
def FLT_1e_7 : ℚ := 14073749 / 140737488355328

/-- `LevelSet3D::INF`, the float `1e7f` (`levelset.h`). -/
def LevelSet3D_INF : ℚ := 10000000

/-- Modelled from the spec: `get_largest_pot` (`round_down_to_pot` in the spec), the helper of
`mpm_utils.h`, which is not among the sources: the largest power of two that does not exceed
the argument.  The spec describes it for arguments that are at least 1; below 1 this model
returns 1. -/
def get_largest_pot (a : Int) : Int :=
  2 ^ Nat.log 2 a.toNat

/-- Modelled from the spec: `Index3D::get_pos` of `taichi/math/array.h`, which is not among the
sources: the centre of the cell, `(i + 1/2, j + 1/2, k + 1/2)`. -/
def Index3D.get_pos (ind : Index3D) : Vector3 :=
  ⟨(ind.i : ℚ) + 1 / 2, (ind.j : ℚ) + 1 / 2, (ind.k : ℚ) + 1 / 2⟩

/-- The level set `DynamicLevelSet3D` behind the pointer `levelset`, an object of the caller,
by the two queries that the scheduler makes: `inside(pos)` and `sample(pos, t)`. -/
structure DynamicLevelSet3D where
  inside : Vector3 → Bool
  sample : Vector3 → ℚ → ℚ

/-- The body of the particle loop in the first block loop of `update_dt_limits`, for the
particle `p` of the block `ind`. -/
def dt_limits_particle (ind : Index3D) (st : MPMScheduler) (p : ParticlePtr) : MPMScheduler :=
  let allowed_t_int_inc :=
    real_to_int64 (fdiv (fmul st.strength_dt_mul (st.heap p).allowed_dt) st.base_delta_t)
  let allowed_t_int_inc := if allowed_t_int_inc ≤ 0 then 1 else allowed_t_int_inc
  let march_interval := get_largest_pot allowed_t_int_inc
  let tmp_min : Vector3 :=
    ⟨min (st.min_vel ind).x (st.heap p).v.x, min (st.min_vel ind).y (st.heap p).v.y,
     min (st.min_vel ind).z (st.heap p).v.z⟩
  let tmp_max : Vector3 :=
    ⟨max (st.max_vel ind).x (st.heap p).v.x, max (st.max_vel ind).y (st.heap p).v.y,
     max (st.max_vel ind).z (st.heap p).v.z⟩
  { st with
    max_dt_int_strength :=
      st.max_dt_int_strength.set ind (min (st.max_dt_int_strength ind) march_interval)
    min_vel := st.min_vel.set ind tmp_min
    max_vel := st.max_vel.set ind tmp_max }

/-- The body of the first block loop of `update_dt_limits`: a block whose dirty flag is 0 is
skipped; a dirty block gets its flag cleared and its limits and velocity extrema reset, and
then takes in its particles. -/
def dt_limits_block (st : MPMScheduler) (ind : Index3D) : MPMScheduler :=
  if st.updated ind = 0 then st
  else
    let st1 : MPMScheduler :=
      { st with
        updated := st.updated.set ind 0
        max_dt_int_strength := st.max_dt_int_strength.set ind DT_INF
        max_dt_int_cfl := st.max_dt_int_cfl.set ind DT_INF
        min_vel := st.min_vel.set ind ⟨FLT_1e30, FLT_1e30, FLT_1e30⟩
        max_vel := st.max_vel.set ind ⟨-FLT_1e30, -FLT_1e30, -FLT_1e30⟩ }
    (st1.particle_groups (st1.res.z * st1.res.y * ind.i + st1.res.z * ind.j + ind.k)).foldl
      (dt_limits_particle ind) st1

/-- The body of the second block loop of `update_dt_limits`: the CFL limit of the block from
the expanded velocity extrema and the distance to the boundary. -/
def dt_limits_cfl (levelset : DynamicLevelSet3D) (t : ℚ) (st : MPMScheduler) (ind : Index3D) :
    MPMScheduler :=
  let hi := st.max_vel_expanded ind
  let lo := st.min_vel_expanded ind
  let block_vel :=
    fadd (max (max (fsub hi.x lo.x) (fsub hi.y lo.y)) (fsub hi.z lo.z)) FLT_1e_7
  if block_vel < 0 then st
  else
    let cfl_limit := real_to_int64 (fdiv (fdiv st.cfl block_vel) st.base_delta_t)
    let cfl_limit := if cfl_limit ≤ 0 then 1 else cfl_limit
    let block_absolute_vel :=
      max (max (max (max (max (max FLT_1e_7 |lo.x|) |hi.x|) |lo.y|) |hi.y|) |lo.z|) |hi.z|
    let levelset_query_position : Vector3 :=
      ⟨fmul ind.get_pos.x (round_f32 (st.grid_block_size : ℚ)),
       fmul ind.get_pos.y (round_f32 (st.grid_block_size : ℚ)),
       fmul ind.get_pos.z (round_f32 (st.grid_block_size : ℚ))⟩
    let last_distance :=
      if levelset.inside levelset_query_position = true then
        levelset.sample levelset_query_position t
      else 0
    let cfl_limit :=
      if last_distance < LevelSet3D_INF then
        let distance2boundary :=
          max (fsub last_distance (fmul (round_f32 (st.grid_block_size : ℚ)) (3 / 4))) (1 / 2)
        let boundary_limit :=
          real_to_int64
            (fdiv (fdiv (fmul st.cfl distance2boundary) block_absolute_vel) st.base_delta_t)
        min cfl_limit boundary_limit
      else cfl_limit
    { st with max_dt_int_cfl := st.max_dt_int_cfl.set ind (get_largest_pot cfl_limit) }

/-- `MPMScheduler::update_dt_limits` for the simulation time `t`, with the level set that the
member `levelset` points to. -/
def update_dt_limits (levelset : DynamicLevelSet3D) (s : MPMScheduler) (t : ℚ) : MPMScheduler :=
  let s1 := (get_region s.res).foldl dt_limits_block s
  let s2 := expand s1 true false
  (get_region s2.res).foldl (dt_limits_cfl levelset t) s2

/-! ## Notions used in the statements -/

/-- A power of two `2 ^ k` with `k ≥ 0`, that is a power of two that is at least 1. -/
def is_pot (x : Int) : Prop :=
  ∃ k : Nat, x = 2 ^ k

/-- Lattice adjacency (26-connectivity): different blocks whose coordinates differ by at most
one on every axis. -/
def adjacent (a b : Index3D) : Prop :=
  a ≠ b ∧ |a.i - b.i| ≤ 1 ∧ |a.j - b.j| ≤ 1 ∧ |a.k - b.k| ≤ 1

instance (a b : Index3D) : Decidable (adjacent a b) := by
  unfold adjacent
  infer_instance

/-- Rounding towards zero, in the words of the statements: the floor of a non-negative real and
the ceiling of a negative one. -/
def trunc_toward_zero (r : ℚ) : Int :=
  if 0 ≤ r then ⌊r⌋ else ⌈r⌉

/-- The block coordinate of a particle in the words of the statements: every component of
`pos / grid_block_size` rounded towards zero. -/
def trunc_block (s : MPMScheduler) (p : ParticlePtr) : Index3D :=
  ⟨trunc_toward_zero ((s.heap p).pos.x / (s.grid_block_size : ℚ)),
   trunc_toward_zero ((s.heap p).pos.y / (s.grid_block_size : ℚ)),
   trunc_toward_zero ((s.heap p).pos.z / (s.grid_block_size : ℚ))⟩

/-- The particle `q` belongs into the bucket `n`: its block coordinate
`int(pos / grid_block_size)` is inside the lattice and has the bucket index `n`. -/
def lands_in (s : MPMScheduler) (n : Int) (q : ParticlePtr) : Bool :=
  inside s.res (get_rough_pos s q) &&
    decide (n = bucket_index s.res (get_rough_pos s q).i (get_rough_pos s q).j
      (get_rough_pos s q).k)

/-- The tag that `update_particle_states` gives to a particle: `UPDATING` when the state of the
block at its block coordinate `int(pos / grid_block_size)` is 2, and `BUFFER` otherwise. -/
def particle_tag (s : MPMScheduler) (p : ParticlePtr) : ParticleState :=
  if s.states (get_rough_pos s p) = 2 then ParticleState.UPDATING else ParticleState.BUFFER

/-- The particle record after `update_particle_states` has visited the particle: the tag and the
colour that goes with it are written, the other members are kept. -/
def tagged (s : MPMScheduler) (p : ParticlePtr) : MPMParticle :=
  if s.states (get_rough_pos s p) = 2 then
    { s.heap p with color := ⟨1, 1, 1⟩, state := ParticleState.UPDATING }
  else
    { s.heap p with color := ⟨FLT_0_7, FLT_0_7, FLT_0_7⟩, state := ParticleState.BUFFER }

/-- Every grid node that `update` enumerates has its block index
`(i / grid_block_size, j / grid_block_size, k / grid_block_size)` inside the lattice, so that
`update` reads the state array within its bounds. -/
def nodes_owned (s : MPMScheduler) : Prop :=
  ∀ p ∈ grid_nodes s.sim_res,
    inside s.res ⟨Int.tdiv p.x s.grid_block_size, Int.tdiv p.y s.grid_block_size,
      Int.tdiv p.z s.grid_block_size⟩ = true

instance (s : MPMScheduler) : Decidable (nodes_owned s) := by
  unfold nodes_owned
  infer_instance

/-- The block that owns a grid node, in the words of the statements:
`(i div grid_block_size, j div grid_block_size, k div grid_block_size)`. -/
def owning_block (s : MPMScheduler) (p : Vector3i) : Index3D :=
  ⟨p.x / s.grid_block_size, p.y / s.grid_block_size, p.z / s.grid_block_size⟩

/-- The bucket of a block: `particle_groups[res[2] * res[1] * i + res[2] * j + k]`. -/
def bucket (s : MPMScheduler) (b : Index3D) : List ParticlePtr :=
  s.particle_groups (bucket_index s.res b.i b.j b.k)

/-- The number of base steps that the strength of a particle allows: the integer part
`int64(strength_dt_mul * allowed_dt / base_delta_t)` of the float product and quotient, replaced
by 1 when it is not positive. -/
def strength_steps (s : MPMScheduler) (p : ParticlePtr) : Int :=
  if real_to_int64 (fdiv (fmul s.strength_dt_mul (s.heap p).allowed_dt) s.base_delta_t) ≤ 0
  then 1
  else real_to_int64 (fdiv (fmul s.strength_dt_mul (s.heap p).allowed_dt) s.base_delta_t)

/-- The strength limit that `update_dt_limits` computes for a dirty block: the running minimum,
started at the sentinel `1LL << 60`, of `get_largest_pot` of the step counts of the particles
in the bucket of the block. -/
def strength_limit (s : MPMScheduler) (b : Index3D) : Int :=
  (bucket s b).foldl (fun m p => min m (get_largest_pot (strength_steps s p))) DT_INF

/-- The component of a vector on the axis `a`: `v[a]`. -/
def Vector3.axis (v : Vector3) (a : Fin 3) : ℚ :=
  match a with
  | 0 => v.x
  | 1 => v.y
  | 2 => v.z

/-- The component-wise minimum of two vectors. -/
def vmin (a v : Vector3) : Vector3 :=
  ⟨min a.x v.x, min a.y v.y, min a.z v.z⟩

/-- The component-wise maximum of two vectors. -/
def vmax (a v : Vector3) : Vector3 :=
  ⟨max a.x v.x, max a.y v.y, max a.z v.z⟩

/-- The block `b` is among the in-bounds targets of the offset loops of the block `ind`. -/
def targets (res : Vector3i) (ind b : Index3D) : Prop :=
  ∃ d ∈ neighbour_offsets,
    inside res (ind.neighbour d.1 d.2.1 d.2.2) = true ∧ b = ind.neighbour d.1 d.2.1 d.2.2

instance (res : Vector3i) (ind b : Index3D) : Decidable (targets res ind b) := by
  unfold targets
  infer_instance

/-- The velocity minimum that `update_dt_limits` computes for a dirty block: the running
component-wise minimum, started at the sentinel `1e30`, of the velocities of the particles in the
bucket of the block. -/
def block_min_vel (s : MPMScheduler) (b : Index3D) : Vector3 :=
  (bucket s b).foldl (fun m p => vmin m (s.heap p).v) ⟨FLT_1e30, FLT_1e30, FLT_1e30⟩

/-- The velocity maximum that `update_dt_limits` computes for a dirty block: the running
component-wise maximum, started at the sentinel `-1e30`, of the velocities of the particles in
the bucket of the block. -/
def block_max_vel (s : MPMScheduler) (b : Index3D) : Vector3 :=
  (bucket s b).foldl (fun m p => vmax m (s.heap p).v) ⟨-FLT_1e30, -FLT_1e30, -FLT_1e30⟩

/-- The velocity extent `block_vel` of the second loop of `update_dt_limits`: the largest range
`max_vel_expanded - min_vel_expanded` over the three axes, plus `1e-7f`, in float arithmetic. -/
def block_vel (st : MPMScheduler) (ind : Index3D) : ℚ :=
  fadd (max (max (fsub (st.max_vel_expanded ind).x (st.min_vel_expanded ind).x)
    (fsub (st.max_vel_expanded ind).y (st.min_vel_expanded ind).y))
    (fsub (st.max_vel_expanded ind).z (st.min_vel_expanded ind).z)) FLT_1e_7

/-- The clamped CFL bound of a block: the integer part `int64(cfl / block_vel / base_delta_t)` of
the float quotients, replaced by 1 when it is not positive. -/
def cfl_bound (st : MPMScheduler) (ind : Index3D) : Int :=
  if real_to_int64 (fdiv (fdiv st.cfl (block_vel st ind)) st.base_delta_t) ≤ 0 then 1
  else real_to_int64 (fdiv (fdiv st.cfl (block_vel st ind)) st.base_delta_t)

/-- The absolute velocity `block_absolute_vel` of a block: the largest absolute value among the
components of the expanded extrema, at least `1e-7f`. -/
def block_absolute_vel (st : MPMScheduler) (ind : Index3D) : ℚ :=
  max (max (max (max (max (max FLT_1e_7 |(st.min_vel_expanded ind).x|)
    |(st.max_vel_expanded ind).x|) |(st.min_vel_expanded ind).y|)
    |(st.max_vel_expanded ind).y|) |(st.min_vel_expanded ind).z|)
    |(st.max_vel_expanded ind).z|

/-- The position at which the level set is queried for a block:
`ind.get_pos() * real(grid_block_size)`, in float arithmetic. -/
def query_position (st : MPMScheduler) (ind : Index3D) : Vector3 :=
  ⟨fmul ind.get_pos.x (round_f32 (st.grid_block_size : ℚ)),
   fmul ind.get_pos.y (round_f32 (st.grid_block_size : ℚ)),
   fmul ind.get_pos.z (round_f32 (st.grid_block_size : ℚ))⟩

/-- The distance `last_distance` of a block to the boundary: the sample of the level set when the
query position is inside its domain, and 0 otherwise. -/
def last_distance (levelset : DynamicLevelSet3D) (t : ℚ) (st : MPMScheduler) (ind : Index3D) : ℚ :=
  if levelset.inside (query_position st ind) = true then
    levelset.sample (query_position st ind) t
  else 0

/-- The bound `boundary_limit` of a block for the margin `distance2boundary`: the integer part
`int64(cfl * distance2boundary / block_absolute_vel / base_delta_t)` of the float product and
quotients. -/
def boundary_bound (st : MPMScheduler) (ind : Index3D) (distance2boundary : ℚ) : Int :=
  real_to_int64
    (fdiv (fdiv (fmul st.cfl distance2boundary) (block_absolute_vel st ind)) st.base_delta_t)

/-- The margin `distance2boundary` of a block for the distance `last_distance`:
`max(last_distance - real(grid_block_size) * 0.75f, 0.5f)`, in float arithmetic. -/
def boundary_margin (st : MPMScheduler) (last_distance : ℚ) : ℚ :=
  max (fsub last_distance (fmul (round_f32 (st.grid_block_size : ℚ)) (3 / 4))) (1 / 2)

/-- The argument that the second loop of `update_dt_limits` passes to `get_largest_pot` for a
block it does not skip: the clamped CFL bound, lowered to the boundary bound for the margin
`max(last_distance - 0.75 * grid_block_size, 0.5)` when `last_distance` is below
`LevelSet3D::INF`. -/
def cfl_argument (levelset : DynamicLevelSet3D) (t : ℚ) (st : MPMScheduler) (ind : Index3D) :
    Int :=
  if last_distance levelset t st ind < LevelSet3D_INF then
    min (cfl_bound st ind)
      (boundary_bound st ind (boundary_margin st (last_distance levelset t st ind)))
  else cfl_bound st ind

/-- The number of buckets that `initialize` allocates:
`particle_groups.resize(res[0] * res[1] * res[2])`. -/
def bucket_count (res : Vector3i) : Int :=
  res.x * res.y * res.z

/-- The value that `update_max_dt_int(t_int)` assigns to `max_dt_int` of a block:
`min(old * allowed_multiplier, min(max_dt_int_cfl, max_dt_int_strength))`. -/
def next_max_dt_int (s : MPMScheduler) (t_int : Int) (b : Index3D) : Int :=
  min (s.max_dt_int b * (if Int.tmod t_int (s.max_dt_int b) = 0 then 2 else 1))
    (min (s.max_dt_int_cfl b) (s.max_dt_int_strength b))

/-- Both step limits of every block of the lattice are powers of two that are at least 1. -/
def limits_pot (s : MPMScheduler) : Prop :=
  ∀ b, inside s.res b = true → is_pot (s.max_dt_int_cfl b) ∧ is_pot (s.max_dt_int_strength b)

/-- What a call of `update_dt_limits` can change: the dirty flags, the two step limits and the
velocity extrema.  Its floating point arithmetic is not part of this relation, which only fixes
the members the function leaves alone. -/
def update_dt_limits_frame (s s' : MPMScheduler) : Prop :=
  s'.max_dt_int = s.max_dt_int ∧ s'.belonging = s.belonging ∧ s'.states = s.states ∧
  s'.particle_groups = s.particle_groups ∧ s'.res = s.res ∧ s'.sim_res = s.sim_res ∧
  s'.active_particles = s.active_particles ∧ s'.active_grid_points = s.active_grid_points ∧
  s'.base_delta_t = s.base_delta_t ∧ s'.cfl = s.cfl ∧ s'.strength_dt_mul = s.strength_dt_mul ∧
  s'.grid_block_size = s.grid_block_size ∧ s'.node_id = s.node_id ∧ s'.heap = s.heap

/-- The scheduler states reachable from `initialize` through the public operations, where
`update_max_dt_int` is only called in states that satisfy `Q`.  Between two operations the
caller may move the particles (rewrite the particle memory). -/
inductive Reachable (Q : MPMScheduler → Prop) : MPMScheduler → Prop
  | init (heap : ParticlePtr → MPMParticle) (sim_res : Vector3i) (base_delta_t cfl
      strength_dt_mul : ℚ) (node_id grid_block_size : Int) (s : MPMScheduler) :
      initialize_scheduler heap sim_res base_delta_t cfl strength_dt_mul node_id
        grid_block_size = some s → Reachable Q s
  | insert (s : MPMScheduler) (p : ParticlePtr) (is_new_particle : Bool) :
      Reachable Q s → Reachable Q (insert_particle s p is_new_particle)
  | regroup (s : MPMScheduler) : Reachable Q s → Reachable Q (update_particle_groups s)
  | dt_limits (s s' : MPMScheduler) :
      Reachable Q s → update_dt_limits_frame s s' → Reachable Q s'
  | max_dt (s s' : MPMScheduler) (t_int r : Int) :
      Reachable Q s → Q s → update_max_dt_int s t_int = some (s', r) → Reachable Q s'
  | smooth (s : MPMScheduler) (t_int_increment : Int) :
      Reachable Q s → Reachable Q (enforce_smoothness s t_int_increment)
  | time (s s' : MPMScheduler) (t_int : Int) :
      Reachable Q s → set_time s t_int = some s' → Reachable Q s'
  | expansion (s : MPMScheduler) (expand_vel expand_state : Bool) :
      Reachable Q s → Reachable Q (expand s expand_vel expand_state)
  | activate (s s' : MPMScheduler) : Reachable Q s → update s = some s' → Reachable Q s'
  | clear (s : MPMScheduler) : Reachable Q s → Reachable Q (reset s)
  | clear_particles (s : MPMScheduler) : Reachable Q s → Reachable Q (reset_particle_states s)
  | tag (s : MPMScheduler) : Reachable Q s → Reachable Q (update_particle_states s)
  | move (s : MPMScheduler) (heap : ParticlePtr → MPMParticle) :
      Reachable Q s → Reachable Q { s with heap := heap }

/-- The scheduler states reachable from `initialize` through the public operations when
`expand(_, true)` runs at most once after each `reset`.  The flag tells whether the states have
been expanded since the last `reset`. -/
inductive CycleReachable : Bool → MPMScheduler → Prop
  | init (heap : ParticlePtr → MPMParticle) (sim_res : Vector3i) (base_delta_t cfl
      strength_dt_mul : ℚ) (node_id grid_block_size : Int) (s : MPMScheduler) :
      initialize_scheduler heap sim_res base_delta_t cfl strength_dt_mul node_id
        grid_block_size = some s → CycleReachable false s
  | clear (e : Bool) (s : MPMScheduler) : CycleReachable e s → CycleReachable false (reset s)
  | time (e : Bool) (s s' : MPMScheduler) (t_int : Int) :
      CycleReachable e s → set_time s t_int = some s' → CycleReachable e s'
  | expansion (s : MPMScheduler) (expand_vel : Bool) :
      CycleReachable false s → CycleReachable true (expand s expand_vel true)
  | expansion_vel (e : Bool) (s : MPMScheduler) (expand_vel : Bool) :
      CycleReachable e s → CycleReachable e (expand s expand_vel false)
  | activate (e : Bool) (s s' : MPMScheduler) :
      CycleReachable e s → update s = some s' → CycleReachable e s'
  | insert (e : Bool) (s : MPMScheduler) (p : ParticlePtr) (is_new_particle : Bool) :
      CycleReachable e s → CycleReachable e (insert_particle s p is_new_particle)
  | regroup (e : Bool) (s : MPMScheduler) :
      CycleReachable e s → CycleReachable e (update_particle_groups s)
  | dt_limits (e : Bool) (s s' : MPMScheduler) :
      CycleReachable e s → update_dt_limits_frame s s' → CycleReachable e s'
  | max_dt (e : Bool) (s s' : MPMScheduler) (t_int r : Int) :
      CycleReachable e s → update_max_dt_int s t_int = some (s', r) → CycleReachable e s'
  | smooth (e : Bool) (s : MPMScheduler) (t_int_increment : Int) :
      CycleReachable e s → CycleReachable e (enforce_smoothness s t_int_increment)
  | clear_particles (e : Bool) (s : MPMScheduler) :
      CycleReachable e s → CycleReachable e (reset_particle_states s)
  | tag (e : Bool) (s : MPMScheduler) :
      CycleReachable e s → CycleReachable e (update_particle_states s)
  | move (e : Bool) (s : MPMScheduler) (heap : ParticlePtr → MPMParticle) :
      CycleReachable e s → CycleReachable e { s with heap := heap }

/-- The running minimum that the offset loops of `enforce_smoothness` compute for the block
`ind`, started at `m0`. -/
def smooth_value (res : Vector3i) (max_dt_int : Array3 Int) (m0 : Int) (ind : Index3D) : Int :=
  neighbour_offsets.foldl
    (fun m d =>
      if inside res (ind.neighbour d.1 d.2.1 d.2.2) = true then
        min m (max_dt_int (ind.neighbour d.1 d.2.1 d.2.2) * 2)
      else m)
    m0

/-! ## Concrete schedulers for the examples -/

/-- A particle memory in which particle `n` rests at `(n + 1/2, 1/2, 1/2)`. -/
def heap_line : ParticlePtr → MPMParticle :=
  fun n => ⟨⟨(n : ℚ) + 1 / 2, 1 / 2, 1 / 2⟩, ⟨0, 0, 0⟩, 1, ParticleState.INACTIVE, ⟨0, 0, 0⟩⟩

/-- The scheduler right after `initialize` for a line of `n` blocks of size 1
(`sim_res = (n, 1, 1)`, `grid_block_size = 1`). -/
def line_scheduler (n : Int) : MPMScheduler :=
  initialize_fields heap_line ⟨n, 1, 1⟩ ⟨n, 1, 1⟩ 1 1 1 0 1

/-- The line of `n` blocks in which block `i` holds exactly the particle `i` and has the step
multiple `dt i` and the state `st i`. -/
def line_with (n : Int) (dt st : Int → Int) : MPMScheduler :=
  { line_scheduler n with
    max_dt_int := fun b => dt b.i
    states := fun b => st b.i
    particle_groups := fun m => if 0 ≤ m ∧ m < n then [m.toNat] else [] }


/-- A line of two blocks after a run of `update_dt_limits`: step multiples 4 and 1, CFL limits
16, strength limits 8, block 0 updating, block 1 a buffer, one particle in each block. -/
def line_4_1 : MPMScheduler :=
  { line_with 2 (fun i => if i = 0 then 4 else 1) (fun i => if i = 0 then 2 else 1) with
    max_dt_int_cfl := fun _ => 16
    max_dt_int_strength := fun _ => 8 }

/-- The line of one block after a first run of `update_dt_limits` that found the CFL limit 16
and the strength limit 8 and cleared the dirty flag. -/
def line_limits : MPMScheduler :=
  { line_scheduler 1 with
    max_dt_int_cfl := fun _ => 16
    max_dt_int_strength := fun _ => 8
    updated := fun _ => 0 }

/-- A line of three updating blocks with the step multiples 16, 16, 1, one particle in each
block. -/
def line_16_16_1 : MPMScheduler :=
  line_with 3 (fun i => if i = 2 then 1 else 16) (fun _ => 2)

/-- A line of two blocks: block 0 is updating, holds particle 0 and has the step multiple 16;
block 1 is a buffer, holds no particle and has the stale step multiple `v`. -/
def line_16_stale (v : Int) : MPMScheduler :=
  { line_with 2 (fun i => if i = 0 then 16 else v) (fun i => if i = 0 then 2 else 1) with
    particle_groups := fun m => if m = 0 then [0] else [] }

/-- A particle memory in which every particle rests at `(-1/2, 1/2, 1/2)`, just outside the
lattice on the negative side of the first axis. -/
def heap_left : ParticlePtr → MPMParticle :=
  fun _ => ⟨⟨-1 / 2, 1 / 2, 1 / 2⟩, ⟨0, 0, 0⟩, 1, ParticleState.INACTIVE, ⟨0, 0, 0⟩⟩

/-- The scheduler right after `initialize` for one block of size 1, with the particle memory
`heap_left`. -/
def block_left : MPMScheduler :=
  initialize_fields heap_left ⟨1, 1, 1⟩ ⟨1, 1, 1⟩ 1 1 1 0 1

/-- A line of three updating blocks right after `initialize`, `set_time(0)` and
`expand(false, true)`: no particle has been inserted yet. -/
def line_active : MPMScheduler :=
  { line_scheduler 3 with states := fun _ => 2 }

/-- A line of two blocks of size 2 over the grid `sim_res = (3, 1, 1)`: block 0 is updating and
holds the particles 0 and 1, block 1 is a buffer and holds the particle 2; every grid node is
owned by a block of the lattice. -/
def coarse_line : MPMScheduler :=
  { initialize_fields heap_line ⟨3, 1, 1⟩ ⟨2, 1, 1⟩ 1 1 1 0 2 with
    states := fun b => if b = ⟨0, 0, 0⟩ then 2 else if b = ⟨1, 0, 0⟩ then 1 else 0
    particle_groups := fun m => if m = 0 then [0, 1] else if m = 1 then [2] else [] }

/-- A level set with an empty domain: no position is inside. -/
def empty_levelset : DynamicLevelSet3D :=
  { inside := fun _ => false, sample := fun _ _ => 0 }

/-- A particle memory in which every particle rests at the origin and moves with the velocity
`(2, 0, 0)`. -/
def heap_origin : ParticlePtr → MPMParticle :=
  fun _ => ⟨⟨0, 0, 0⟩, ⟨2, 0, 0⟩, 1, ParticleState.INACTIVE, ⟨0, 0, 0⟩⟩

/-- The scheduler right after `initialize` for `sim_res = (4, 4, 4)`, `grid_block_size = 4`,
`base_delta_t = 0.01f` and `cfl = 1` over the particle memory `h`: one block. -/
def cube_scheduler (h : ParticlePtr → MPMParticle) : MPMScheduler :=
  initialize_fields h ⟨4, 4, 4⟩ ⟨1, 1, 1⟩ FLT_0_01 1 1 0 4

/-- The scheduler right after `initialize` for `sim_res = (4, 4, 4)` and `grid_block_size = 4`,
with `base_delta_t = 0.01f` and `cfl = 1`: the lattice has the single block `(0, 0, 0)`. -/
def cube_4 : MPMScheduler :=
  cube_scheduler heap_origin

/-- The line of three blocks of size 1 right after `initialize` and `insert_particle(p, true)`
for the particle 0 at `(1/2, 1/2, 1/2)`: block 0 holds the particle, the blocks 1 and 2 are
empty, and every block is dirty. -/
def line_one_particle : MPMScheduler :=
  insert_particle (line_scheduler 3) 0 true

/-- The scheduler right after `initialize` for `sim_res = (4, 4, 4)`, `grid_block_size = 4`,
`base_delta_t = 0.01f` and `cfl = 1` over the particle memory `h`, followed by
`insert_particle(p, true)` for the particle 0. -/
def single_particle (h : ParticlePtr → MPMParticle) : MPMScheduler :=
  insert_particle (cube_scheduler h) 0 true

/-- A particle memory in which every particle rests at the origin and moves with the velocity
`(100, 0, 0)`. -/
def heap_fast : ParticlePtr → MPMParticle :=
  fun _ => ⟨⟨0, 0, 0⟩, ⟨100, 0, 0⟩, 1, ParticleState.INACTIVE, ⟨0, 0, 0⟩⟩

/-- A level set that contains every position and reports the distance `LevelSet3D::INF`
everywhere: no boundary is in reach. -/
def far_levelset : DynamicLevelSet3D :=
  { inside := fun _ => true, sample := fun _ _ => LevelSet3D_INF }

/-- A level set that contains every position and reports the distance 1 everywhere. -/
def near_levelset : DynamicLevelSet3D :=
  { inside := fun _ => true, sample := fun _ _ => 1 }

/-- The line of two blocks of size 2 in which the bucket of the updating block 0 holds the
particle 0 twice and the bucket of block 1 is empty. -/
def coarse_duplicate : MPMScheduler :=
  { coarse_line with particle_groups := fun m => if m = 0 then [0, 0] else [] }

/-- A line of one block of size 1 that holds the particle 0 and has the step multiple 2, the CFL
limit 16 and the strength limit 8. -/
def line_2 : MPMScheduler :=
  { line_with 1 (fun _ => 2) (fun _ => 2) with
    max_dt_int_cfl := fun _ => 16
    max_dt_int_strength := fun _ => 8 }

/-! ## Lemmas on regions and offsets -/

theorem mem_range_int (n x : Int) : x ∈ range_int n ↔ 0 ≤ x ∧ x < n := by
  unfold range_int
  constructor
  · intro h
    obtain ⟨m, hm, rfl⟩ := List.mem_map.mp h
    have := List.mem_range.mp hm
    constructor
    · exact Int.ofNat_nonneg m
    · have h2 : (m : Int) < (n.toNat : Int) := by exact_mod_cast this
      have h3 : ((n.toNat : Nat) : Int) = max n 0 := Int.toNat_eq_max n
      simp only [Int.ofNat_eq_coe]
      omega
  · rintro ⟨h0, h1⟩
    refine List.mem_map.mpr ⟨x.toNat, List.mem_range.mpr ?_, ?_⟩
    · omega
    · simp only [Int.ofNat_eq_coe]
      omega

theorem nodup_range_int (n : Int) : (range_int n).Nodup := by
  unfold range_int
  refine List.Nodup.map ?_ (List.nodup_range _)
  intro a b h
  exact Int.ofNat.inj h

theorem inside_iff (res : Vector3i) (b : Index3D) :
    inside res b = true ↔
      (0 ≤ b.i ∧ b.i < res.x) ∧ (0 ≤ b.j ∧ b.j < res.y) ∧ (0 ≤ b.k ∧ b.k < res.z) := by
  simp [inside, and_assoc]

theorem mem_get_region (res : Vector3i) (b : Index3D) :
    b ∈ get_region res ↔ inside res b = true := by
  rw [inside_iff]
  unfold get_region
  simp only [List.mem_flatMap, List.mem_map, mem_range_int]
  constructor
  · rintro ⟨i, hi, j, hj, k, hk, rfl⟩
    exact ⟨hi, hj, hk⟩
  · rintro ⟨hi, hj, hk⟩
    exact ⟨b.i, hi, b.j, hj, b.k, hk, rfl⟩

theorem nodup_get_region (res : Vector3i) : (get_region res).Nodup := by
  unfold get_region
  rw [List.nodup_flatMap]
  refine ⟨?_, ?_⟩
  · intro i _
    rw [List.nodup_flatMap]
    refine ⟨?_, ?_⟩
    · intro j _
      refine List.Nodup.map ?_ (nodup_range_int _)
      intro a b h
      injection h
    · refine List.Pairwise.imp_of_mem ?_ (nodup_range_int res.y)
      intro a b _ _ hab
      intro x hx hx2
      simp only [List.mem_map] at hx hx2
      obtain ⟨k, _, rfl⟩ := hx
      obtain ⟨k2, _, h2⟩ := hx2
      injection h2 with _ h3 _
      exact hab h3.symm
  · refine List.Pairwise.imp_of_mem ?_ (nodup_range_int res.x)
    intro a b _ _ hab
    intro x hx hx2
    simp only [List.mem_flatMap, List.mem_map] at hx hx2
    obtain ⟨j, _, k, _, rfl⟩ := hx
    obtain ⟨j2, _, k2, _, h2⟩ := hx2
    injection h2 with h3 _ _
    exact hab h3.symm


/-! ## set_time -/

/-- The loop of `set_time` over any list of blocks with non-zero divisors terminates normally
and changes only the states: the visited blocks whose step multiple divides `t_int` get 1. -/
theorem set_time_fold (t_int : Int) :
    ∀ (l : List Index3D) (s : MPMScheduler), (∀ b ∈ l, s.max_dt_int b ≠ 0) →
      l.foldlM (set_time_step t_int) s = some
        { s with states := fun b =>
            if b ∈ l ∧ Int.tmod t_int (s.max_dt_int b) = 0 then 1 else s.states b } := by
  intro l
  induction l with
  | nil => intro s _; simp
  | cons a l ih =>
    intro s h
    have ha : s.max_dt_int a ≠ 0 := h a (List.mem_cons_self a l)
    have hl : ∀ b ∈ l, s.max_dt_int b ≠ 0 := fun b hb => h b (List.mem_cons_of_mem a hb)
    rw [List.foldlM_cons]
    by_cases hm : Int.tmod t_int (s.max_dt_int a) = 0
    · have hstep : set_time_step t_int s a = some { s with states := s.states.set a 1 } := by
        simp [set_time_step, ha, hm]
      rw [hstep]
      simp only [Option.bind_eq_bind, Option.some_bind]
      rw [ih { s with states := s.states.set a 1 } hl]
      congr 2
      funext b
      by_cases hba : b = a
      · subst hba
        simp [hm, Array3.set]
      · simp [hba, Array3.set]
    · have hstep : set_time_step t_int s a = some s := by
        simp [set_time_step, ha, hm]
      rw [hstep]
      simp only [Option.bind_eq_bind, Option.some_bind]
      rw [ih s hl]
      congr 2
      funext b
      by_cases hba : b = a
      · subst hba
        simp [hm]
      · simp [hba]

/-- `set_time` on a scheduler whose step multiples are non-zero on the lattice. -/
theorem set_time_eq (s : MPMScheduler) (t_int : Int)
    (h : ∀ b, inside s.res b = true → s.max_dt_int b ≠ 0) :
    set_time s t_int = some
      { s with states := fun b =>
          if inside s.res b = true ∧ Int.tmod t_int (s.max_dt_int b) = 0 then 1
          else s.states b } := by
  unfold set_time
  rw [set_time_fold t_int _ s (fun b hb => h b ((mem_get_region _ _).mp hb))]
  congr 2
  funext b
  simp only [mem_get_region]


/-! ## update_max_dt_int -/

/-- A running minimum over the selected elements of a list is below its start value and below
every selected value, and it is the start value or one of the selected values. -/
theorem foldl_min_spec {β : Type} (P : β → Bool) (v : β → Int) :
    ∀ (l : List β) (r0 : Int),
      l.foldl (fun r b => if P b = true then min r (v b) else r) r0 ≤ r0 ∧
      (∀ b ∈ l, P b = true →
        l.foldl (fun r b => if P b = true then min r (v b) else r) r0 ≤ v b) ∧
      (l.foldl (fun r b => if P b = true then min r (v b) else r) r0 = r0 ∨
        ∃ b ∈ l, P b = true ∧
          l.foldl (fun r b => if P b = true then min r (v b) else r) r0 = v b) := by
  intro l
  induction l with
  | nil => intro r0; simp
  | cons a l ih =>
    intro r0
    simp only [List.foldl_cons]
    obtain ⟨h1, h2, h3⟩ := ih (if P a = true then min r0 (v a) else r0)
    have hstart : (if P a = true then min r0 (v a) else r0) ≤ r0 := by
      split
      · exact min_le_left _ _
      · exact le_refl _
    refine ⟨le_trans h1 hstart, ?_, ?_⟩
    · intro b hb hP
      rcases List.mem_cons.mp hb with rfl | hb
      · refine le_trans h1 ?_
        simp only [hP, if_true]
        exact min_le_right _ _
      · exact h2 b hb hP
    · rcases h3 with h3 | ⟨b, hb, hP, h3⟩
      · by_cases hPa : P a = true
        · simp only [hPa, if_true] at h3 ⊢
          rcases min_choice r0 (v a) with hc | hc
          · left; rw [h3]; exact hc
          · right
            refine ⟨a, List.mem_cons_self a l, hPa, ?_⟩
            rw [h3]; exact hc
        · left
          simpa [hPa] using h3
      · exact Or.inr ⟨b, List.mem_cons_of_mem a hb, hP, h3⟩

/-- Two folds agree when their step functions agree on the elements of the list. -/
theorem foldl_congr_mem {α β : Type} (f g : α → β → α) :
    ∀ (l : List β) (r : α), (∀ r, ∀ b ∈ l, f r b = g r b) → l.foldl f r = l.foldl g r := by
  intro l
  induction l with
  | nil => intro r _; rfl
  | cons a l ih =>
    intro r h
    simp only [List.foldl_cons]
    rw [h r a (List.mem_cons_self a l)]
    exact ih _ (fun r b hb => h r b (List.mem_cons_of_mem a hb))

/-- The loop of `update_max_dt_int` over a list of distinct blocks with non-zero divisors
terminates normally; the visited blocks get `next_max_dt_int`, and the running minimum takes in
the new values of the visited blocks that hold a particle. -/
theorem update_max_dt_int_fold (t_int : Int) :
    ∀ (l : List Index3D) (s : MPMScheduler) (r : Int), l.Nodup →
      (∀ b ∈ l, s.max_dt_int b ≠ 0) →
      l.foldlM (update_max_dt_int_step t_int) (s, r) = some
        ({ s with max_dt_int := fun b =>
            if b ∈ l then next_max_dt_int s t_int b else s.max_dt_int b },
         l.foldl (fun r b => if has_particle s b = true then min r (next_max_dt_int s t_int b)
            else r) r) := by
  intro l
  induction l with
  | nil => intro s r _ _; simp
  | cons a l ih =>
    intro s r hnd h
    have ha : s.max_dt_int a ≠ 0 := h a (List.mem_cons_self a l)
    have hal : a ∉ l := (List.nodup_cons.mp hnd).1
    have hndl : l.Nodup := (List.nodup_cons.mp hnd).2
    let s1 : MPMScheduler :=
      { s with max_dt_int := s.max_dt_int.set a (next_max_dt_int s t_int a) }
    have hs1 : ∀ b ∈ l, s1.max_dt_int b = s.max_dt_int b := by
      intro b hb
      have : b ≠ a := fun hba => hal (hba ▸ hb)
      simp [s1, Array3.set, this]
    have hnext : ∀ b ∈ l, next_max_dt_int s1 t_int b = next_max_dt_int s t_int b := by
      intro b hb
      show min (s1.max_dt_int b * (if Int.tmod t_int (s1.max_dt_int b) = 0 then 2 else 1))
        (min (s.max_dt_int_cfl b) (s.max_dt_int_strength b)) = _
      rw [hs1 b hb]
      rfl
    have hstep : update_max_dt_int_step t_int (s, r) a =
        some (s1, if has_particle s a = true then min r (next_max_dt_int s t_int a) else r) := by
      simp only [update_max_dt_int_step, ha, if_false]
      have hp : ∀ v, has_particle { s with max_dt_int := v } a = has_particle s a :=
        fun _ => rfl
      rw [hp]
      by_cases hpa : has_particle s a = true
      · simp [hpa, s1, next_max_dt_int, Array3.set]
      · simp [hpa, s1, next_max_dt_int]
    rw [List.foldlM_cons, hstep]
    simp only [Option.bind_eq_bind, Option.some_bind]
    rw [ih s1 _ hndl (fun b hb => by rw [hs1 b hb]; exact h b (List.mem_cons_of_mem a hb))]
    congr 2
    · congr 1
      funext b
      by_cases hba : b = a
      · subst hba
        simp [hal, s1, Array3.set]
      · by_cases hbl : b ∈ l
        · simp [hba, hbl, hnext b hbl]
        · simp [hba, hbl, s1, Array3.set]
    · simp only [List.foldl_cons]
      apply foldl_congr_mem
      intro r b hb
      have hp : has_particle s1 b = has_particle s b := rfl
      rw [hp, hnext b hb]

/-- `update_max_dt_int` on a scheduler whose step multiples are non-zero on the lattice. -/
theorem update_max_dt_int_eq (s : MPMScheduler) (t_int : Int)
    (h : ∀ b, inside s.res b = true → s.max_dt_int b ≠ 0) :
    update_max_dt_int s t_int = some
      ({ s with max_dt_int := fun b =>
          if inside s.res b = true then next_max_dt_int s t_int b else s.max_dt_int b },
       (get_region s.res).foldl
         (fun r b => if has_particle s b = true then min r (next_max_dt_int s t_int b) else r)
         DT_INF) := by
  unfold update_max_dt_int
  rw [update_max_dt_int_fold t_int _ s DT_INF (nodup_get_region _)
    (fun b hb => h b ((mem_get_region _ _).mp hb))]
  congr 3
  funext b
  simp only [mem_get_region]


/-! ## expand -/

theorem mem_neighbour_offsets (d : Int × Int × Int) :
    d ∈ neighbour_offsets ↔
      (-1 ≤ d.1 ∧ d.1 ≤ 1) ∧ (-1 ≤ d.2.1 ∧ d.2.1 ≤ 1) ∧ (-1 ≤ d.2.2 ∧ d.2.2 ≤ 1) := by
  have hmem : ∀ x : Int, x ∈ ([-1, 0, 1] : List Int) ↔ (-1 ≤ x ∧ x ≤ 1) := by
    intro x
    simp only [List.mem_cons, List.mem_singleton, List.not_mem_nil, or_false]
    omega
  unfold neighbour_offsets
  simp only [List.mem_flatMap, List.mem_map, hmem]
  constructor
  · rintro ⟨dx, hx, dy, hy, dz, hz, rfl⟩
    exact ⟨hx, hy, hz⟩
  · rintro ⟨hx, hy, hz⟩
    exact ⟨d.1, hx, d.2.1, hy, d.2.2, hz, rfl⟩

/-- Two blocks are equal or adjacent exactly when one is the other shifted by an offset of the
neighbour loops. -/
theorem offset_iff_near (a b : Index3D) :
    (∃ d ∈ neighbour_offsets, a.neighbour d.1 d.2.1 d.2.2 = b) ↔ (a = b ∨ adjacent a b) := by
  constructor
  · rintro ⟨d, hd, rfl⟩
    rw [mem_neighbour_offsets] at hd
    obtain ⟨⟨h1, h2⟩, ⟨h3, h4⟩, h5, h6⟩ := hd
    by_cases h : a = a.neighbour d.1 d.2.1 d.2.2
    · exact Or.inl h
    · refine Or.inr ⟨h, ?_, ?_, ?_⟩ <;> simp only [Index3D.neighbour] <;> rw [abs_le] <;>
        constructor <;> omega
  · intro h
    have hb : |a.i - b.i| ≤ 1 ∧ |a.j - b.j| ≤ 1 ∧ |a.k - b.k| ≤ 1 := by
      rcases h with rfl | h
      · simp
      · exact h.2
    obtain ⟨h1, h2, h3⟩ := hb
    rw [abs_le] at h1 h2 h3
    refine ⟨(b.i - a.i, b.j - a.j, b.k - a.k), ?_, ?_⟩
    · rw [mem_neighbour_offsets]
      refine ⟨⟨?_, ?_⟩, ⟨?_, ?_⟩, ?_, ?_⟩ <;> simp only <;> omega
    · cases b
      simp [Index3D.neighbour]

theorem adjacent_symm {a b : Index3D} (h : adjacent a b) : adjacent b a := by
  obtain ⟨h0, h1, h2, h3⟩ := h
  exact ⟨fun e => h0 e.symm, by rwa [abs_sub_comm], by rwa [abs_sub_comm], by rwa [abs_sub_comm]⟩

/-- The effect of one guarded call of the lambda of `expand` on `new_states`. -/
theorem expand_step_states (res : Vector3i) (ev es : Bool) (minv maxv : Array3 Vector3)
    (states : Array3 Int) (acc : ExpandAcc) (ind : Index3D) (d : Int × Int × Int) :
    (if inside res (ind.neighbour d.1 d.2.1 d.2.2) = true then
        expand_update ev es minv maxv states acc ind d.1 d.2.1 d.2.2
      else acc).new_states =
      fun b => if es = true ∧ states ind ≠ 0 ∧ inside res (ind.neighbour d.1 d.2.1 d.2.2) = true
          ∧ b = ind.neighbour d.1 d.2.1 d.2.2 then 1 else acc.new_states b := by
  funext b
  by_cases hin : inside res (ind.neighbour d.1 d.2.1 d.2.2) = true
  · rw [if_pos hin]
    cases ev <;> cases es <;> by_cases hs : states ind = 0 <;>
      simp [expand_update, hin, hs, Array3.set]
  · simp [hin]


/-- The offset loops of `expand` for one block: `new_states` becomes 1 exactly at the in-bounds
targets of the block when the block has a non-zero state. -/
theorem expand_block_states (res : Vector3i) (ev es : Bool) (minv maxv : Array3 Vector3)
    (states : Array3 Int) (ind : Index3D) :
    ∀ (ds : List (Int × Int × Int)) (acc : ExpandAcc) (b : Index3D),
      (ds.foldl
        (fun a d =>
          if inside res (ind.neighbour d.1 d.2.1 d.2.2) then
            expand_update ev es minv maxv states a ind d.1 d.2.1 d.2.2
          else a) acc).new_states b =
        if es = true ∧ states ind ≠ 0 ∧ ∃ d ∈ ds,
            inside res (ind.neighbour d.1 d.2.1 d.2.2) = true ∧ b = ind.neighbour d.1 d.2.1 d.2.2
        then 1 else acc.new_states b := by
  intro ds
  induction ds with
  | nil => intro acc b; simp
  | cons d ds ih =>
    intro acc b
    rw [List.foldl_cons, ih, expand_step_states]
    beta_reduce
    by_cases h1 : es = true ∧ states ind ≠ 0
    · obtain ⟨he, hs⟩ := h1
      by_cases h2 : ∃ d ∈ ds,
          inside res (ind.neighbour d.1 d.2.1 d.2.2) = true ∧ b = ind.neighbour d.1 d.2.1 d.2.2
      · have h3 : ∃ e ∈ d :: ds,
            inside res (ind.neighbour e.1 e.2.1 e.2.2) = true ∧ b = ind.neighbour e.1 e.2.1 e.2.2 := by
          obtain ⟨e, he1, he2⟩ := h2
          exact ⟨e, List.mem_cons_of_mem d he1, he2⟩
        rw [if_pos ⟨he, hs, h2⟩, if_pos ⟨he, hs, h3⟩]
      · rw [if_neg (fun h => h2 h.2.2)]
        by_cases h4 : inside res (ind.neighbour d.1 d.2.1 d.2.2) = true ∧
            b = ind.neighbour d.1 d.2.1 d.2.2
        · rw [if_pos ⟨he, hs, h4⟩, if_pos ⟨he, hs, d, List.mem_cons_self d ds, h4⟩]
        · rw [if_neg (fun h => h4 h.2.2), if_neg]
          rintro ⟨_, _, e, he1, he2⟩
          rcases List.mem_cons.mp he1 with rfl | he1
          · exact h4 he2
          · exact h2 ⟨e, he1, he2⟩
    · rw [if_neg (fun h => h1 ⟨h.1, h.2.1⟩), if_neg (fun h => h1 ⟨h.1, h.2.1⟩),
        if_neg (fun h => h1 ⟨h.1, h.2.1⟩)]

/-- The block loop of `expand`: `new_states` becomes 1 exactly at the in-bounds targets of the
visited blocks with a non-zero state. -/
theorem expand_fold_states (res : Vector3i) (ev es : Bool) (minv maxv : Array3 Vector3)
    (states : Array3 Int) :
    ∀ (l : List Index3D) (acc : ExpandAcc) (b : Index3D),
      (l.foldl (expand_block res ev es minv maxv states) acc).new_states b =
        if es = true ∧ ∃ ind ∈ l, states ind ≠ 0 ∧ ∃ d ∈ neighbour_offsets,
            inside res (ind.neighbour d.1 d.2.1 d.2.2) = true ∧ b = ind.neighbour d.1 d.2.1 d.2.2
        then 1 else acc.new_states b := by
  intro l
  induction l with
  | nil => intro acc b; simp
  | cons a l ih =>
    intro acc b
    rw [List.foldl_cons, ih]
    unfold expand_block
    rw [expand_block_states]
    by_cases he : es = true
    · by_cases h2 : ∃ ind ∈ l, states ind ≠ 0 ∧ ∃ d ∈ neighbour_offsets,
          inside res (ind.neighbour d.1 d.2.1 d.2.2) = true ∧ b = ind.neighbour d.1 d.2.1 d.2.2
      · have h3 : ∃ ind ∈ a :: l, states ind ≠ 0 ∧ ∃ d ∈ neighbour_offsets,
            inside res (ind.neighbour d.1 d.2.1 d.2.2) = true ∧
              b = ind.neighbour d.1 d.2.1 d.2.2 := by
          obtain ⟨e, he1, he2⟩ := h2
          exact ⟨e, List.mem_cons_of_mem a he1, he2⟩
        rw [if_pos ⟨he, h2⟩, if_pos ⟨he, h3⟩]
      · rw [if_neg (fun h => h2 h.2)]
        by_cases h4 : states a ≠ 0 ∧ ∃ d ∈ neighbour_offsets,
            inside res (a.neighbour d.1 d.2.1 d.2.2) = true ∧ b = a.neighbour d.1 d.2.1 d.2.2
        · rw [if_pos ⟨he, h4⟩, if_pos ⟨he, a, List.mem_cons_self a l, h4⟩]
        · rw [if_neg (fun h => h4 h.2), if_neg]
          rintro ⟨_, e, he1, he2⟩
          rcases List.mem_cons.mp he1 with rfl | he1
          · exact h4 he2
          · exact h2 ⟨e, he1, he2⟩
    · rw [if_neg (fun h => he h.1), if_neg (fun h => he h.1), if_neg (fun h => he h.1)]

/-- The states after `expand(_, true)`: the dilated mask (1 on every in-bounds block that is, or
is adjacent to, an in-bounds block with a non-zero state) plus the old state. -/
theorem expand_states (s : MPMScheduler) (ev : Bool) (b : Index3D) (hb : inside s.res b = true) :
    (expand s ev true).states b =
      (if ∃ a ∈ get_region s.res, s.states a ≠ 0 ∧ (a = b ∨ adjacent a b) then 1 else 0)
        + s.states b := by
  have h : (expand s ev true).states b =
      ((get_region s.res).foldl
        (expand_block s.res ev true s.min_vel s.max_vel s.states)
        { new_min_vel := fun _ => ⟨FLT_1e30, FLT_1e30, FLT_1e30⟩
          new_max_vel := fun _ => ⟨-FLT_1e30, -FLT_1e30, -FLT_1e30⟩
          new_states := fun _ => 0 }).new_states b + s.states b := rfl
  rw [h, expand_fold_states]
  congr 1
  apply if_congr _ rfl rfl
  constructor
  · rintro ⟨_, a, ha, hs, d, hd, _, hbd⟩
    exact ⟨a, ha, hs, (offset_iff_near a b).mp ⟨d, hd, hbd.symm⟩⟩
  · rintro ⟨a, ha, hs, hab⟩
    obtain ⟨d, hd, hbd⟩ := (offset_iff_near a b).mpr hab
    exact ⟨rfl, a, ha, hs, d, hd, by rw [hbd]; exact hb, hbd.symm⟩

/-- `expand(_, false)` leaves the states alone. -/
theorem expand_states_off (s : MPMScheduler) (ev : Bool) :
    (expand s ev false).states = s.states := rfl


/-! ## enforce_smoothness -/

theorem array3_set_set {α : Type} (a : Array3 α) (ind : Index3D) (x y : α) :
    (a.set ind x).set ind y = a.set ind y := by
  funext p
  by_cases h : p = ind <;> simp [Array3.set, h]

theorem array3_set_self {α : Type} (a : Array3 α) (ind : Index3D) :
    a.set ind (a ind) = a := by
  funext p
  by_cases h : p = ind <;> simp [Array3.set, h]

/-- The offset loops of `enforce_smoothness` for one block only rewrite the entry of that
block, with the running minimum over its in-bounds targets. -/
theorem smooth_block_fold (res : Vector3i) (old : Array3 Int) (ind : Index3D) :
    ∀ (ds : List (Int × Int × Int)) (nw : Array3 Int),
      ds.foldl
        (fun nw d =>
          if inside res (ind.neighbour d.1 d.2.1 d.2.2) then
            nw.set ind (min (nw ind) (old (ind.neighbour d.1 d.2.1 d.2.2) * 2))
          else nw) nw =
      nw.set ind (ds.foldl
        (fun m d =>
          if inside res (ind.neighbour d.1 d.2.1 d.2.2) = true then
            min m (old (ind.neighbour d.1 d.2.1 d.2.2) * 2)
          else m) (nw ind)) := by
  intro ds
  induction ds with
  | nil => intro nw; simp [array3_set_self]
  | cons d ds ih =>
    intro nw
    rw [List.foldl_cons, List.foldl_cons, ih]
    by_cases hin : inside res (ind.neighbour d.1 d.2.1 d.2.2) = true
    · simp only [hin, if_true]
      rw [array3_set_set]
      simp [Array3.set]
    · simp only [hin]
      rfl

theorem smooth_block_eq (res : Vector3i) (old nw : Array3 Int) (ind : Index3D) :
    smooth_block res old nw ind = nw.set ind (smooth_value res old (nw ind) ind) := by
  unfold smooth_block smooth_value
  exact smooth_block_fold res old ind neighbour_offsets nw

/-- The block loop of `enforce_smoothness` over distinct blocks: every visited block with a
non-zero state gets the running minimum started at its own value. -/
theorem enforce_smoothness_fold (res : Vector3i) (states old : Array3 Int) :
    ∀ (l : List Index3D) (nw : Array3 Int) (b : Index3D), l.Nodup →
      (l.foldl (fun nw ind => if states ind ≠ 0 then smooth_block res old nw ind else nw) nw) b =
        if b ∈ l ∧ states b ≠ 0 then smooth_value res old (nw b) b else nw b := by
  intro l
  induction l with
  | nil => intro nw b _; simp
  | cons a l ih =>
    intro nw b hnd
    have hal : a ∉ l := (List.nodup_cons.mp hnd).1
    rw [List.foldl_cons, ih _ b (List.nodup_cons.mp hnd).2]
    by_cases hba : b = a
    · subst hba
      by_cases hs : states b = 0
      · simp [hs]
      · simp [hs, hal, smooth_block_eq, Array3.set]
    · by_cases hs : states a = 0
      · simp [hs, hba]
      · simp [hs, hba, smooth_block_eq, Array3.set]

/-- The step multiple of a block after `enforce_smoothness`. -/
theorem enforce_smoothness_eq (s : MPMScheduler) (t : Int) (b : Index3D) :
    (enforce_smoothness s t).max_dt_int b =
      if inside s.res b = true ∧ s.states b ≠ 0 then
        smooth_value s.res s.max_dt_int (s.max_dt_int b) b
      else s.max_dt_int b := by
  have h : (enforce_smoothness s t).max_dt_int b =
      ((get_region s.res).foldl
        (fun nw ind => if s.states ind ≠ 0 then smooth_block s.res s.max_dt_int nw ind else nw)
        s.max_dt_int) b := rfl
  rw [h, enforce_smoothness_fold _ _ _ _ _ _ (nodup_get_region _)]
  simp only [mem_get_region]

/-- The running minimum of `enforce_smoothness` in terms of the lattice: it is below the start
value and below twice the value of the block itself and of every in-bounds adjacent block, and
it is one of these numbers. -/
theorem smooth_value_spec (res : Vector3i) (old : Array3 Int) (m0 : Int) (b : Index3D) :
    smooth_value res old m0 b ≤ m0 ∧
    (∀ n, inside res n = true → (b = n ∨ adjacent b n) →
      smooth_value res old m0 b ≤ 2 * old n) ∧
    (smooth_value res old m0 b = m0 ∨
      ∃ n, inside res n = true ∧ (b = n ∨ adjacent b n) ∧
        smooth_value res old m0 b = 2 * old n) := by
  obtain ⟨h1, h2, h3⟩ := foldl_min_spec
    (fun d : Int × Int × Int => inside res (b.neighbour d.1 d.2.1 d.2.2))
    (fun d => old (b.neighbour d.1 d.2.1 d.2.2) * 2) neighbour_offsets m0
  refine ⟨h1, ?_, ?_⟩
  · intro n hn hnear
    obtain ⟨d, hd, rfl⟩ := (offset_iff_near b n).mpr hnear
    have := h2 d hd hn
    rw [mul_comm] at this
    exact this
  · rcases h3 with h3 | ⟨d, hd, hin, h3⟩
    · exact Or.inl h3
    · refine Or.inr ⟨b.neighbour d.1 d.2.1 d.2.2, hin, (offset_iff_near b _).mp ⟨d, hd, rfl⟩, ?_⟩
      rw [mul_comm] at h3
      exact h3


/-! ## insert_particle -/

/-- The conversion `int(r)` rounds towards zero. -/
theorem real_to_int_eq (r : ℚ) : real_to_int r = trunc_toward_zero r := by
  unfold real_to_int trunc_toward_zero
  by_cases h : 0 ≤ r
  · rw [if_pos h, Rat.floor_def]
    exact Int.tdiv_eq_ediv (Rat.num_nonneg.mpr h) (Int.ofNat_nonneg _)
  · rw [if_neg h]
    have hneg : 0 ≤ -r := by linarith
    have h1 : Int.tdiv r.num r.den = -(Int.tdiv (-r).num (-r).den) := by
      rw [Rat.num_neg_eq_neg_num, Rat.den_neg_eq_den, Int.neg_tdiv, neg_neg]
    rw [h1, Int.tdiv_eq_ediv (Rat.num_nonneg.mpr hneg) (Int.ofNat_nonneg _), ← Rat.floor_def,
      Int.floor_neg, neg_neg]

/-- For a non-negative real the conversion `int(r)` is the floor. -/
theorem real_to_int_of_nonneg (r : ℚ) (h : 0 ≤ r) : real_to_int r = ⌊r⌋ := by
  rw [real_to_int_eq, trunc_toward_zero, if_pos h]

/-- The buckets after `insert_particle`: the particle is appended to the bucket of its block
coordinate when that coordinate is inside the lattice, and nothing changes otherwise. -/
theorem insert_particle_groups (s : MPMScheduler) (p : ParticlePtr) (is_new : Bool) (n : Int) :
    (insert_particle s p is_new).particle_groups n =
      if inside s.res (get_rough_pos s p) = true ∧
          n = bucket_index s.res (get_rough_pos s p).i (get_rough_pos s p).j (get_rough_pos s p).k
      then s.particle_groups n ++ [p] else s.particle_groups n := by
  unfold insert_particle get_rough_pos bucket_index
  by_cases hin : inside s.res
      ⟨real_to_int ((s.heap p).pos.x / (s.grid_block_size : ℚ)),
       real_to_int ((s.heap p).pos.y / (s.grid_block_size : ℚ)),
       real_to_int ((s.heap p).pos.z / (s.grid_block_size : ℚ))⟩ = true
  · cases is_new <;> simp only [hin, if_true, true_and] <;>
      by_cases hn : n = s.res.z * s.res.y *
          real_to_int ((s.heap p).pos.x / (s.grid_block_size : ℚ)) +
          s.res.z * real_to_int ((s.heap p).pos.y / (s.grid_block_size : ℚ)) +
          real_to_int ((s.heap p).pos.z / (s.grid_block_size : ℚ)) <;>
      simp [groups_set, hn]
  · simp [hin]

/-- The step multiples after `insert_particle`. -/
theorem insert_particle_max_dt_int (s : MPMScheduler) (p : ParticlePtr) (is_new : Bool)
    (b : Index3D) :
    (insert_particle s p is_new).max_dt_int b =
      if inside s.res (get_rough_pos s p) = true ∧ is_new = true ∧ b = get_rough_pos s p
      then 1 else s.max_dt_int b := by
  unfold insert_particle get_rough_pos
  by_cases hin : inside s.res
      ⟨real_to_int ((s.heap p).pos.x / (s.grid_block_size : ℚ)),
       real_to_int ((s.heap p).pos.y / (s.grid_block_size : ℚ)),
       real_to_int ((s.heap p).pos.z / (s.grid_block_size : ℚ))⟩ = true
  · cases is_new <;> simp [hin, Array3.set]
  · simp [hin]

theorem insert_particle_res (s : MPMScheduler) (p : ParticlePtr) (is_new : Bool) :
    (insert_particle s p is_new).res = s.res := by
  unfold insert_particle
  cases is_new <;> simp only [] <;> split <;> rfl


/-! ## Powers of two and the reachable states -/

theorem is_pot_one : is_pot 1 := ⟨0, by simp⟩

theorem is_pot_double {x : Int} (h : is_pot x) : is_pot (x * 2) := by
  obtain ⟨k, rfl⟩ := h
  exact ⟨k + 1, by rw [pow_succ]⟩

theorem is_pot_min {x y : Int} (hx : is_pot x) (hy : is_pot y) : is_pot (min x y) := by
  rcases min_choice x y with h | h <;> rw [h] <;> assumption

theorem is_pot_pos {x : Int} (h : is_pot x) : 1 ≤ x := by
  obtain ⟨k, rfl⟩ := h
  exact one_le_pow₀ (by norm_num)

theorem not_is_pot_zero : ¬ is_pot 0 := fun h => by
  have := is_pot_pos h
  omega

/-- A property that every step of a fold keeps holds at the end of the fold. -/
theorem foldl_keeps {α β : Type} (P : α → Prop) (f : α → β → α)
    (hf : ∀ a x, P a → P (f a x)) : ∀ (l : List β) (a : α), P a → P (l.foldl f a) := by
  intro l
  induction l with
  | nil => intro a h; exact h
  | cons x l ih => intro a h; exact ih _ (hf a x h)

theorem is_pot_next_max_dt_int (s : MPMScheduler) (t_int : Int) (b : Index3D)
    (h : is_pot (s.max_dt_int b)) (hc : is_pot (s.max_dt_int_cfl b))
    (hs : is_pot (s.max_dt_int_strength b)) : is_pot (next_max_dt_int s t_int b) := by
  unfold next_max_dt_int
  refine is_pot_min ?_ (is_pot_min hc hs)
  split
  · exact is_pot_double h
  · rw [mul_one]; exact h

theorem is_pot_smooth_value (res : Vector3i) (old : Array3 Int) (m0 : Int) (b : Index3D)
    (h0 : is_pot m0) (h : ∀ n, is_pot (old n)) : is_pot (smooth_value res old m0 b) := by
  obtain ⟨_, _, h3⟩ := smooth_value_spec res old m0 b
  rcases h3 with h3 | ⟨n, _, _, h3⟩
  · rw [h3]; exact h0
  · rw [h3, mul_comm]; exact is_pot_double (h n)

theorem update_particle_groups_max_dt_int (s : MPMScheduler) :
    (update_particle_groups s).max_dt_int = s.max_dt_int := by
  unfold update_particle_groups
  have h1 : ((get_region s.res).foldl
      (fun st ind =>
        if st.states ind = 0 then st
        else
          { st with
            particle_groups := groups_set st.particle_groups
              (st.res.z * st.res.y * ind.i + st.res.z * ind.j + ind.k) []
            updated := st.updated.set ind 1 })
      s).max_dt_int = s.max_dt_int := by
    apply foldl_keeps (fun st : MPMScheduler => st.max_dt_int = s.max_dt_int)
    · intro a x ha
      show (if a.states x = 0 then a else _).max_dt_int = s.max_dt_int
      split
      · exact ha
      · exact ha
    · rfl
  simp only []
  rw [← h1]
  apply foldl_keeps (fun st : MPMScheduler => st.max_dt_int = _)
  · intro a x ha
    show (insert_particle a x false).max_dt_int = _
    funext b
    rw [insert_particle_max_dt_int]
    simp [ha]
  · rfl

theorem update_particle_states_max_dt_int (s : MPMScheduler) :
    (update_particle_states s).max_dt_int = s.max_dt_int := by
  unfold update_particle_states
  apply foldl_keeps (fun st : MPMScheduler => st.max_dt_int = s.max_dt_int)
  · intro a x ha
    dsimp only
    split
    · exact ha
    · exact ha
  · rfl

theorem reset_particle_states_max_dt_int (s : MPMScheduler) :
    (reset_particle_states s).max_dt_int = s.max_dt_int := by
  unfold reset_particle_states
  apply foldl_keeps (fun st : MPMScheduler => st.max_dt_int = s.max_dt_int)
  · intro a x ha
    exact ha
  · rfl

theorem update_max_dt_int_of_some (s s' : MPMScheduler) (h : update s = some s') :
    s'.max_dt_int = s.max_dt_int := by
  unfold update at h
  split at h
  · exact absurd h (by simp)
  · injection h with h
    rw [← h, update_particle_states_max_dt_int]

theorem expand_max_dt_int (s : MPMScheduler) (ev es : Bool) :
    (expand s ev es).max_dt_int = s.max_dt_int := by
  cases es <;> rfl

/-- In the states reachable with power-of-two limits at every call of `update_max_dt_int`,
every step multiple is a power of two. -/
theorem reachable_is_pot (s : MPMScheduler) (h : Reachable limits_pot s) :
    ∀ b, is_pot (s.max_dt_int b) := by
  induction h with
  | init heap sim_res base_delta_t cfl strength_dt_mul node_id grid_block_size s hs =>
    intro b
    unfold initialize_scheduler at hs
    split at hs
    · exact absurd hs (by simp)
    · injection hs with hs
      rw [← hs]
      exact is_pot_one
  | insert s p is_new _ ih =>
    intro b
    rw [insert_particle_max_dt_int]
    split
    · exact is_pot_one
    · exact ih b
  | regroup s _ ih => intro b; rw [update_particle_groups_max_dt_int]; exact ih b
  | dt_limits s s' _ hf ih => intro b; rw [hf.1]; exact ih b
  | max_dt s s' t_int r _ hQ hstep ih =>
    intro b
    rw [update_max_dt_int_eq s t_int (fun b _ => by have := is_pot_pos (ih b); omega)] at hstep
    injection hstep with hstep
    injection hstep with hs' _
    rw [← hs']
    show is_pot (if inside s.res b = true then next_max_dt_int s t_int b else s.max_dt_int b)
    split
    · next hin => exact is_pot_next_max_dt_int s t_int b (ih b) (hQ b hin).1 (hQ b hin).2
    · exact ih b
  | smooth s t _ ih =>
    intro b
    rw [enforce_smoothness_eq]
    split
    · exact is_pot_smooth_value _ _ _ _ (ih b) ih
    · exact ih b
  | time s s' t_int _ hstep ih =>
    intro b
    rw [set_time_eq s t_int (fun b _ => by have := is_pot_pos (ih b); omega)] at hstep
    injection hstep with hstep
    rw [← hstep]
    exact ih b
  | expansion s ev es _ ih => intro b; rw [expand_max_dt_int]; exact ih b
  | activate s s' _ hstep ih => intro b; rw [update_max_dt_int_of_some s s' hstep]; exact ih b
  | clear s _ ih => exact ih
  | clear_particles s _ ih => intro b; rw [reset_particle_states_max_dt_int]; exact ih b
  | tag s _ ih => intro b; rw [update_particle_states_max_dt_int]; exact ih b
  | move s heap _ ih => exact ih


/-! ## Statements about `set_time` and `expand` -/

theorem line_scheduler_initialized (n : Int) :
    initialize_scheduler heap_line ⟨n, 1, 1⟩ 1 1 1 0 1 = some (line_scheduler n) := by
  simp [initialize_scheduler, line_scheduler]

/-- C1, counterexample.  A line of one block, freshly initialised and reset: `max_dt_int` is 1,
so `0 mod max_dt_int == 0`, and right after `set_time(0)` the state of the block is 1, not 2. -/
theorem set_time_leaves_state_one :
    ∃ s s', initialize_scheduler heap_line ⟨1, 1, 1⟩ 1 1 1 0 1 = some s ∧
      set_time (reset s) 0 = some s' ∧
      Int.tmod 0 (s'.max_dt_int ⟨0, 0, 0⟩) = 0 ∧ s'.states ⟨0, 0, 0⟩ = 1 ∧
      ¬ (s'.states ⟨0, 0, 0⟩ = 2 ↔ Int.tmod 0 (s'.max_dt_int ⟨0, 0, 0⟩) = 0) := by
  refine ⟨line_scheduler 1, _, line_scheduler_initialized 1,
    set_time_eq (reset (line_scheduler 1)) 0 ?_, ?_, ?_, ?_⟩
  · intro b _
    simp [reset, line_scheduler, initialize_fields]
  · decide
  · decide
  · decide

/-- C1, as amended.  With non-zero step multiples `set_time(t)` terminates normally and, for
every block of the lattice, sets the state to 1 when `t mod max_dt_int == 0` and keeps the state
otherwise; the step multiples are untouched.  So from state 0 the state becomes 1 exactly when
`t mod max_dt_int == 0`, and it is never 2 unless it was 2 before. -/
theorem set_time_marks_multiples (s : MPMScheduler) (t : Int)
    (h : ∀ b, inside s.res b = true → s.max_dt_int b ≠ 0) :
    ∃ s', set_time s t = some s' ∧ s'.max_dt_int = s.max_dt_int ∧
      ∀ b, inside s.res b = true →
        (Int.tmod t (s.max_dt_int b) = 0 → s'.states b = 1) ∧
        (Int.tmod t (s.max_dt_int b) ≠ 0 → s'.states b = s.states b) ∧
        (s.states b = 0 → (s'.states b = 1 ↔ Int.tmod t (s.max_dt_int b) = 0)) ∧
        (s'.states b = 2 → s.states b = 2) := by
  refine ⟨_, set_time_eq s t h, rfl, ?_⟩
  intro b hb
  dsimp only
  by_cases hm : Int.tmod t (s.max_dt_int b) = 0
  · simp [hb, hm]
  · simp only [hb, hm, and_false, if_false, false_implies, not_false_eq_true, true_implies,
      iff_false, imp_self, and_true, true_and]
    refine ⟨fun _ => trivial, ?_⟩
    intro h0
    rw [h0]
    decide

/-- C1, witness: the amended statement at the reset line of one block and `t = 0`. -/
theorem set_time_marks_multiples_witness :
    (∀ b, inside (reset (line_scheduler 1)).res b = true →
      (reset (line_scheduler 1)).max_dt_int b ≠ 0) ∧
    ∃ s', set_time (reset (line_scheduler 1)) 0 = some s' ∧
      s'.max_dt_int = (reset (line_scheduler 1)).max_dt_int ∧
      ∀ b, inside (reset (line_scheduler 1)).res b = true →
        (Int.tmod 0 ((reset (line_scheduler 1)).max_dt_int b) = 0 → s'.states b = 1) ∧
        (Int.tmod 0 ((reset (line_scheduler 1)).max_dt_int b) ≠ 0 →
          s'.states b = (reset (line_scheduler 1)).states b) ∧
        ((reset (line_scheduler 1)).states b = 0 →
          (s'.states b = 1 ↔ Int.tmod 0 ((reset (line_scheduler 1)).max_dt_int b) = 0)) ∧
        (s'.states b = 2 → (reset (line_scheduler 1)).states b = 2) :=
  ⟨fun b _ => by simp [reset, line_scheduler, initialize_fields],
   set_time_marks_multiples (reset (line_scheduler 1)) 0
    (fun b _ => by simp [reset, line_scheduler, initialize_fields])⟩


/-- The states after `set_time(t)` and `expand(false, true)` on a reset scheduler, in one
formula: the dilated mask of the marked blocks plus the mark of the block itself. -/
theorem set_time_expand_eq (s : MPMScheduler) (t : Int)
    (h : ∀ b, inside s.res b = true → s.max_dt_int b ≠ 0) :
    ∃ s', set_time (reset s) t = some s' ∧ ∀ b, inside s.res b = true →
      (expand s' false true).states b =
        (if ∃ a ∈ get_region s.res, Int.tmod t (s.max_dt_int a) = 0 ∧ (a = b ∨ adjacent a b)
          then 1 else 0) + (if Int.tmod t (s.max_dt_int b) = 0 then 1 else 0) := by
  refine ⟨_, set_time_eq (reset s) t h, ?_⟩
  intro b hb
  refine (expand_states _ false b ?_).trans ?_
  · exact hb
  dsimp only [reset]
  congr 1
  · apply if_congr _ rfl rfl
    constructor
    · rintro ⟨a, ha, hs, hab⟩
      refine ⟨a, ha, ?_, hab⟩
      by_contra hm
      exact hs (by simp [hm])
    · rintro ⟨a, ha, hm, hab⟩
      exact ⟨a, ha, by simp [hm, (mem_get_region _ _).mp ha], hab⟩
  · simp [hb]

/-- C2.  Starting from all block states 0 (`reset`) with every `max_dt_int ≥ 1`, `set_time(t)`
terminates normally and, after `expand(false, true)`, a block of the lattice has state 2 iff
`t mod max_dt_int == 0`; state 1 iff `t mod max_dt_int != 0` and some in-bounds adjacent block
has `t mod max_dt_int == 0`; and state 0 iff neither holds. -/
theorem set_time_expand_states (s : MPMScheduler) (t : Int)
    (h : ∀ b, inside s.res b = true → 1 ≤ s.max_dt_int b) :
    ∃ s', set_time (reset s) t = some s' ∧ ∀ b, inside s.res b = true →
      ((expand s' false true).states b = 2 ↔ Int.tmod t (s.max_dt_int b) = 0) ∧
      ((expand s' false true).states b = 1 ↔
        Int.tmod t (s.max_dt_int b) ≠ 0 ∧
          ∃ n, inside s.res n = true ∧ adjacent b n ∧ Int.tmod t (s.max_dt_int n) = 0) ∧
      ((expand s' false true).states b = 0 ↔
        Int.tmod t (s.max_dt_int b) ≠ 0 ∧
          ¬ ∃ n, inside s.res n = true ∧ adjacent b n ∧ Int.tmod t (s.max_dt_int n) = 0) := by
  obtain ⟨s', hs', hst⟩ := set_time_expand_eq s t
    (fun b hb => by have := h b hb; omega)
  refine ⟨s', hs', ?_⟩
  intro b hb
  rw [hst b hb]
  by_cases hm : Int.tmod t (s.max_dt_int b) = 0
  · have hex : ∃ a ∈ get_region s.res, Int.tmod t (s.max_dt_int a) = 0 ∧ (a = b ∨ adjacent a b) :=
      ⟨b, (mem_get_region _ _).mpr hb, hm, Or.inl rfl⟩
    rw [if_pos hex, if_pos hm]
    simp [hm]
  · rw [if_neg hm]
    have hiff : (∃ a ∈ get_region s.res, Int.tmod t (s.max_dt_int a) = 0 ∧ (a = b ∨ adjacent a b)) ↔
        ∃ n, inside s.res n = true ∧ adjacent b n ∧ Int.tmod t (s.max_dt_int n) = 0 := by
      constructor
      · rintro ⟨a, ha, hma, hab⟩
        rcases hab with rfl | hab
        · exact absurd hma hm
        · exact ⟨a, (mem_get_region _ _).mp ha, adjacent_symm hab, hma⟩
      · rintro ⟨n, hn, hbn, hmn⟩
        exact ⟨n, (mem_get_region _ _).mpr hn, hmn, Or.inr (adjacent_symm hbn)⟩
    by_cases hex : ∃ a ∈ get_region s.res,
        Int.tmod t (s.max_dt_int a) = 0 ∧ (a = b ∨ adjacent a b)
    · rw [if_pos hex]
      simp [hm, hiff.mp hex]
    · rw [if_neg hex]
      have hno := fun hn => hex (hiff.mpr hn)
      simp only [hm, zero_add, not_false_eq_true, true_and, OfNat.zero_ne_ofNat, false_iff,
        not_exists, not_and, zero_ne_one, true_iff]
      have hall : ∀ x, inside s.res x = true → adjacent b x →
          ¬ Int.tmod t (s.max_dt_int x) = 0 := fun x hx hadj hmx => hno ⟨x, hx, hadj, hmx⟩
      exact ⟨fun _ => hall, hm, hall⟩

/-- C2, witness: a line of three blocks with step multiples 1, 2, 4. -/
theorem set_time_expand_states_witness :
    (∀ b, inside (line_with 3 (fun i => 2 ^ i.toNat) (fun _ => 0)).res b = true →
      1 ≤ (line_with 3 (fun i => 2 ^ i.toNat) (fun _ => 0)).max_dt_int b) ∧
    ∃ s', set_time (reset (line_with 3 (fun i => 2 ^ i.toNat) (fun _ => 0))) 1 = some s' ∧
      ∀ b, inside (line_with 3 (fun i => 2 ^ i.toNat) (fun _ => 0)).res b = true →
      ((expand s' false true).states b = 2 ↔
        Int.tmod 1 ((line_with 3 (fun i => 2 ^ i.toNat) (fun _ => 0)).max_dt_int b) = 0) ∧
      ((expand s' false true).states b = 1 ↔
        Int.tmod 1 ((line_with 3 (fun i => 2 ^ i.toNat) (fun _ => 0)).max_dt_int b) ≠ 0 ∧
          ∃ n, inside (line_with 3 (fun i => 2 ^ i.toNat) (fun _ => 0)).res n = true ∧
            adjacent b n ∧
            Int.tmod 1 ((line_with 3 (fun i => 2 ^ i.toNat) (fun _ => 0)).max_dt_int n) = 0) ∧
      ((expand s' false true).states b = 0 ↔
        Int.tmod 1 ((line_with 3 (fun i => 2 ^ i.toNat) (fun _ => 0)).max_dt_int b) ≠ 0 ∧
          ¬ ∃ n, inside (line_with 3 (fun i => 2 ^ i.toNat) (fun _ => 0)).res n = true ∧
            adjacent b n ∧
            Int.tmod 1 ((line_with 3 (fun i => 2 ^ i.toNat) (fun _ => 0)).max_dt_int n) = 0) :=
  ⟨fun b _ => one_le_pow₀ (by norm_num),
   set_time_expand_states (line_with 3 (fun i => 2 ^ i.toNat) (fun _ => 0)) 1
    (fun b _ => one_le_pow₀ (by norm_num))⟩


/-! ## Statements about `update_max_dt_int` -/

/-- C3.  With non-zero step multiples `update_max_dt_int(t)` terminates normally and sets the
`max_dt_int` of every block of the lattice to
`min(old * m, min(max_dt_int_cfl, max_dt_int_strength))` with `m = 2` if
`t mod old == 0` and `m = 1` otherwise; `max_dt_int_cfl`, `max_dt_int_strength` and the block
states are unchanged. -/
theorem update_max_dt_int_sets (s : MPMScheduler) (t : Int)
    (h : ∀ b, inside s.res b = true → s.max_dt_int b ≠ 0) :
    ∃ s' r, update_max_dt_int s t = some (s', r) ∧
      (∀ b, inside s.res b = true →
        s'.max_dt_int b =
          min (s.max_dt_int b * (if Int.tmod t (s.max_dt_int b) = 0 then 2 else 1))
            (min (s.max_dt_int_cfl b) (s.max_dt_int_strength b))) ∧
      s'.max_dt_int_cfl = s.max_dt_int_cfl ∧
      s'.max_dt_int_strength = s.max_dt_int_strength ∧
      s'.states = s.states := by
  refine ⟨_, _, update_max_dt_int_eq s t h, ?_, rfl, rfl, rfl⟩
  intro b hb
  dsimp only
  rw [if_pos hb]
  rfl

/-- C3, witness: the line `line_4_1` at `t = 8`. -/
theorem update_max_dt_int_sets_witness :
    (∀ b, inside line_4_1.res b = true → line_4_1.max_dt_int b ≠ 0) ∧
    ∃ s' r, update_max_dt_int line_4_1 8 = some (s', r) ∧
      (∀ b, inside line_4_1.res b = true →
        s'.max_dt_int b =
          min (line_4_1.max_dt_int b * (if Int.tmod 8 (line_4_1.max_dt_int b) = 0 then 2 else 1))
            (min (line_4_1.max_dt_int_cfl b) (line_4_1.max_dt_int_strength b))) ∧
      s'.max_dt_int_cfl = line_4_1.max_dt_int_cfl ∧
      s'.max_dt_int_strength = line_4_1.max_dt_int_strength ∧
      s'.states = line_4_1.states :=
  ⟨fun b _ => by simp only [line_4_1, line_with]; split <;> decide,
   update_max_dt_int_sets line_4_1 8
    (fun b _ => by simp only [line_4_1, line_with]; split <;> decide)⟩

/-- C4.  With non-zero step multiples `update_max_dt_int(t)` terminates normally and its result
`r` is at most `2^60` and at most the updated `max_dt_int` of every block of the lattice that
holds a particle; `r` is `2^60` or the updated `max_dt_int` of a block that holds a particle, so
empty blocks never contribute; `r` is `2^60` when no block holds a particle; and when some block
holds a particle and the updated values of the non-empty blocks do not exceed the sentinel
`2^60`, `r` is the minimum of these values. -/
theorem update_max_dt_int_result (s : MPMScheduler) (t : Int)
    (h : ∀ b, inside s.res b = true → s.max_dt_int b ≠ 0) :
    ∃ s' r, update_max_dt_int s t = some (s', r) ∧
      r ≤ 2 ^ 60 ∧
      (∀ b, inside s.res b = true → has_particle s b = true → r ≤ s'.max_dt_int b) ∧
      (r = 2 ^ 60 ∨
        ∃ b, inside s.res b = true ∧ has_particle s b = true ∧ r = s'.max_dt_int b) ∧
      ((∀ b, inside s.res b = true → has_particle s b = false) → r = 2 ^ 60) ∧
      ((∃ b, inside s.res b = true ∧ has_particle s b = true) →
        (∀ b, inside s.res b = true → has_particle s b = true → s'.max_dt_int b ≤ 2 ^ 60) →
        ∃ b, inside s.res b = true ∧ has_particle s b = true ∧ r = s'.max_dt_int b) := by
  obtain ⟨h1, h2, h3⟩ := foldl_min_spec (fun b => has_particle s b)
    (fun b => next_max_dt_int s t b) (get_region s.res) DT_INF
  have hval : ∀ b, inside s.res b = true →
      (if inside s.res b = true then next_max_dt_int s t b else s.max_dt_int b) =
        next_max_dt_int s t b := fun b hb => if_pos hb
  have hor : (get_region s.res).foldl
        (fun r b => if has_particle s b = true then min r (next_max_dt_int s t b) else r)
        DT_INF = 2 ^ 60 ∨
      ∃ b, inside s.res b = true ∧ has_particle s b = true ∧
        (get_region s.res).foldl
          (fun r b => if has_particle s b = true then min r (next_max_dt_int s t b) else r)
          DT_INF = next_max_dt_int s t b := by
    rcases h3 with h3 | ⟨b, hb, hp, h3⟩
    · exact Or.inl h3
    · exact Or.inr ⟨b, (mem_get_region _ _).mp hb, hp, h3⟩
  refine ⟨_, _, update_max_dt_int_eq s t h, h1, ?_, ?_, ?_, ?_⟩
  · intro b hb hp
    dsimp only
    rw [hval b hb]
    exact h2 b ((mem_get_region _ _).mpr hb) hp
  · rcases hor with hor | ⟨b, hb, hp, hor⟩
    · exact Or.inl hor
    · refine Or.inr ⟨b, hb, hp, ?_⟩
      dsimp only
      rw [hval b hb]
      exact hor
  · intro hnone
    rcases hor with hor | ⟨b, hb, hp, _⟩
    · exact hor
    · rw [hnone b hb] at hp
      exact absurd hp (by simp)
  · rintro ⟨b0, hb0, hp0⟩ hcap
    rcases hor with hor | ⟨b, hb, hp, hor⟩
    · refine ⟨b0, hb0, hp0, ?_⟩
      have hle := h2 b0 ((mem_get_region _ _).mpr hb0) hp0
      have hc := hcap b0 hb0 hp0
      dsimp only at hc ⊢
      rw [hval b0 hb0] at hc ⊢
      have hor2 : (get_region s.res).foldl
          (fun r b => if has_particle s b = true then min r (next_max_dt_int s t b) else r)
          DT_INF = 2 ^ 60 := hor
      exact le_antisymm hle (by rw [hor2]; exact hc)
    · refine ⟨b, hb, hp, ?_⟩
      dsimp only
      rw [hval b hb]
      exact hor

/-- C4, witness: the line `line_4_1` at `t = 8`; both blocks hold a particle and their limits
are below the sentinel, so the result is the minimum of the updated values. -/
theorem update_max_dt_int_result_witness :
    (∀ b, inside line_4_1.res b = true → line_4_1.max_dt_int b ≠ 0) ∧
    ∃ s' r, update_max_dt_int line_4_1 8 = some (s', r) ∧
      r ≤ 2 ^ 60 ∧
      (∀ b, inside line_4_1.res b = true → has_particle line_4_1 b = true →
        r ≤ s'.max_dt_int b) ∧
      ∃ b, inside line_4_1.res b = true ∧ has_particle line_4_1 b = true ∧
        r = s'.max_dt_int b := by
  have hne : ∀ b, inside line_4_1.res b = true → line_4_1.max_dt_int b ≠ 0 := by
    intro b _
    simp only [line_4_1, line_with]
    split <;> decide
  obtain ⟨s', r, h1, h2, h3, _, _, h6⟩ := update_max_dt_int_result line_4_1 8 hne
  refine ⟨hne, s', r, h1, h2, h3, h6 ⟨⟨0, 0, 0⟩, by decide, by decide⟩ ?_⟩
  intro b hb _
  have he := update_max_dt_int_eq line_4_1 8 hne
  rw [he] at h1
  injection h1 with h1
  injection h1 with hs' _
  rw [← hs']
  dsimp only
  rw [if_pos hb]
  refine le_trans (min_le_right _ _) (le_trans (min_le_right _ _) ?_)
  show (8 : Int) ≤ 2 ^ 60
  decide

/-- C5.  Doubling guard.  With positive step multiples `update_max_dt_int(t)` terminates
normally and, for every block of the lattice, the new `max_dt_int` is at most twice the old one
and exceeds the old one only if `t mod old == 0`.  In particular a block with `max_dt_int = 4`
ends with at most 4 at `t = 6` whatever its limits are, and with 8 at `t = 8` when both limits
are at least 8. -/
theorem update_max_dt_int_doubling_guard (s : MPMScheduler) (t : Int)
    (h : ∀ b, inside s.res b = true → 1 ≤ s.max_dt_int b) :
    ∃ s' r, update_max_dt_int s t = some (s', r) ∧
      ∀ b, inside s.res b = true →
        s'.max_dt_int b ≤ 2 * s.max_dt_int b ∧
        (s.max_dt_int b < s'.max_dt_int b → Int.tmod t (s.max_dt_int b) = 0) ∧
        (s.max_dt_int b = 4 → t = 6 → s'.max_dt_int b ≤ 4) ∧
        (s.max_dt_int b = 4 → t = 8 → 8 ≤ s.max_dt_int_cfl b → 8 ≤ s.max_dt_int_strength b →
          s'.max_dt_int b = 8) := by
  refine ⟨_, _, update_max_dt_int_eq s t (fun b hb => by have := h b hb; omega), ?_⟩
  intro b hb
  have hpos := h b hb
  dsimp only
  rw [if_pos hb]
  unfold next_max_dt_int
  refine ⟨?_, ?_, ?_, ?_⟩
  · refine le_trans (min_le_left _ _) ?_
    split <;> omega
  · intro hlt
    by_contra hm
    rw [if_neg hm, mul_one] at hlt
    exact absurd (min_le_left (s.max_dt_int b) _) (not_le.mpr hlt)
  · intro h4 h6
    subst h6
    rw [h4]
    exact min_le_left _ _
  · intro h4 h8 hc hs
    subst h8
    rw [h4]
    have : Int.tmod 8 4 = 0 := by decide
    rw [if_pos this]
    have h1 : (8 : Int) ≤ min (s.max_dt_int_cfl b) (s.max_dt_int_strength b) := le_min hc hs
    exact min_eq_left (by omega)

/-- C5, witness: the line `line_4_1` at `t = 6`. -/
theorem update_max_dt_int_doubling_guard_witness :
    (∀ b, inside line_4_1.res b = true → 1 ≤ line_4_1.max_dt_int b) ∧
    ∃ s' r, update_max_dt_int line_4_1 6 = some (s', r) ∧
      ∀ b, inside line_4_1.res b = true →
        s'.max_dt_int b ≤ 2 * line_4_1.max_dt_int b ∧
        (line_4_1.max_dt_int b < s'.max_dt_int b → Int.tmod 6 (line_4_1.max_dt_int b) = 0) ∧
        (line_4_1.max_dt_int b = 4 → (6 : Int) = 6 → s'.max_dt_int b ≤ 4) ∧
        (line_4_1.max_dt_int b = 4 → (6 : Int) = 8 → 8 ≤ line_4_1.max_dt_int_cfl b →
          8 ≤ line_4_1.max_dt_int_strength b → s'.max_dt_int b = 8) :=
  ⟨fun b _ => by simp only [line_4_1, line_with]; split <;> decide,
   update_max_dt_int_doubling_guard line_4_1 6
    (fun b _ => by simp only [line_4_1, line_with]; split <;> decide)⟩


/-! ## Statements about the power-of-two invariant -/

/-- C6, counterexample.  `initialize` sets both step limits of every block to 0, so a call of
`update_max_dt_int` right after `initialize` sets `max_dt_int` to `min(2, 0) = 0`, which is not
a power of two. -/
theorem max_dt_int_zero_after_initialize :
    ∃ s s' r, initialize_scheduler heap_line ⟨1, 1, 1⟩ 1 1 1 0 1 = some s ∧
      Reachable (fun _ => True) s ∧
      update_max_dt_int s 0 = some (s', r) ∧
      s'.max_dt_int ⟨0, 0, 0⟩ = 0 ∧ ¬ is_pot (s'.max_dt_int ⟨0, 0, 0⟩) := by
  have hv : (update_max_dt_int (line_scheduler 1) 0).map
      (fun p => p.1.max_dt_int ⟨0, 0, 0⟩) = some 0 := by decide
  have hne : ∀ b, inside (line_scheduler 1).res b = true → (line_scheduler 1).max_dt_int b ≠ 0 := by
    intro b _
    simp [line_scheduler, initialize_fields]
  rw [update_max_dt_int_eq _ 0 hne] at hv
  have h0 : (if inside (line_scheduler 1).res ⟨0, 0, 0⟩ = true then
      next_max_dt_int (line_scheduler 1) 0 ⟨0, 0, 0⟩
      else (line_scheduler 1).max_dt_int ⟨0, 0, 0⟩) = 0 := by
    simpa using hv
  refine ⟨line_scheduler 1, _, _, line_scheduler_initialized 1,
    Reachable.init _ _ _ _ _ _ _ _ (line_scheduler_initialized 1),
    update_max_dt_int_eq _ 0 hne, h0, ?_⟩
  dsimp only
  rw [h0]
  exact not_is_pot_zero

/-- C6, as amended.  In every state reachable from `initialize` through the public operations
in which each call of `update_max_dt_int` found both step limits of every block a power of two
that is at least 1, a further such call of `update_max_dt_int` terminates normally and leaves
every block's `max_dt_int` a power of two that is at least 1. -/
theorem reachable_update_max_dt_int_pot (s : MPMScheduler) (t : Int)
    (hr : Reachable limits_pot s) (hl : limits_pot s) :
    ∃ s' r, update_max_dt_int s t = some (s', r) ∧ ∀ b, is_pot (s'.max_dt_int b) ∧
      1 ≤ s'.max_dt_int b := by
  have hpot := reachable_is_pot s hr
  have hne : ∀ b, inside s.res b = true → s.max_dt_int b ≠ 0 := by
    intro b _
    have := is_pot_pos (hpot b)
    omega
  have hstep := update_max_dt_int_eq s t hne
  refine ⟨_, _, hstep, ?_⟩
  intro b
  have hb := reachable_is_pot _ (Reachable.max_dt s _ t _ hr hl hstep) b
  exact ⟨hb, is_pot_pos hb⟩

/-- C6, witness: the line of one block once `update_dt_limits` has set the limits to 16 and
8. -/
theorem reachable_update_max_dt_int_pot_witness :
    Reachable limits_pot line_limits ∧ limits_pot line_limits ∧
    ∃ s' r, update_max_dt_int line_limits 0 = some (s', r) ∧ ∀ b, is_pot (s'.max_dt_int b) ∧
      1 ≤ s'.max_dt_int b :=
  have hr : Reachable limits_pot line_limits :=
    Reachable.dt_limits (line_scheduler 1) line_limits
      (Reachable.init _ _ _ _ _ _ _ _ (line_scheduler_initialized 1))
      ⟨rfl, rfl, rfl, rfl, rfl, rfl, rfl, rfl, rfl, rfl, rfl, rfl, rfl, rfl⟩
  have hl : limits_pot line_limits := fun _ _ => ⟨⟨4, rfl⟩, ⟨3, rfl⟩⟩
  ⟨hr, hl, reachable_update_max_dt_int_pot line_limits 0 hr hl⟩


/-! ## Statements about `enforce_smoothness` -/

/-- C7, counterexample.  Three updating blocks in a row with the step multiples 16, 16, 1, each
holding a particle: one pass of `enforce_smoothness` gives 16, 2, 1, and the adjacent non-empty
blocks 0 and 1 then have `16 > 2 * 2`. -/
theorem smoothness_fails_on_chain :
    inside line_16_16_1.res ⟨0, 0, 0⟩ = true ∧ inside line_16_16_1.res ⟨1, 0, 0⟩ = true ∧
    adjacent ⟨0, 0, 0⟩ ⟨1, 0, 0⟩ ∧
    has_particle (enforce_smoothness line_16_16_1 1) ⟨0, 0, 0⟩ = true ∧
    has_particle (enforce_smoothness line_16_16_1 1) ⟨1, 0, 0⟩ = true ∧
    (enforce_smoothness line_16_16_1 1).max_dt_int ⟨0, 0, 0⟩ = 16 ∧
    (enforce_smoothness line_16_16_1 1).max_dt_int ⟨1, 0, 0⟩ = 2 ∧
    ¬ ((enforce_smoothness line_16_16_1 1).max_dt_int ⟨0, 0, 0⟩ ≤
        2 * (enforce_smoothness line_16_16_1 1).max_dt_int ⟨1, 0, 0⟩) := by
  decide

/-- C7, as amended.  After one call of `enforce_smoothness`, for every pair of lattice-adjacent
in-bounds blocks A and B where the state of A is non-zero, `max_dt_int(A)` read after the call
is at most twice `max_dt_int(B)` read before the call. -/
theorem enforce_smoothness_single_pass (s : MPMScheduler) (t : Int) (a b : Index3D)
    (ha : inside s.res a = true) (hb : inside s.res b = true) (hadj : adjacent a b)
    (hs : s.states a ≠ 0) :
    (enforce_smoothness s t).max_dt_int a ≤ 2 * s.max_dt_int b := by
  rw [enforce_smoothness_eq, if_pos ⟨ha, hs⟩]
  exact (smooth_value_spec s.res s.max_dt_int (s.max_dt_int a) a).2.1 b hb (Or.inr hadj)

/-- C7, witness: blocks 1 and 2 of the chain 16, 16, 1. -/
theorem enforce_smoothness_single_pass_witness :
    inside line_16_16_1.res ⟨1, 0, 0⟩ = true ∧ inside line_16_16_1.res ⟨2, 0, 0⟩ = true ∧
    adjacent ⟨1, 0, 0⟩ ⟨2, 0, 0⟩ ∧ line_16_16_1.states ⟨1, 0, 0⟩ ≠ 0 ∧
    (enforce_smoothness line_16_16_1 1).max_dt_int ⟨1, 0, 0⟩ ≤
      2 * line_16_16_1.max_dt_int ⟨2, 0, 0⟩ :=
  ⟨by decide, by decide, by decide, by decide,
   enforce_smoothness_single_pass line_16_16_1 1 ⟨1, 0, 0⟩ ⟨2, 0, 0⟩ (by decide) (by decide)
    (by decide) (by decide)⟩

/-- C8.  `enforce_smoothness` is a single double-buffered pass: a block of the lattice with
state 0 keeps its `max_dt_int`, and a block with a non-zero state (and a non-negative
`max_dt_int`) gets the minimum of its old `max_dt_int` and twice the pre-call `max_dt_int` of
its in-bounds adjacent blocks: the new value is below each of these numbers and equal to one of
them. -/
theorem enforce_smoothness_values (s : MPMScheduler) (t : Int) (b : Index3D)
    (hb : inside s.res b = true) :
    (s.states b = 0 → (enforce_smoothness s t).max_dt_int b = s.max_dt_int b) ∧
    (s.states b ≠ 0 → 0 ≤ s.max_dt_int b →
      (enforce_smoothness s t).max_dt_int b ≤ s.max_dt_int b ∧
      (∀ n, inside s.res n = true → adjacent b n →
        (enforce_smoothness s t).max_dt_int b ≤ 2 * s.max_dt_int n) ∧
      ((enforce_smoothness s t).max_dt_int b = s.max_dt_int b ∨
        ∃ n, inside s.res n = true ∧ adjacent b n ∧
          (enforce_smoothness s t).max_dt_int b = 2 * s.max_dt_int n)) := by
  constructor
  · intro h0
    rw [enforce_smoothness_eq, if_neg (fun h => h.2 h0)]
  · intro hs hnn
    rw [enforce_smoothness_eq, if_pos ⟨hb, hs⟩]
    obtain ⟨h1, h2, h3⟩ := smooth_value_spec s.res s.max_dt_int (s.max_dt_int b) b
    refine ⟨h1, fun n hn hadj => h2 n hn (Or.inr hadj), ?_⟩
    rcases h3 with h3 | ⟨n, hn, hnear, h3⟩
    · exact Or.inl h3
    · rcases hnear with rfl | hadj
      · left
        omega
      · exact Or.inr ⟨n, hn, hadj, h3⟩

/-- C8, witness: block 1 of the chain 16, 16, 1, which is updating. -/
theorem enforce_smoothness_values_witness :
    inside line_16_16_1.res ⟨1, 0, 0⟩ = true ∧ line_16_16_1.states ⟨1, 0, 0⟩ ≠ 0 ∧
    0 ≤ line_16_16_1.max_dt_int ⟨1, 0, 0⟩ ∧
    (enforce_smoothness line_16_16_1 1).max_dt_int ⟨1, 0, 0⟩ ≤
      line_16_16_1.max_dt_int ⟨1, 0, 0⟩ ∧
    (∀ n, inside line_16_16_1.res n = true → adjacent ⟨1, 0, 0⟩ n →
      (enforce_smoothness line_16_16_1 1).max_dt_int ⟨1, 0, 0⟩ ≤
        2 * line_16_16_1.max_dt_int n) ∧
    ((enforce_smoothness line_16_16_1 1).max_dt_int ⟨1, 0, 0⟩ =
        line_16_16_1.max_dt_int ⟨1, 0, 0⟩ ∨
      ∃ n, inside line_16_16_1.res n = true ∧ adjacent ⟨1, 0, 0⟩ n ∧
        (enforce_smoothness line_16_16_1 1).max_dt_int ⟨1, 0, 0⟩ =
          2 * line_16_16_1.max_dt_int n) :=
  ⟨by decide, by decide, by decide,
   (enforce_smoothness_values line_16_16_1 1 ⟨1, 0, 0⟩ (by decide)).2 (by decide) (by decide)⟩

/-- C9, counterexample.  Block 0 is updating with the step multiple 16 and holds a particle; its
neighbour block 1 holds no particle.  With the stale value 1 in the empty block, block 0 ends
with 2; with the stale value 16 it ends with 16: the empty neighbour takes part in the pass. -/
theorem empty_neighbour_lowers_active_block :
    has_particle (line_16_stale 1) ⟨1, 0, 0⟩ = false ∧
    has_particle (line_16_stale 16) ⟨1, 0, 0⟩ = false ∧
    has_particle (line_16_stale 1) ⟨0, 0, 0⟩ = true ∧
    (line_16_stale 1).max_dt_int ⟨0, 0, 0⟩ = (line_16_stale 16).max_dt_int ⟨0, 0, 0⟩ ∧
    (enforce_smoothness (line_16_stale 1) 1).max_dt_int ⟨0, 0, 0⟩ = 2 ∧
    (enforce_smoothness (line_16_stale 16) 1).max_dt_int ⟨0, 0, 0⟩ = 16 := by
  decide

/-- C9, as amended.  In `enforce_smoothness` every in-bounds neighbour takes part whether or not
it holds particles: the resulting step multiples do not depend on the particle buckets at all; a
block with a non-zero state ends with at most twice the pre-call `max_dt_int` of every in-bounds
adjacent block, the blocks without particles included; and only a block whose own state is 0 is
left out of the pass (it keeps its value). -/
theorem enforce_smoothness_ignores_buckets (s : MPMScheduler) (t : Int) :
    (∀ g : Int → List ParticlePtr,
      (enforce_smoothness { s with particle_groups := g } t).max_dt_int =
        (enforce_smoothness s t).max_dt_int) ∧
    (∀ b n, inside s.res b = true → inside s.res n = true → adjacent b n → s.states b ≠ 0 →
      has_particle s n = false →
      (enforce_smoothness s t).max_dt_int b ≤ 2 * s.max_dt_int n) ∧
    (∀ b, s.states b = 0 → (enforce_smoothness s t).max_dt_int b = s.max_dt_int b) := by
  refine ⟨fun g => rfl, ?_, ?_⟩
  · intro b n hb hn hadj hs _
    rw [enforce_smoothness_eq, if_pos ⟨hb, hs⟩]
    exact (smooth_value_spec s.res s.max_dt_int (s.max_dt_int b) b).2.1 n hn (Or.inr hadj)
  · intro b h0
    rw [enforce_smoothness_eq, if_neg (fun h => h.2 h0)]

/-- C9, witness: the updating block 0 next to the empty block 1 with the stale value 1. -/
theorem enforce_smoothness_ignores_buckets_witness :
    inside (line_16_stale 1).res ⟨0, 0, 0⟩ = true ∧ inside (line_16_stale 1).res ⟨1, 0, 0⟩ = true ∧
    adjacent ⟨0, 0, 0⟩ ⟨1, 0, 0⟩ ∧ (line_16_stale 1).states ⟨0, 0, 0⟩ ≠ 0 ∧
    has_particle (line_16_stale 1) ⟨1, 0, 0⟩ = false ∧
    (enforce_smoothness (line_16_stale 1) 1).max_dt_int ⟨0, 0, 0⟩ ≤
      2 * (line_16_stale 1).max_dt_int ⟨1, 0, 0⟩ :=
  ⟨by decide, by decide, by decide, by decide, by decide,
   (enforce_smoothness_ignores_buckets (line_16_stale 1) 1).2.1 ⟨0, 0, 0⟩ ⟨1, 0, 0⟩ (by decide)
    (by decide) (by decide) (by decide) (by decide)⟩


/-! ## Statements about `insert_particle` -/

theorem get_rough_pos_block_left : get_rough_pos block_left 0 = ⟨0, 0, 0⟩ := by
  simp only [get_rough_pos, block_left, initialize_fields, heap_left, real_to_int_eq,
    trunc_toward_zero]
  norm_num

/-- C10, counterexample.  One block of size 1 and a particle at `(-1/2, 1/2, 1/2)`: the block
coordinate `floor(p / b)` is `(-1, 0, 0)`, outside the lattice, but `insert_particle` puts the
particle into the bucket of block `(0, 0, 0)`. -/
theorem insert_particle_negative_coordinate :
    (⌊(block_left.heap 0).pos.x / (block_left.grid_block_size : ℚ)⌋ = -1 ∧
     ⌊(block_left.heap 0).pos.y / (block_left.grid_block_size : ℚ)⌋ = 0 ∧
     ⌊(block_left.heap 0).pos.z / (block_left.grid_block_size : ℚ)⌋ = 0) ∧
    inside block_left.res ⟨-1, 0, 0⟩ = false ∧
    block_left.particle_groups (bucket_index block_left.res 0 0 0) = [] ∧
    (insert_particle block_left 0 false).particle_groups (bucket_index block_left.res 0 0 0)
      = [0] := by
  refine ⟨⟨?_, ?_, ?_⟩, by decide, rfl, ?_⟩
  · simp only [block_left, initialize_fields, heap_left]; norm_num
  · simp only [block_left, initialize_fields, heap_left]; norm_num
  · simp only [block_left, initialize_fields, heap_left]; norm_num
  · rw [insert_particle_groups, get_rough_pos_block_left]
    decide

/-- C10, as amended.  For every particle position `p` and block size `b ≠ 0`, `insert_particle`
appends the particle to the bucket of block
`(trunc(p.x / b), trunc(p.y / b), trunc(p.z / b))`, where `trunc` rounds towards zero, when
that coordinate lies within the lattice bounds, and changes no bucket when it does not; `trunc`
is the floor on every coordinate with `p / b ≥ 0`. -/
theorem insert_particle_bucket (s : MPMScheduler) (p : ParticlePtr) (is_new : Bool)
    (_hb : s.grid_block_size ≠ 0) :
    (∀ n, (insert_particle s p is_new).particle_groups n =
      if inside s.res (trunc_block s p) = true ∧
          n = bucket_index s.res (trunc_block s p).i (trunc_block s p).j (trunc_block s p).k
      then s.particle_groups n ++ [p] else s.particle_groups n) ∧
    (0 ≤ (s.heap p).pos.x / (s.grid_block_size : ℚ) →
      (trunc_block s p).i = ⌊(s.heap p).pos.x / (s.grid_block_size : ℚ)⌋) ∧
    (0 ≤ (s.heap p).pos.y / (s.grid_block_size : ℚ) →
      (trunc_block s p).j = ⌊(s.heap p).pos.y / (s.grid_block_size : ℚ)⌋) ∧
    (0 ≤ (s.heap p).pos.z / (s.grid_block_size : ℚ) →
      (trunc_block s p).k = ⌊(s.heap p).pos.z / (s.grid_block_size : ℚ)⌋) := by
  have hc : get_rough_pos s p = trunc_block s p := by
    simp only [get_rough_pos, trunc_block, real_to_int_eq]
  refine ⟨?_, ?_, ?_, ?_⟩
  · intro n
    rw [insert_particle_groups, hc]
  · intro h0
    simp only [trunc_block, trunc_toward_zero, if_pos h0]
  · intro h0
    simp only [trunc_block, trunc_toward_zero, if_pos h0]
  · intro h0
    simp only [trunc_block, trunc_toward_zero, if_pos h0]

/-- C10, witness: a new particle at `(1/2, 1/2, 1/2)` and a line of three blocks of size 1. -/
theorem insert_particle_bucket_witness :
    (line_scheduler 3).grid_block_size ≠ 0 ∧
    ((∀ n, (insert_particle (line_scheduler 3) 0 true).particle_groups n =
      if inside (line_scheduler 3).res (trunc_block (line_scheduler 3) 0) = true ∧
          n = bucket_index (line_scheduler 3).res (trunc_block (line_scheduler 3) 0).i
            (trunc_block (line_scheduler 3) 0).j (trunc_block (line_scheduler 3) 0).k
      then (line_scheduler 3).particle_groups n ++ [0] else (line_scheduler 3).particle_groups n) ∧
    (0 ≤ ((line_scheduler 3).heap 0).pos.x / ((line_scheduler 3).grid_block_size : ℚ) →
      (trunc_block (line_scheduler 3) 0).i =
        ⌊((line_scheduler 3).heap 0).pos.x / ((line_scheduler 3).grid_block_size : ℚ)⌋) ∧
    (0 ≤ ((line_scheduler 3).heap 0).pos.y / ((line_scheduler 3).grid_block_size : ℚ) →
      (trunc_block (line_scheduler 3) 0).j =
        ⌊((line_scheduler 3).heap 0).pos.y / ((line_scheduler 3).grid_block_size : ℚ)⌋) ∧
    (0 ≤ ((line_scheduler 3).heap 0).pos.z / ((line_scheduler 3).grid_block_size : ℚ) →
      (trunc_block (line_scheduler 3) 0).k =
        ⌊((line_scheduler 3).heap 0).pos.z / ((line_scheduler 3).grid_block_size : ℚ)⌋)) :=
  ⟨by decide, insert_particle_bucket (line_scheduler 3) 0 true (by decide)⟩


/-! ## More on `insert_particle` -/

/-- A number `Z * a + z` with `0 ≤ z < Z` determines `a` and `z`. -/
theorem mul_add_unique (Z a a' z z' : Int) (hz : 0 ≤ z ∧ z < Z) (hz' : 0 ≤ z' ∧ z' < Z)
    (h : Z * a + z = Z * a' + z') : a = a' ∧ z = z' := by
  have hzz : z = z' := by
    have h1 : (Z * a + z) % Z = z := by
      rw [Int.add_comm, Int.add_mul_emod_self_left]
      exact Int.emod_eq_of_lt hz.1 hz.2
    have h2 : (Z * a' + z') % Z = z' := by
      rw [Int.add_comm, Int.add_mul_emod_self_left]
      exact Int.emod_eq_of_lt hz'.1 hz'.2
    rw [← h1, ← h2, h]
  refine ⟨?_, hzz⟩
  subst hzz
  have hZ : Z ≠ 0 := by omega
  have h3 : Z * a = Z * a' := by omega
  exact mul_left_cancel₀ hZ h3

/-- The bucket index is injective on the blocks of the lattice. -/
theorem bucket_index_injective (res : Vector3i) (a b : Index3D) (ha : inside res a = true)
    (hb : inside res b = true)
    (h : bucket_index res a.i a.j a.k = bucket_index res b.i b.j b.k) : a = b := by
  rw [inside_iff] at ha hb
  obtain ⟨_, haj, hak⟩ := ha
  obtain ⟨_, hbj, hbk⟩ := hb
  unfold bucket_index at h
  have h1 : res.z * (res.y * a.i + a.j) + a.k = res.z * (res.y * b.i + b.j) + b.k := by
    have e1 : res.z * (res.y * a.i + a.j) = res.z * res.y * a.i + res.z * a.j := by ring
    have e2 : res.z * (res.y * b.i + b.j) = res.z * res.y * b.i + res.z * b.j := by ring
    rw [e1, e2]
    exact h
  obtain ⟨h2, hk⟩ := mul_add_unique _ _ _ _ _ hak hbk h1
  obtain ⟨hi, hj⟩ := mul_add_unique _ _ _ _ _ haj hbj h2
  cases a
  cases b
  simp_all

theorem get_rough_pos_eq_trunc_block (s : MPMScheduler) (p : ParticlePtr) :
    get_rough_pos s p = trunc_block s p := by
  simp only [get_rough_pos, trunc_block, real_to_int_eq]

/-- `insert_particle` for a particle whose block coordinate is inside the lattice. -/
theorem insert_particle_inside (s : MPMScheduler) (p : ParticlePtr) (is_new : Bool)
    (hin : inside s.res (get_rough_pos s p) = true) :
    insert_particle s p is_new =
      { s with
        particle_groups := groups_set s.particle_groups
          (bucket_index s.res (get_rough_pos s p).i (get_rough_pos s p).j (get_rough_pos s p).k)
          (s.particle_groups
            (bucket_index s.res (get_rough_pos s p).i (get_rough_pos s p).j
              (get_rough_pos s p).k) ++ [p])
        updated := s.updated.set (get_rough_pos s p) 1
        max_dt_int := if is_new = true then s.max_dt_int.set (get_rough_pos s p) 1
          else s.max_dt_int
        active_particles := if is_new = true then s.active_particles ++ [p]
          else s.active_particles } := by
  unfold get_rough_pos at hin
  unfold insert_particle
  simp only [hin, if_true]
  cases is_new <;> rfl

/-- `insert_particle` for a particle whose block coordinate is outside the lattice. -/
theorem insert_particle_outside (s : MPMScheduler) (p : ParticlePtr) (is_new : Bool)
    (hout : inside s.res (get_rough_pos s p) = false) : insert_particle s p is_new = s := by
  unfold get_rough_pos at hout
  unfold insert_particle
  simp only [hout]
  rfl


/-- C11.  For a particle whose block coordinate `int(pos / grid_block_size)` is inside the
lattice, `insert_particle` appends it to the bucket of that block and sets the dirty flag of
that block; with `is_new = true` it also sets the `max_dt_int` of that block to 1 and appends
the particle to `active_particles`; with `is_new = false`, `max_dt_int` and `active_particles`
are unchanged.  The buckets, dirty flags and `max_dt_int` of all other blocks, and all block
states, are unchanged. -/
theorem insert_particle_effect (s : MPMScheduler) (p : ParticlePtr) (is_new : Bool)
    (hin : inside s.res (get_rough_pos s p) = true) :
    (insert_particle s p is_new).particle_groups
        (bucket_index s.res (get_rough_pos s p).i (get_rough_pos s p).j (get_rough_pos s p).k) =
      s.particle_groups
        (bucket_index s.res (get_rough_pos s p).i (get_rough_pos s p).j (get_rough_pos s p).k)
        ++ [p] ∧
    (insert_particle s p is_new).updated (get_rough_pos s p) = 1 ∧
    (is_new = true →
      (insert_particle s p is_new).max_dt_int (get_rough_pos s p) = 1 ∧
      (insert_particle s p is_new).active_particles = s.active_particles ++ [p]) ∧
    (is_new = false →
      (insert_particle s p is_new).max_dt_int = s.max_dt_int ∧
      (insert_particle s p is_new).active_particles = s.active_particles) ∧
    (∀ b, inside s.res b = true → b ≠ get_rough_pos s p →
      (insert_particle s p is_new).particle_groups (bucket_index s.res b.i b.j b.k) =
        s.particle_groups (bucket_index s.res b.i b.j b.k) ∧
      (insert_particle s p is_new).updated b = s.updated b ∧
      (insert_particle s p is_new).max_dt_int b = s.max_dt_int b) ∧
    (insert_particle s p is_new).states = s.states := by
  rw [insert_particle_inside s p is_new hin]
  refine ⟨?_, ?_, ?_, ?_, ?_, rfl⟩
  · simp [groups_set]
  · simp [Array3.set]
  · intro h
    subst h
    simp [Array3.set]
  · intro h
    subst h
    simp
  · intro b hb hne
    have hidx : bucket_index s.res b.i b.j b.k ≠
        bucket_index s.res (get_rough_pos s p).i (get_rough_pos s p).j (get_rough_pos s p).k :=
      fun h => hne (bucket_index_injective s.res b _ hb hin h)
    refine ⟨?_, ?_, ?_⟩
    · simp [groups_set, hidx]
    · simp [Array3.set, hne]
    · cases is_new <;> simp [Array3.set, hne]

theorem get_rough_pos_line (n : Int) (p : ParticlePtr) :
    get_rough_pos (line_scheduler n) p = ⟨(p : Int), 0, 0⟩ := by
  have hx : trunc_toward_zero ((p : ℚ) + 1 / 2) = (p : Int) := by
    have h0 : (0 : ℚ) ≤ (p : ℚ) + 1 / 2 := by positivity
    rw [trunc_toward_zero, if_pos h0, Int.floor_eq_iff]
    constructor
    · push_cast; linarith
    · push_cast; linarith
  have hy : trunc_toward_zero ((1 : ℚ) / 2) = 0 := by
    rw [trunc_toward_zero, if_pos (by norm_num)]
    norm_num
  simp only [get_rough_pos, line_scheduler, initialize_fields, heap_line, real_to_int_eq,
    Int.cast_one, div_one, hx, hy]

/-- C11, witness: the new particle 1 at `(3/2, 1/2, 1/2)` in a line of three blocks. -/
theorem insert_particle_effect_witness :
    inside (line_scheduler 3).res (get_rough_pos (line_scheduler 3) 1) = true ∧
    (insert_particle (line_scheduler 3) 1 true).updated (get_rough_pos (line_scheduler 3) 1) = 1 ∧
    ((insert_particle (line_scheduler 3) 1 true).max_dt_int
        (get_rough_pos (line_scheduler 3) 1) = 1 ∧
      (insert_particle (line_scheduler 3) 1 true).active_particles =
        (line_scheduler 3).active_particles ++ [1]) ∧
    (insert_particle (line_scheduler 3) 1 true).states = (line_scheduler 3).states :=
  have hin : inside (line_scheduler 3).res (get_rough_pos (line_scheduler 3) 1) = true := by
    rw [get_rough_pos_line]
    decide
  ⟨hin, (insert_particle_effect (line_scheduler 3) 1 true hin).2.1,
    (insert_particle_effect (line_scheduler 3) 1 true hin).2.2.1 rfl,
    (insert_particle_effect (line_scheduler 3) 1 true hin).2.2.2.2.2⟩

/-- C12.  For a particle whose block coordinate `int(pos / grid_block_size)` is outside the
lattice, `insert_particle` (a total function: it reports no error), with `is_new` true or false,
returns the scheduler unchanged: every bucket, every dirty flag, every `max_dt_int` and the
list `active_particles`. -/
theorem insert_particle_out_of_bounds (s : MPMScheduler) (p : ParticlePtr) (is_new : Bool)
    (hout : inside s.res (get_rough_pos s p) = false) :
    insert_particle s p is_new = s ∧
    (insert_particle s p is_new).particle_groups = s.particle_groups ∧
    (insert_particle s p is_new).updated = s.updated ∧
    (insert_particle s p is_new).max_dt_int = s.max_dt_int ∧
    (insert_particle s p is_new).active_particles = s.active_particles := by
  rw [insert_particle_outside s p is_new hout]
  exact ⟨rfl, rfl, rfl, rfl, rfl⟩

/-- C12, witness: the particle 5 at `(11/2, 1/2, 1/2)` lies outside a line of three blocks. -/
theorem insert_particle_out_of_bounds_witness :
    inside (line_scheduler 3).res (get_rough_pos (line_scheduler 3) 5) = false ∧
    insert_particle (line_scheduler 3) 5 true = line_scheduler 3 ∧
    (insert_particle (line_scheduler 3) 5 true).particle_groups =
      (line_scheduler 3).particle_groups ∧
    (insert_particle (line_scheduler 3) 5 true).updated = (line_scheduler 3).updated ∧
    (insert_particle (line_scheduler 3) 5 true).max_dt_int = (line_scheduler 3).max_dt_int ∧
    (insert_particle (line_scheduler 3) 5 true).active_particles =
      (line_scheduler 3).active_particles :=
  have hout : inside (line_scheduler 3).res (get_rough_pos (line_scheduler 3) 5) = false := by
    rw [get_rough_pos_line]
    decide
  ⟨hout, insert_particle_out_of_bounds (line_scheduler 3) 5 true hout⟩


/-! ## update_particle_groups -/

/-- The first loop of `update_particle_groups` over any list of blocks: the buckets of the
visited blocks with a non-zero state are emptied and their dirty flags set. -/
theorem clear_groups_fold :
    ∀ (l : List Index3D) (s : MPMScheduler),
      l.foldl
        (fun st ind =>
          if st.states ind = 0 then st
          else
            { st with
              particle_groups := groups_set st.particle_groups
                (st.res.z * st.res.y * ind.i + st.res.z * ind.j + ind.k) []
              updated := st.updated.set ind 1 }) s =
      { s with
        particle_groups := fun n =>
          if ∃ ind ∈ l, s.states ind ≠ 0 ∧ bucket_index s.res ind.i ind.j ind.k = n then []
          else s.particle_groups n
        updated := fun b => if b ∈ l ∧ s.states b ≠ 0 then 1 else s.updated b } := by
  intro l
  induction l with
  | nil => intro s; simp
  | cons a l ih =>
    intro s
    rw [List.foldl_cons]
    by_cases h0 : s.states a = 0
    · rw [if_pos h0, ih]
      congr 1
      · funext b
        apply if_congr _ rfl rfl
        constructor
        · rintro ⟨hb, hs⟩
          exact ⟨List.mem_cons_of_mem a hb, hs⟩
        · rintro ⟨hb, hs⟩
          rcases List.mem_cons.mp hb with rfl | hb
          · exact absurd h0 hs
          · exact ⟨hb, hs⟩
      · funext n
        apply if_congr _ rfl rfl
        constructor
        · rintro ⟨ind, hind, hs, hn⟩
          exact ⟨ind, List.mem_cons_of_mem a hind, hs, hn⟩
        · rintro ⟨ind, hind, hs, hn⟩
          rcases List.mem_cons.mp hind with rfl | hind
          · exact absurd h0 hs
          · exact ⟨ind, hind, hs, hn⟩
    · rw [if_neg h0, ih]
      congr 1
      · funext b
        dsimp only
        by_cases hba : b = a
        · subst hba
          simp [h0, Array3.set]
        · simp [hba, Array3.set]
      · funext n
        dsimp only
        by_cases hn : bucket_index s.res a.i a.j a.k = n
        · have hex : ∃ ind ∈ a :: l, s.states ind ≠ 0 ∧ bucket_index s.res ind.i ind.j ind.k = n :=
            ⟨a, List.mem_cons_self a l, h0, hn⟩
          rw [if_pos hex]
          split
          · rfl
          · unfold bucket_index at hn
            simp [groups_set, hn]
        · have hiff : (∃ ind ∈ l, s.states ind ≠ 0 ∧ bucket_index s.res ind.i ind.j ind.k = n) ↔
              ∃ ind ∈ a :: l, s.states ind ≠ 0 ∧ bucket_index s.res ind.i ind.j ind.k = n := by
            constructor
            · rintro ⟨ind, hind, hs, hi⟩
              exact ⟨ind, List.mem_cons_of_mem a hind, hs, hi⟩
            · rintro ⟨ind, hind, hs, hi⟩
              rcases List.mem_cons.mp hind with rfl | hind
              · exact absurd hi hn
              · exact ⟨ind, hind, hs, hi⟩
          rw [if_congr hiff rfl rfl]
          unfold bucket_index at hn
          have hn' : ¬ n = s.res.z * s.res.y * a.i + s.res.z * a.j + a.k := fun e => hn e.symm
          simp [groups_set, hn']


/-- What `insert_particle` never changes. -/
theorem insert_particle_frame (s : MPMScheduler) (p : ParticlePtr) (is_new : Bool) :
    (insert_particle s p is_new).heap = s.heap ∧
    (insert_particle s p is_new).res = s.res ∧
    (insert_particle s p is_new).grid_block_size = s.grid_block_size ∧
    (insert_particle s p is_new).states = s.states ∧
    (insert_particle s p is_new).sim_res = s.sim_res := by
  by_cases hin : inside s.res (get_rough_pos s p) = true
  · rw [insert_particle_inside s p is_new hin]
    exact ⟨rfl, rfl, rfl, rfl, rfl⟩
  · rw [insert_particle_outside s p is_new (by simpa using hin)]
    exact ⟨rfl, rfl, rfl, rfl, rfl⟩

theorem get_rough_pos_congr (s s' : MPMScheduler) (h1 : s'.heap = s.heap)
    (h2 : s'.grid_block_size = s.grid_block_size) (q : ParticlePtr) :
    get_rough_pos s' q = get_rough_pos s q := by
  unfold get_rough_pos
  rw [h1, h2]

theorem lands_in_congr (s s' : MPMScheduler) (h1 : s'.heap = s.heap)
    (h2 : s'.grid_block_size = s.grid_block_size) (h3 : s'.res = s.res) (n : Int)
    (q : ParticlePtr) : lands_in s' n q = lands_in s n q := by
  unfold lands_in
  rw [get_rough_pos_congr s s' h1 h2, h3]

theorem insert_particle_groups_lands (s : MPMScheduler) (p : ParticlePtr) (is_new : Bool)
    (n : Int) :
    (insert_particle s p is_new).particle_groups n =
      s.particle_groups n ++ [p].filter (lands_in s n) := by
  rw [insert_particle_groups]
  by_cases h : lands_in s n p = true
  · have h' := h
    simp only [lands_in, Bool.and_eq_true, decide_eq_true_eq] at h'
    rw [if_pos h']
    simp [h]
  · have h' := h
    simp only [lands_in, Bool.and_eq_true, decide_eq_true_eq] at h'
    rw [if_neg h']
    simp [h]

/-- The second loop of `update_particle_groups`: re-inserting a list of particles keeps the
geometry, the states and the active list, and appends to every bucket the particles of the list
that belong into it, in the order of the list. -/
theorem insert_all_fold :
    ∀ (L : List ParticlePtr) (s : MPMScheduler),
      (L.foldl (fun st q => insert_particle st q false) s).heap = s.heap ∧
      (L.foldl (fun st q => insert_particle st q false) s).res = s.res ∧
      (L.foldl (fun st q => insert_particle st q false) s).grid_block_size = s.grid_block_size ∧
      (L.foldl (fun st q => insert_particle st q false) s).states = s.states ∧
      (L.foldl (fun st q => insert_particle st q false) s).active_particles =
        s.active_particles ∧
      ∀ n, (L.foldl (fun st q => insert_particle st q false) s).particle_groups n =
        s.particle_groups n ++ L.filter (lands_in s n) := by
  intro L
  induction L with
  | nil => intro s; simp
  | cons q L ih =>
    intro s
    rw [List.foldl_cons]
    obtain ⟨h1, h2, h3, h4, h5, h6⟩ := ih (insert_particle s q false)
    obtain ⟨f1, f2, f3, f4, _⟩ := insert_particle_frame s q false
    refine ⟨h1.trans f1, h2.trans f2, h3.trans f3, h4.trans f4, ?_, ?_⟩
    · rw [h5]
      by_cases hin : inside s.res (get_rough_pos s q) = true
      · rw [insert_particle_inside s q false hin]
        simp
      · rw [insert_particle_outside s q false (by simpa using hin)]
    · intro n
      rw [h6 n, insert_particle_groups_lands]
      have hc : lands_in (insert_particle s q false) n = lands_in s n := by
        funext q'
        exact lands_in_congr s _ f1 f3 f2 n q'
      rw [hc, List.append_assoc, ← List.filter_append]
      rfl

/-- The buckets after `update_particle_groups`: the bucket of every block of the lattice with a
non-zero state is emptied, and then every active particle is appended to the bucket it belongs
into. -/
theorem update_particle_groups_groups (s : MPMScheduler) (n : Int) :
    (update_particle_groups s).particle_groups n =
      (if ∃ ind ∈ get_region s.res, s.states ind ≠ 0 ∧ bucket_index s.res ind.i ind.j ind.k = n
        then [] else s.particle_groups n) ++ s.active_particles.filter (lands_in s n) := by
  unfold update_particle_groups
  simp only []
  rw [clear_groups_fold]
  dsimp only
  rw [(insert_all_fold _ _).2.2.2.2.2 n]
  rfl

/-- What `update_particle_groups` never changes. -/
theorem update_particle_groups_frame (s : MPMScheduler) :
    (update_particle_groups s).heap = s.heap ∧
    (update_particle_groups s).res = s.res ∧
    (update_particle_groups s).grid_block_size = s.grid_block_size ∧
    (update_particle_groups s).states = s.states ∧
    (update_particle_groups s).active_particles = s.active_particles := by
  unfold update_particle_groups
  simp only []
  rw [clear_groups_fold]
  dsimp only
  obtain ⟨h1, h2, h3, h4, h5, _⟩ := insert_all_fold s.active_particles
    { s with
      particle_groups := fun n =>
        if ∃ ind ∈ get_region s.res, s.states ind ≠ 0 ∧ bucket_index s.res ind.i ind.j ind.k = n
        then [] else s.particle_groups n
      updated := fun b => if b ∈ get_region s.res ∧ s.states b ≠ 0 then 1 else s.updated b }
  exact ⟨h1, h2, h3, h4, h5⟩


/-! ## Statements about the insertion round trip -/

/-- C13, counterexample.  A freshly initialised line of one block (state 0) and the new
particle 0 at `(1/2, 1/2, 1/2)`, whose block `floor(pos / 1) = (0, 0, 0)` is in bounds: after
`insert_particle(P, true)` and `update_particle_groups()` the bucket of the block holds the
particle twice, because the bucket of a block with state 0 is not emptied before the active
particles are inserted again. -/
theorem round_trip_duplicates_in_inactive_block :
    (line_scheduler 1).states ⟨0, 0, 0⟩ = 0 ∧
    (⌊((line_scheduler 1).heap 0).pos.x / ((line_scheduler 1).grid_block_size : ℚ)⌋ = 0 ∧
     ⌊((line_scheduler 1).heap 0).pos.y / ((line_scheduler 1).grid_block_size : ℚ)⌋ = 0 ∧
     ⌊((line_scheduler 1).heap 0).pos.z / ((line_scheduler 1).grid_block_size : ℚ)⌋ = 0) ∧
    inside (line_scheduler 1).res ⟨0, 0, 0⟩ = true ∧
    (0 : ParticlePtr) ∈ (insert_particle (line_scheduler 1) 0 true).active_particles ∧
    (update_particle_groups (insert_particle (line_scheduler 1) 0 true)).particle_groups
      (bucket_index (line_scheduler 1).res 0 0 0) = [0, 0] ∧
    ((update_particle_groups (insert_particle (line_scheduler 1) 0 true)).particle_groups
      (bucket_index (line_scheduler 1).res 0 0 0)).count 0 = 2 := by
  have hpos : get_rough_pos (line_scheduler 1) 0 = ⟨0, 0, 0⟩ := get_rough_pos_line 1 0
  have hin : inside (line_scheduler 1).res (get_rough_pos (line_scheduler 1) 0) = true := by
    rw [hpos]; decide
  obtain ⟨f1, f2, f3, f4, _⟩ := insert_particle_frame (line_scheduler 1) 0 true
  have hact : (insert_particle (line_scheduler 1) 0 true).active_particles = [0] := by
    rw [insert_particle_inside _ _ _ hin]
    rfl
  have hland : lands_in (insert_particle (line_scheduler 1) 0 true)
      (bucket_index (line_scheduler 1).res 0 0 0) 0 = true := by
    rw [lands_in_congr _ _ f1 f3 f2]
    unfold lands_in
    rw [hpos]
    decide
  have hgroup : (update_particle_groups (insert_particle (line_scheduler 1) 0 true)).particle_groups
      (bucket_index (line_scheduler 1).res 0 0 0) = [0, 0] := by
    rw [update_particle_groups_groups, if_neg, hact, insert_particle_groups_lands]
    · have hland0 : lands_in (line_scheduler 1) (bucket_index (line_scheduler 1).res 0 0 0) 0
          = true := by
        unfold lands_in
        rw [hpos]
        decide
      simp only [List.filter_cons, hland, hland0, if_true, List.filter_nil]
      rfl
    · rintro ⟨ind, _, hs, _⟩
      rw [f4] at hs
      exact hs rfl
  refine ⟨rfl, ⟨?_, ?_, ?_⟩, by decide, ?_, hgroup, ?_⟩
  · simp only [line_scheduler, initialize_fields, heap_line]; norm_num
  · simp only [line_scheduler, initialize_fields, heap_line]; norm_num
  · simp only [line_scheduler, initialize_fields, heap_line]; norm_num
  · rw [hact]; decide
  · rw [hgroup]; decide

/-- C13, as amended.  For a particle `P` that is in no bucket and not in the active list, and
whose block `(trunc(p.x / b), trunc(p.y / b), trunc(p.z / b))` (rounding towards zero) is
inside the lattice and has a non-zero state, after `insert_particle(P, true)` followed by
`update_particle_groups()` the bucket of that block holds `P` exactly once and no other bucket
holds `P`; when the block is outside the lattice, no bucket holds `P`. -/
theorem insert_then_regroup (s : MPMScheduler) (P : ParticlePtr)
    (hact : P ∉ s.active_particles) (hgrp : ∀ n, P ∉ s.particle_groups n) :
    (inside s.res (trunc_block s P) = true → s.states (trunc_block s P) ≠ 0 →
      ((update_particle_groups (insert_particle s P true)).particle_groups
        (bucket_index s.res (trunc_block s P).i (trunc_block s P).j (trunc_block s P).k)).count P
        = 1 ∧
      (∀ n, n ≠ bucket_index s.res (trunc_block s P).i (trunc_block s P).j (trunc_block s P).k →
        P ∉ (update_particle_groups (insert_particle s P true)).particle_groups n) ∧
      (∀ b, inside s.res b = true → b ≠ trunc_block s P →
        P ∉ (update_particle_groups (insert_particle s P true)).particle_groups
          (bucket_index s.res b.i b.j b.k))) ∧
    (inside s.res (trunc_block s P) = false →
      ∀ n, P ∉ (update_particle_groups (insert_particle s P true)).particle_groups n) := by
  rw [← get_rough_pos_eq_trunc_block]
  obtain ⟨f1, f2, f3, f4, _⟩ := insert_particle_frame s P true
  have hlands : ∀ n, lands_in (insert_particle s P true) n = lands_in s n := by
    intro n
    funext q
    exact lands_in_congr s _ f1 f3 f2 n q
  have hfilter : ∀ n, (s.active_particles.filter (lands_in s n)).count P = 0 := by
    intro n
    rw [List.count_eq_zero]
    exact fun h => hact (List.mem_of_mem_filter h)
  constructor
  · intro hin hs
    have hact1 : (insert_particle s P true).active_particles = s.active_particles ++ [P] := by
      rw [insert_particle_inside s P true hin]
      rfl
    have hcount : ∀ n, ((update_particle_groups (insert_particle s P true)).particle_groups
        n).count P =
        if n = bucket_index s.res (get_rough_pos s P).i (get_rough_pos s P).j
          (get_rough_pos s P).k then 1 else 0 := by
      intro n
      rw [update_particle_groups_groups, hact1, hlands, f2, f4, List.count_append,
        List.filter_append, List.count_append, hfilter, zero_add]
      by_cases hn : n = bucket_index s.res (get_rough_pos s P).i (get_rough_pos s P).j
          (get_rough_pos s P).k
      · have hex : ∃ ind ∈ get_region s.res, s.states ind ≠ 0 ∧
            bucket_index s.res ind.i ind.j ind.k = n :=
          ⟨get_rough_pos s P, (mem_get_region _ _).mpr hin, hs, hn.symm⟩
        have hl : lands_in s n P = true := by
          simp only [lands_in, Bool.and_eq_true, decide_eq_true_eq]
          exact ⟨hin, hn⟩
        rw [if_pos hex, if_pos hn]
        simp [hl]
      · have hl : lands_in s n P = false := by
          simp only [lands_in, Bool.and_eq_false_iff, decide_eq_false_iff_not]
          exact Or.inr hn
        rw [if_neg hn]
        have h0 : (if ∃ ind ∈ get_region s.res, s.states ind ≠ 0 ∧
            bucket_index s.res ind.i ind.j ind.k = n then []
            else (insert_particle s P true).particle_groups n).count P = 0 := by
          split
          · rfl
          · rw [insert_particle_groups, if_neg (fun h => hn h.2), List.count_eq_zero]
            exact hgrp n
        rw [h0]
        simp [hl]
    refine ⟨?_, ?_, ?_⟩
    · rw [hcount, if_pos rfl]
    · intro n hn
      rw [← List.count_eq_zero, hcount, if_neg hn]
    · intro b hb hne
      rw [← List.count_eq_zero, hcount, if_neg]
      exact fun h => hne (bucket_index_injective s.res b _ hb hin h)
  · intro hout n
    rw [insert_particle_outside s P true hout, update_particle_groups_groups,
      List.mem_append, not_or]
    constructor
    · split
      · exact List.not_mem_nil P
      · exact hgrp n
    · exact fun h => hact (List.mem_of_mem_filter h)


theorem trunc_block_line_active (p : ParticlePtr) :
    trunc_block line_active p = ⟨(p : Int), 0, 0⟩ := by
  rw [← get_rough_pos_eq_trunc_block, get_rough_pos_congr (line_scheduler 3) line_active rfl rfl,
    get_rough_pos_line]

/-- C13, witness: the new particle 1 at `(3/2, 1/2, 1/2)` in the line of three updating
blocks. -/
theorem insert_then_regroup_witness :
    (1 : ParticlePtr) ∉ line_active.active_particles ∧
    (∀ n, (1 : ParticlePtr) ∉ line_active.particle_groups n) ∧
    inside line_active.res (trunc_block line_active 1) = true ∧
    line_active.states (trunc_block line_active 1) ≠ 0 ∧
    ((update_particle_groups (insert_particle line_active 1 true)).particle_groups
      (bucket_index line_active.res (trunc_block line_active 1).i (trunc_block line_active 1).j
        (trunc_block line_active 1).k)).count 1 = 1 :=
  have hact : (1 : ParticlePtr) ∉ line_active.active_particles := List.not_mem_nil _
  have hgrp : ∀ n, (1 : ParticlePtr) ∉ line_active.particle_groups n :=
    fun _ => List.not_mem_nil _
  have hin : inside line_active.res (trunc_block line_active 1) = true := by
    rw [trunc_block_line_active]
    decide
  have hs : line_active.states (trunc_block line_active 1) ≠ 0 := by
    rw [trunc_block_line_active]
    decide
  ⟨hact, hgrp, hin, hs, ((insert_then_regroup line_active 1 hact hgrp).1 hin hs).1⟩


/-! ## update -/

/-- A fold that appends the contribution of the selected elements is the start value followed
by the contributions of the selected elements in the order of the list. -/
theorem foldl_append_filter {α β : Type} (c : α → Prop) [DecidablePred c] (f : α → List β) :
    ∀ (l : List α) (init : List β),
      l.foldl (fun acc x => if c x then acc ++ f x else acc) init =
        init ++ (l.filter (fun x => decide (c x))).flatMap f := by
  intro l
  induction l with
  | nil => intro init; simp
  | cons a l ih =>
    intro init
    rw [List.foldl_cons, ih]
    by_cases h : c a
    · simp [h, List.filter_cons, List.flatMap_cons, List.append_assoc]
    · simp [h, List.filter_cons]

/-- The second loop of `update`. -/
theorem collect_active_particles_eq (s : MPMScheduler) :
    collect_active_particles s =
      ((get_region s.res).filter (fun b => decide (s.states b ≠ 0))).flatMap (bucket s) := by
  unfold collect_active_particles
  rw [foldl_append_filter (fun b => s.states b ≠ 0)
    (fun ind => s.particle_groups (s.res.z * s.res.y * ind.i + s.res.z * ind.j + ind.k))]
  rfl

/-- The grid node loops of `update` over any list of nodes whose block indices are inside the
lattice, for a non-zero block size. -/
theorem update_grid_fold (s : MPMScheduler) (hg : s.grid_block_size ≠ 0) :
    ∀ (l : List Vector3i) (acc : List Vector3i),
      (∀ p ∈ l, inside s.res ⟨Int.tdiv p.x s.grid_block_size, Int.tdiv p.y s.grid_block_size,
        Int.tdiv p.z s.grid_block_size⟩ = true) →
      l.foldlM (update_grid_step s) acc = some (acc ++ l.filter (fun p =>
        decide (s.states ⟨Int.tdiv p.x s.grid_block_size, Int.tdiv p.y s.grid_block_size,
          Int.tdiv p.z s.grid_block_size⟩ ≠ 0))) := by
  intro l
  induction l with
  | nil => intro acc _; simp
  | cons a l ih =>
    intro acc hin
    have ha := hin a (List.mem_cons_self a l)
    have hl : ∀ p ∈ l, inside s.res ⟨Int.tdiv p.x s.grid_block_size,
        Int.tdiv p.y s.grid_block_size, Int.tdiv p.z s.grid_block_size⟩ = true :=
      fun p hp => hin p (List.mem_cons_of_mem a hp)
    rw [List.foldlM_cons]
    by_cases h : s.states ⟨Int.tdiv a.x s.grid_block_size, Int.tdiv a.y s.grid_block_size,
        Int.tdiv a.z s.grid_block_size⟩ ≠ 0
    · have hstep : update_grid_step s acc a = some (acc ++ [a]) := by
        unfold update_grid_step
        rw [if_neg hg, if_neg (by rw [ha]; decide), if_pos h]
      rw [hstep]
      simp only [Option.bind_eq_bind, Option.some_bind]
      rw [ih _ hl]
      simp [List.filter_cons, h]
    · have hstep : update_grid_step s acc a = some acc := by
        unfold update_grid_step
        rw [if_neg hg, if_neg (by rw [ha]; decide), if_neg h]
      rw [hstep]
      simp only [Option.bind_eq_bind, Option.some_bind]
      rw [ih _ hl]
      simp [List.filter_cons, h]

theorem tagged_congr (st st' : MPMScheduler) (hs : st'.states = st.states)
    (hg : st'.grid_block_size = st.grid_block_size) (q : ParticlePtr)
    (hpos : (st'.heap q).pos = (st.heap q).pos) (hv : (st'.heap q).v = (st.heap q).v)
    (ha : (st'.heap q).allowed_dt = (st.heap q).allowed_dt) : tagged st' q = tagged st q := by
  have hr : get_rough_pos st' q = get_rough_pos st q := by
    unfold get_rough_pos
    rw [hpos, hg]
  unfold tagged
  rw [hr, hs]
  split
  · cases h1 : st'.heap q
    cases h2 : st.heap q
    rw [h1, h2] at hpos hv ha
    simp only at hpos hv ha
    simp [hpos, hv, ha]
  · cases h1 : st'.heap q
    cases h2 : st.heap q
    rw [h1, h2] at hpos hv ha
    simp only at hpos hv ha
    simp [hpos, hv, ha]

theorem tagged_fields (st : MPMScheduler) (p : ParticlePtr) :
    (tagged st p).pos = (st.heap p).pos ∧ (tagged st p).v = (st.heap p).v ∧
    (tagged st p).allowed_dt = (st.heap p).allowed_dt ∧
    (tagged st p).state = particle_tag st p := by
  unfold tagged particle_tag
  split <;> exact ⟨rfl, rfl, rfl, rfl⟩

theorem heap_set_tagged_fields (st : MPMScheduler) (p q : ParticlePtr) :
    (heap_set st.heap p (tagged st p) q).pos = (st.heap q).pos ∧
    (heap_set st.heap p (tagged st p) q).v = (st.heap q).v ∧
    (heap_set st.heap p (tagged st p) q).allowed_dt = (st.heap q).allowed_dt := by
  unfold heap_set
  split
  · next h =>
    subst h
    exact ⟨(tagged_fields st q).1, (tagged_fields st q).2.1, (tagged_fields st q).2.2.1⟩
  · exact ⟨rfl, rfl, rfl⟩

/-- A loop that writes the tagged record of every particle of a list leaves the tagged record
of the start state in the visited particles and changes nothing else. -/
theorem tag_fold (f : MPMScheduler → ParticlePtr → MPMScheduler)
    (hf : ∀ st p, f st p = { st with heap := heap_set st.heap p (tagged st p) }) :
    ∀ (L : List ParticlePtr) (st : MPMScheduler),
      L.foldl f st = { st with heap := fun q => if q ∈ L then tagged st q else st.heap q } := by
  intro L
  induction L with
  | nil => intro st; simp
  | cons p L ih =>
    intro st
    rw [List.foldl_cons, hf, ih]
    congr 1
    funext q
    dsimp only
    have ht : tagged { st with heap := heap_set st.heap p (tagged st p) } q = tagged st q := by
      refine tagged_congr st _ ?_ ?_ q ?_ ?_ ?_
      · rfl
      · rfl
      · exact heap_set_tagged_fields st p q |>.1
      · exact heap_set_tagged_fields st p q |>.2.1
      · exact heap_set_tagged_fields st p q |>.2.2
    rw [ht]
    by_cases hq : q = p
    · subst hq
      simp [heap_set]
    · simp [hq, heap_set]

theorem update_particle_states_eq (s : MPMScheduler) :
    update_particle_states s =
      { s with heap := fun q => if q ∈ s.active_particles then tagged s q else s.heap q } := by
  unfold update_particle_states
  apply tag_fold
  intro st p
  dsimp only
  unfold tagged
  split <;> rfl

/-- `update` for a non-zero block size and grid nodes whose blocks are inside the lattice: the
active grid nodes are the grid nodes whose block has a non-zero state, the active particles are
the buckets of the blocks with a non-zero state, and the active particles are tagged. -/
theorem update_eq (s : MPMScheduler) (hg : s.grid_block_size ≠ 0) (hn : nodes_owned s) :
    update s = some
      { s with
        active_grid_points := (grid_nodes s.sim_res).filter (fun p =>
          decide (s.states ⟨Int.tdiv p.x s.grid_block_size, Int.tdiv p.y s.grid_block_size,
            Int.tdiv p.z s.grid_block_size⟩ ≠ 0))
        active_particles := collect_active_particles s
        heap := fun q => if q ∈ collect_active_particles s then tagged s q else s.heap q } := by
  unfold update
  rw [update_grid_fold s hg _ _ hn]
  dsimp only
  rw [update_particle_states_eq]
  rfl


theorem mem_grid_nodes (sim_res p : Vector3i) :
    p ∈ grid_nodes sim_res ↔
      (0 ≤ p.x ∧ p.x ≤ sim_res.x) ∧ (0 ≤ p.y ∧ p.y ≤ sim_res.y) ∧ (0 ≤ p.z ∧ p.z ≤ sim_res.z) := by
  unfold grid_nodes
  simp only [List.mem_flatMap, List.mem_map, mem_range_int, Int.lt_add_one_iff]
  constructor
  · rintro ⟨i, hi, j, hj, k, hk, rfl⟩
    exact ⟨hi, hj, hk⟩
  · rintro ⟨hi, hj, hk⟩
    exact ⟨p.x, hi, p.y, hj, p.z, hk, rfl⟩

theorem nodup_grid_nodes (sim_res : Vector3i) : (grid_nodes sim_res).Nodup := by
  unfold grid_nodes
  rw [List.nodup_flatMap]
  refine ⟨?_, ?_⟩
  · intro i _
    rw [List.nodup_flatMap]
    refine ⟨?_, ?_⟩
    · intro j _
      refine List.Nodup.map ?_ (nodup_range_int _)
      intro a b h
      injection h
    · refine List.Pairwise.imp_of_mem ?_ (nodup_range_int _)
      intro a b _ _ hab
      intro x hx hx2
      simp only [List.mem_map] at hx hx2
      obtain ⟨k, _, rfl⟩ := hx
      obtain ⟨k2, _, h2⟩ := hx2
      injection h2 with _ h3 _
      exact hab h3.symm
  · refine List.Pairwise.imp_of_mem ?_ (nodup_range_int _)
    intro a b _ _ hab
    intro x hx hx2
    simp only [List.mem_flatMap, List.mem_map] at hx hx2
    obtain ⟨j, _, k, _, rfl⟩ := hx
    obtain ⟨j2, _, k2, _, h2⟩ := hx2
    injection h2 with h3 _ _
    exact hab h3.symm

/-! ## Statements about `update` -/

/-- C14.  For a non-zero block size and grid nodes whose blocks are inside the lattice (so that
every read of the state array is within its bounds) `update()` terminates normally, and afterwards
`active_particles` is the concatenation, in lattice traversal order, of the buckets of the
blocks with a non-zero state, each bucket in its own order; so a particle is active exactly when
it is in the bucket of a block of the lattice with a non-zero state, and the result does not
depend on the previous contents of `active_particles`. -/
theorem update_active_particles (s : MPMScheduler) (hg : s.grid_block_size ≠ 0)
    (hn : nodes_owned s) :
    ∃ s', update s = some s' ∧
      s'.active_particles =
        ((get_region s.res).filter (fun b => decide (s.states b ≠ 0))).flatMap (bucket s) ∧
      (∀ p, p ∈ s'.active_particles ↔
        ∃ b, inside s.res b = true ∧ s.states b ≠ 0 ∧ p ∈ bucket s b) ∧
      (∀ L : List ParticlePtr, ∃ s'', update { s with active_particles := L } = some s'' ∧
        s''.active_particles = s'.active_particles) := by
  refine ⟨_, update_eq s hg hn, collect_active_particles_eq s, ?_, ?_⟩
  · intro p
    show p ∈ collect_active_particles s ↔ _
    rw [collect_active_particles_eq]
    simp only [List.mem_flatMap, List.mem_filter, mem_get_region, decide_eq_true_eq]
    constructor
    · rintro ⟨b, ⟨hb, hs⟩, hp⟩
      exact ⟨b, hb, hs, hp⟩
    · rintro ⟨b, hb, hs, hp⟩
      exact ⟨b, ⟨hb, hs⟩, hp⟩
  · intro L
    exact ⟨_, update_eq { s with active_particles := L } hg hn, rfl⟩

/-- C14, witness: the line of two blocks of size 2, with two particles in the updating block and
one in the buffer block. -/
theorem update_active_particles_witness :
    coarse_line.grid_block_size ≠ 0 ∧ nodes_owned coarse_line ∧
    ∃ s', update coarse_line = some s' ∧
      s'.active_particles =
        ((get_region coarse_line.res).filter
          (fun b => decide (coarse_line.states b ≠ 0))).flatMap (bucket coarse_line) ∧
      (∀ p, p ∈ s'.active_particles ↔
        ∃ b, inside coarse_line.res b = true ∧ coarse_line.states b ≠ 0 ∧
          p ∈ bucket coarse_line b) ∧
      (∀ L : List ParticlePtr,
        ∃ s'', update { coarse_line with active_particles := L } = some s'' ∧
        s''.active_particles = s'.active_particles) :=
  ⟨by decide, by decide, update_active_particles coarse_line (by decide) (by decide)⟩

/-- C15.  For a positive block size and grid nodes whose owning blocks
`(i div grid_block_size, j div grid_block_size, k div grid_block_size)` are inside the lattice (so
that every read of the state array is within its bounds), `update()` terminates normally, and
afterwards `active_grid_points` contains, each exactly once, precisely the grid nodes `(i, j, k)`
with `0 ≤ i ≤ sim_res.x`, `0 ≤ j ≤ sim_res.y`, `0 ≤ k ≤ sim_res.z` whose owning block, a block of
the lattice, has a non-zero state. -/
theorem update_active_grid_points (s : MPMScheduler) (hg : 0 < s.grid_block_size)
    (hn : nodes_owned s) :
    ∃ s', update s = some s' ∧ s'.active_grid_points.Nodup ∧
      ∀ p : Vector3i, p ∈ s'.active_grid_points ↔
        ((0 ≤ p.x ∧ p.x ≤ s.sim_res.x) ∧ (0 ≤ p.y ∧ p.y ≤ s.sim_res.y) ∧
          (0 ≤ p.z ∧ p.z ≤ s.sim_res.z)) ∧ inside s.res (owning_block s p) = true ∧
        s.states (owning_block s p) ≠ 0 := by
  refine ⟨_, update_eq s (by omega) hn, (nodup_grid_nodes _).filter _, ?_⟩
  intro p
  show p ∈ (grid_nodes s.sim_res).filter _ ↔ _
  rw [List.mem_filter, mem_grid_nodes, decide_eq_true_eq]
  constructor
  · rintro ⟨hp, hs⟩
    have hin := hn p ((mem_grid_nodes _ _).mpr hp)
    refine ⟨hp, ?_⟩
    unfold owning_block
    rw [← Int.tdiv_eq_ediv hp.1.1 hg.le, ← Int.tdiv_eq_ediv hp.2.1.1 hg.le,
      ← Int.tdiv_eq_ediv hp.2.2.1 hg.le]
    exact ⟨hin, hs⟩
  · rintro ⟨hp, _, hs⟩
    refine ⟨hp, ?_⟩
    unfold owning_block at hs
    rw [← Int.tdiv_eq_ediv hp.1.1 hg.le, ← Int.tdiv_eq_ediv hp.2.1.1 hg.le,
      ← Int.tdiv_eq_ediv hp.2.2.1 hg.le] at hs
    exact hs

/-- C15, witness: the line of two blocks of size 2 over four by two by two grid nodes. -/
theorem update_active_grid_points_witness :
    0 < coarse_line.grid_block_size ∧ nodes_owned coarse_line ∧
    ∃ s', update coarse_line = some s' ∧ s'.active_grid_points.Nodup ∧
      ∀ p : Vector3i, p ∈ s'.active_grid_points ↔
        ((0 ≤ p.x ∧ p.x ≤ coarse_line.sim_res.x) ∧ (0 ≤ p.y ∧ p.y ≤ coarse_line.sim_res.y) ∧
          (0 ≤ p.z ∧ p.z ≤ coarse_line.sim_res.z)) ∧
        inside coarse_line.res (owning_block coarse_line p) = true ∧
        coarse_line.states (owning_block coarse_line p) ≠ 0 :=
  ⟨by decide, by decide, update_active_grid_points coarse_line (by decide) (by decide)⟩

/-- C16.  Idempotence of `update()`: for a non-zero block size and grid nodes whose blocks are
inside the lattice (so that every read of the state array is within its bounds) a first and a
second call both terminate normally, the second call leaves the scheduler as the first call left it (the same
`active_particles`, the same `active_grid_points`, the same tags), and `update()` changes no
block state, bucket, dirty flag or `max_dt_int`. -/
theorem update_idempotent (s : MPMScheduler) (hg : s.grid_block_size ≠ 0)
    (hn : nodes_owned s) :
    ∃ s1 s2, update s = some s1 ∧ update s1 = some s2 ∧
      s2.active_particles = s1.active_particles ∧
      s2.active_grid_points = s1.active_grid_points ∧
      s2 = s1 ∧
      s1.states = s.states ∧ s1.particle_groups = s.particle_groups ∧
      s1.updated = s.updated ∧ s1.max_dt_int = s.max_dt_int := by
  have h1 := update_eq s hg hn
  have h2 := update_eq
    { s with
      active_grid_points := (grid_nodes s.sim_res).filter (fun p =>
        decide (s.states ⟨Int.tdiv p.x s.grid_block_size, Int.tdiv p.y s.grid_block_size,
          Int.tdiv p.z s.grid_block_size⟩ ≠ 0))
      active_particles := collect_active_particles s
      heap := fun q => if q ∈ collect_active_particles s then tagged s q else s.heap q } hg hn
  refine ⟨_, _, h1, h2, rfl, rfl, ?_, rfl, rfl, rfl, rfl⟩
  congr 1
  funext q
  have hc : collect_active_particles
      { s with
        active_grid_points := (grid_nodes s.sim_res).filter (fun p =>
          decide (s.states ⟨Int.tdiv p.x s.grid_block_size, Int.tdiv p.y s.grid_block_size,
            Int.tdiv p.z s.grid_block_size⟩ ≠ 0))
        active_particles := collect_active_particles s
        heap := fun q => if q ∈ collect_active_particles s then tagged s q else s.heap q } =
      collect_active_particles s := rfl
  rw [hc]
  dsimp only
  by_cases h : q ∈ collect_active_particles s
  · rw [if_pos h, if_pos h]
    refine tagged_congr s _ ?_ ?_ q ?_ ?_ ?_
    · rfl
    · rfl
    · dsimp only
      rw [if_pos h]
      exact (tagged_fields s q).1
    · dsimp only
      rw [if_pos h]
      exact (tagged_fields s q).2.1
    · dsimp only
      rw [if_pos h]
      exact (tagged_fields s q).2.2.1
  · rw [if_neg h, if_neg h]

/-- C16, witness: the line of two blocks of size 2. -/
theorem update_idempotent_witness :
    coarse_line.grid_block_size ≠ 0 ∧ nodes_owned coarse_line ∧
    ∃ s1 s2, update coarse_line = some s1 ∧ update s1 = some s2 ∧
      s2.active_particles = s1.active_particles ∧
      s2.active_grid_points = s1.active_grid_points ∧
      s2 = s1 ∧
      s1.states = coarse_line.states ∧ s1.particle_groups = coarse_line.particle_groups ∧
      s1.updated = coarse_line.updated ∧ s1.max_dt_int = coarse_line.max_dt_int :=
  ⟨by decide, by decide, update_idempotent coarse_line (by decide) (by decide)⟩

/-- A property that every successful step of a failing fold keeps holds at the end of a
successful fold. -/
theorem foldlM_option_keeps {α β : Type} (P : α → Prop) (f : α → β → Option α)
    (hf : ∀ a x a', P a → f a x = some a' → P a') :
    ∀ (l : List β) (a a' : α), P a → l.foldlM f a = some a' → P a' := by
  intro l
  induction l with
  | nil =>
    intro a a' h he
    simp only [List.foldlM_nil, Option.pure_def, Option.some.injEq] at he
    rw [← he]
    exact h
  | cons x l ih =>
    intro a a' h he
    rw [List.foldlM_cons] at he
    cases hx : f a x with
    | none => rw [hx] at he; exact absurd he (by simp)
    | some a1 =>
      rw [hx] at he
      simp only [Option.bind_eq_bind, Option.some_bind] at he
      exact ih a1 a' (hf a x a1 h hx) he

/-- Whenever `set_time` terminates normally, every state is the old state or 1. -/
theorem set_time_states_of_some (s s' : MPMScheduler) (t : Int) (h : set_time s t = some s') :
    ∀ b, s'.states b = s.states b ∨ s'.states b = 1 := by
  unfold set_time at h
  refine foldlM_option_keeps (fun st : MPMScheduler => ∀ b, st.states b = s.states b ∨
    st.states b = 1) (set_time_step t) ?_ _ s s' (fun b => Or.inl rfl) h
  intro a x a' ha hstep b
  unfold set_time_step at hstep
  split at hstep
  · exact absurd hstep (by simp)
  · split at hstep
    · injection hstep with hstep
      rw [← hstep]
      by_cases hb : b = x
      · right; simp [Array3.set, hb]
      · have : (a.states.set x 1) b = a.states b := by simp [Array3.set, hb]
        show (a.states.set x 1) b = s.states b ∨ (a.states.set x 1) b = 1
        rw [this]
        exact ha b
    · injection hstep with hstep
      rw [← hstep]
      exact ha b

/-- Whenever `update_max_dt_int` terminates normally, the states are unchanged. -/
theorem update_max_dt_int_states_of_some (s s' : MPMScheduler) (t r : Int)
    (h : update_max_dt_int s t = some (s', r)) : s'.states = s.states := by
  unfold update_max_dt_int at h
  refine foldlM_option_keeps (fun acc : MPMScheduler × Int => acc.1.states = s.states)
    (update_max_dt_int_step t) ?_ _ (s, DT_INF) (s', r) rfl h
  intro a x a' ha hstep
  unfold update_max_dt_int_step at hstep
  dsimp only at hstep
  split at hstep
  · exact absurd hstep (by simp)
  · split at hstep <;> split at hstep <;>
    · injection hstep with hstep
      rw [← hstep]
      exact ha

/-- Whenever `update` terminates normally, the states are unchanged. -/
theorem update_states_of_some (s s' : MPMScheduler) (h : update s = some s') :
    s'.states = s.states := by
  unfold update at h
  split at h
  · exact absurd h (by simp)
  · injection h with h
    rw [← h, update_particle_states_eq]

theorem reset_particle_states_states (s : MPMScheduler) :
    (reset_particle_states s).states = s.states := by
  unfold reset_particle_states
  apply foldl_keeps (fun st : MPMScheduler => st.states = s.states)
  · intro a x ha
    exact ha
  · rfl

/-- The states after `expand(_, true)` at any index: the dilated mask, which is 0 or 1, plus
the old state. -/
theorem expand_states_any (s : MPMScheduler) (ev : Bool) (b : Index3D) :
    (expand s ev true).states b = s.states b ∨ (expand s ev true).states b = 1 + s.states b := by
  have h : (expand s ev true).states b =
      ((get_region s.res).foldl
        (expand_block s.res ev true s.min_vel s.max_vel s.states)
        { new_min_vel := fun _ => ⟨FLT_1e30, FLT_1e30, FLT_1e30⟩
          new_max_vel := fun _ => ⟨-FLT_1e30, -FLT_1e30, -FLT_1e30⟩
          new_states := fun _ => 0 }).new_states b + s.states b := rfl
  rw [h, expand_fold_states]
  split
  · right; rfl
  · left; simp


/-- Under the cycle discipline the states are 0 or 1 before the expansion and 0, 1 or 2 after
it. -/
theorem cycle_states (e : Bool) (s : MPMScheduler) (h : CycleReachable e s) :
    (e = false → ∀ b, s.states b = 0 ∨ s.states b = 1) ∧
    (∀ b, s.states b = 0 ∨ s.states b = 1 ∨ s.states b = 2) := by
  induction h with
  | init heap sim_res base_delta_t cfl strength_dt_mul node_id grid_block_size s hs =>
    unfold initialize_scheduler at hs
    split at hs
    · exact absurd hs (by simp)
    · injection hs with hs
      rw [← hs]
      exact ⟨fun _ b => Or.inl rfl, fun b => Or.inl rfl⟩
  | clear e s _ _ => exact ⟨fun _ b => Or.inl rfl, fun b => Or.inl rfl⟩
  | time e s s' t _ hstep ih =>
    have hst := set_time_states_of_some s s' t hstep
    constructor
    · intro he b
      rcases hst b with h | h
      · rw [h]; exact ih.1 he b
      · exact Or.inr h
    · intro b
      rcases hst b with h | h
      · rw [h]; exact ih.2 b
      · exact Or.inr (Or.inl h)
  | expansion s ev _ ih =>
    refine ⟨fun he => absurd he (by simp), ?_⟩
    intro b
    rcases expand_states_any s ev b with h | h <;> rcases ih.1 rfl b with h0 | h0 <;>
      rw [h, h0] <;> simp
  | expansion_vel e s ev _ ih => exact ih
  | activate e s s' _ hstep ih => rw [update_states_of_some s s' hstep]; exact ih
  | insert e s p is_new _ ih => rw [(insert_particle_frame s p is_new).2.2.2.1]; exact ih
  | regroup e s _ ih => rw [(update_particle_groups_frame s).2.2.2.1]; exact ih
  | dt_limits e s s' _ hf ih => rw [hf.2.2.1]; exact ih
  | max_dt e s s' t r _ hstep ih =>
    rw [update_max_dt_int_states_of_some s s' t r hstep]; exact ih
  | smooth e s t _ ih => exact ih
  | clear_particles e s _ ih => rw [reset_particle_states_states]; exact ih
  | tag e s _ ih => rw [update_particle_states_eq]; exact ih
  | move e s heap _ ih => exact ih

/-! ## Statements about the block states -/

/-- C18, counterexample.  One block, `initialize`, `set_time(0)`, `expand(false, true)`: the
state is 2; a second `expand(false, true)` without `reset` makes it 3.  The same happens in two
`set_time` + `expand` cycles without `reset` when the step multiple of the block is 2: after
`set_time(0)`, `expand`, `set_time(1)`, `expand` the state is 3. -/
theorem state_three_without_reset :
    ((initialize_scheduler heap_line ⟨1, 1, 1⟩ 1 1 1 0 1).bind (fun s0 => set_time s0 0)).map
      (fun s1 => ((expand s1 false true).states ⟨0, 0, 0⟩,
        (expand (expand s1 false true) false true).states ⟨0, 0, 0⟩)) = some (2, 3) ∧
    ((set_time (reset (line_with 1 (fun _ => 2) (fun _ => 0))) 0).bind
      (fun s1 => set_time (expand s1 false true) 1)).map
      (fun s2 => (expand s2 false true).states ⟨0, 0, 0⟩) = some 3 := by
  constructor <;> decide

/-- C18, as amended.  In every state reachable from `initialize` through the public operations
in which `expand(_, true)` runs at most once after each `reset`, every block's state is 0, 1 or
2. -/
theorem cycle_states_in_range (e : Bool) (s : MPMScheduler) (h : CycleReachable e s) :
    ∀ b, s.states b = 0 ∨ s.states b = 1 ∨ s.states b = 2 :=
  (cycle_states e s h).2

/-- C18, witness: `initialize`, `set_time(0)` and `expand(false, true)` on one block. -/
theorem cycle_states_in_range_witness :
    ∃ s, CycleReachable true s ∧ ∀ b, s.states b = 0 ∨ s.states b = 1 ∨ s.states b = 2 :=
  have hne : ∀ b, inside (line_scheduler 1).res b = true → (line_scheduler 1).max_dt_int b ≠ 0 :=
    fun b _ => by simp [line_scheduler, initialize_fields]
  have h2 := CycleReachable.expansion _ false
    (CycleReachable.time false _ _ 0
      (CycleReachable.init _ _ _ _ _ _ _ _ (line_scheduler_initialized 1))
      (set_time_eq (line_scheduler 1) 0 hne))
  ⟨_, h2, cycle_states_in_range true _ h2⟩

/-- C19.  No operation other than `reset()` turns a positive block state into 0: for a block
whose state is positive (buffer or updating), `set_time(t)`, `expand` with any flags, `update`,
`update_max_dt_int`, `enforce_smoothness`, `insert_particle` and `update_particle_groups` all
leave the state non-zero; the operations that can fail terminate normally when the step
multiples and the block size are non-zero and, for `update`, the blocks of the grid nodes are
inside the lattice (so that every read of the state array is within its bounds). -/
theorem state_stays_nonzero (s : MPMScheduler) (t : Int) (b : Index3D)
    (hdiv : ∀ b, inside s.res b = true → s.max_dt_int b ≠ 0) (hg : s.grid_block_size ≠ 0)
    (hb : 0 < s.states b) :
    (∃ s', set_time s t = some s' ∧ s'.states b ≠ 0) ∧
    (∀ ev es, (expand s ev es).states b ≠ 0) ∧
    (∀ s', update s = some s' → s'.states b ≠ 0) ∧
    (nodes_owned s → ∃ s', update s = some s' ∧ s'.states b ≠ 0) ∧
    (∃ s' r, update_max_dt_int s t = some (s', r) ∧ s'.states b ≠ 0) ∧
    (enforce_smoothness s t).states b ≠ 0 ∧
    (∀ p is_new, (insert_particle s p is_new).states b ≠ 0) ∧
    (update_particle_groups s).states b ≠ 0 := by
  have hne : s.states b ≠ 0 := by omega
  refine ⟨⟨_, set_time_eq s t hdiv, ?_⟩, ?_,
    fun s' hs' => by rw [update_states_of_some s s' hs']; exact hne,
    fun hn => ⟨_, update_eq s hg hn, hne⟩,
    ⟨_, _, update_max_dt_int_eq s t hdiv, hne⟩, hne, ?_, ?_⟩
  · dsimp only
    split
    · decide
    · exact hne
  · intro ev es
    cases es
    · exact hne
    · rcases expand_states_any s ev b with h | h <;> rw [h] <;> omega
  · intro p is_new
    rw [(insert_particle_frame s p is_new).2.2.2.1]
    exact hne
  · rw [(update_particle_groups_frame s).2.2.2.1]
    exact hne

/-- C19, witness: the buffer block 1 of the line of two blocks of size 2. -/
theorem state_stays_nonzero_witness :
    (∀ b, inside coarse_line.res b = true → coarse_line.max_dt_int b ≠ 0) ∧
    coarse_line.grid_block_size ≠ 0 ∧ 0 < coarse_line.states ⟨1, 0, 0⟩ ∧
    nodes_owned coarse_line ∧
    (∃ s', set_time coarse_line 3 = some s' ∧ s'.states ⟨1, 0, 0⟩ ≠ 0) ∧
    (∀ ev es, (expand coarse_line ev es).states ⟨1, 0, 0⟩ ≠ 0) ∧
    (∀ s', update coarse_line = some s' → s'.states ⟨1, 0, 0⟩ ≠ 0) ∧
    (nodes_owned coarse_line → ∃ s', update coarse_line = some s' ∧ s'.states ⟨1, 0, 0⟩ ≠ 0) ∧
    (∃ s' r, update_max_dt_int coarse_line 3 = some (s', r) ∧ s'.states ⟨1, 0, 0⟩ ≠ 0) ∧
    (enforce_smoothness coarse_line 3).states ⟨1, 0, 0⟩ ≠ 0 ∧
    (∀ p is_new, (insert_particle coarse_line p is_new).states ⟨1, 0, 0⟩ ≠ 0) ∧
    (update_particle_groups coarse_line).states ⟨1, 0, 0⟩ ≠ 0 :=
  have hdiv : ∀ b, inside coarse_line.res b = true → coarse_line.max_dt_int b ≠ 0 :=
    fun b _ => by simp [coarse_line, initialize_fields]
  ⟨hdiv, by decide, by decide, by decide,
    state_stays_nonzero coarse_line 3 ⟨1, 0, 0⟩ hdiv (by decide) (by decide)⟩


/-! ## Float arithmetic -/

/-- A rational that is less than one half away from an integer is rounded to that integer. -/
theorem round_half_even_eq (q : ℚ) (m : Int) (h : |q - m| < 1 / 2) : round_half_even q = m := by
  obtain ⟨h1, h2⟩ := abs_lt.mp h
  unfold round_half_even
  by_cases hm : (m : ℚ) ≤ q
  · have hf : ⌊q⌋ = m := by
      rw [Int.floor_eq_iff]
      constructor
      · exact hm
      · linarith
    rw [hf, if_pos (by linarith)]
  · push_neg at hm
    have hf : ⌊q⌋ = m - 1 := by
      rw [Int.floor_eq_iff]
      push_cast
      constructor <;> linarith
    rw [hf]
    push_cast
    rw [if_neg (by linarith), if_pos (by linarith)]
    ring

theorem round_half_even_nonneg (q : ℚ) (h : 0 ≤ q) : 0 ≤ round_half_even q := by
  have hf : 0 ≤ ⌊q⌋ := Int.floor_nonneg.mpr h
  unfold round_half_even
  split
  · exact hf
  · split
    · omega
    · split <;> omega

theorem round_half_even_nonpos (q : ℚ) (h : q ≤ 0) : round_half_even q ≤ 0 := by
  have hf : ⌊q⌋ ≤ 0 := by
    have : ⌊q⌋ ≤ ⌊(0 : ℚ)⌋ := Int.floor_le_floor h
    simpa using this
  unfold round_half_even
  split
  · exact hf
  · rename_i h1
    have hlt : ⌊q⌋ < 0 := by
      by_contra hge
      have h0 : ⌊q⌋ = 0 := by omega
      rw [h0] at h1
      push_cast at h1
      apply h1
      linarith
    split
    · omega
    · split <;> omega

theorem two_zpow_pos (k : Int) : (0 : ℚ) < 2 ^ k := zpow_pos (by norm_num) k

/-- Rounding keeps the sign. -/
theorem round_f32_nonneg (x : ℚ) (h : 0 ≤ x) : 0 ≤ round_f32 x := by
  unfold round_f32
  apply mul_nonneg
  · exact_mod_cast round_half_even_nonneg _ (div_nonneg h (le_of_lt (two_zpow_pos _)))
  · exact le_of_lt (two_zpow_pos _)

theorem round_f32_nonpos (x : ℚ) (h : x ≤ 0) : round_f32 x ≤ 0 := by
  unfold round_f32
  apply mul_nonpos_of_nonpos_of_nonneg
  · exact_mod_cast round_half_even_nonpos _
      (div_nonpos_of_nonpos_of_nonneg h (le_of_lt (two_zpow_pos _)))
  · exact le_of_lt (two_zpow_pos _)

theorem round_f32_zero : round_f32 0 = 0 :=
  le_antisymm (round_f32_nonpos 0 (le_refl 0)) (round_f32_nonneg 0 (le_refl 0))

/-- The exponent of a rational between two consecutive powers of two in the normal range. -/
theorem float_exponent_eq (x : ℚ) (e : Int) (he : -126 ≤ e) (h1 : 2 ^ e ≤ |x|)
    (h2 : |x| < 2 ^ (e + 1)) : float_exponent x = e := by
  have hpos : 0 < |x| := lt_of_lt_of_le (two_zpow_pos e) h1
  have hle : e ≤ Int.log 2 |x| := (Int.zpow_le_iff_le_log (by norm_num) hpos).mp (by exact_mod_cast h1)
  have hlt : Int.log 2 |x| < e + 1 :=
    (Int.lt_zpow_iff_log_lt (by norm_num) hpos).mp (by exact_mod_cast h2)
  unfold float_exponent
  omega

/-- The value of `round_f32` at a rational in the normal range: with `2^e ≤ |x| < 2^(e+1)` it is
the multiple `m * 2^(e-23)` that is less than half a unit away. -/
theorem round_f32_eq (x : ℚ) (e m : Int) (he : -126 ≤ e) (h1 : 2 ^ e ≤ |x|)
    (h2 : |x| < 2 ^ (e + 1)) (hm : |x / 2 ^ (e - 23) - m| < 1 / 2) :
    round_f32 x = m * 2 ^ (e - 23) := by
  unfold round_f32
  rw [float_exponent_eq x e he h1 h2, round_half_even_eq _ m hm]

/-- The conversion to `int64` of a real in the range of `int64`. -/
theorem real_to_int64_eq (x : ℚ) (h1 : -2 ^ 63 ≤ real_to_int x) (h2 : real_to_int x < 2 ^ 63) :
    real_to_int64 x = real_to_int x := by
  unfold real_to_int64
  rw [if_pos ⟨h1, h2⟩]

/-- The conversion to `int64` of a non-negative real below `2^63`: its floor. -/
theorem real_to_int64_of_nonneg (x : ℚ) (h0 : 0 ≤ x) (h1 : x < 2 ^ 63) :
    real_to_int64 x = ⌊x⌋ := by
  have hf : real_to_int x = ⌊x⌋ := real_to_int_of_nonneg x h0
  have hf0 : 0 ≤ ⌊x⌋ := Int.floor_nonneg.mpr h0
  have hf1 : ⌊x⌋ < 2 ^ 63 := by
    have : (⌊x⌋ : ℚ) < 2 ^ 63 := lt_of_le_of_lt (Int.floor_le x) h1
    exact_mod_cast this
  rw [real_to_int64_eq x (by rw [hf]; omega) (by rw [hf]; exact hf1), hf]

/-- The float quotient of a finite dividend by a finite divisor that is not zero. -/
theorem fdiv_eq (a b : ℚ) (ha : |a| < 2 ^ 128) (hb0 : b ≠ 0) (hb : |b| < 2 ^ 128) :
    fdiv a b = round_f32 (a / b) := by
  unfold fdiv
  rw [if_neg (not_le.mpr ha), if_neg hb0, if_neg (not_le.mpr hb)]

/-- The floats among the small numbers of the examples are rounded to themselves. -/
theorem round_f32_small :
    round_f32 1 = 1 ∧ round_f32 2 = 2 ∧ round_f32 3 = 3 ∧ round_f32 4 = 4 ∧
    round_f32 (1 / 2) = 1 / 2 ∧ round_f32 (1 / 4) = 1 / 4 ∧ round_f32 FLT_1e_7 = FLT_1e_7 := by
  refine ⟨?_, ?_, ?_, ?_, ?_, ?_, ?_⟩
  · rw [round_f32_eq 1 0 (2 ^ 23) (by norm_num) (by norm_num) (by norm_num) (by norm_num)]
    norm_num
  · rw [round_f32_eq 2 1 (2 ^ 23) (by norm_num) (by norm_num) (by norm_num) (by norm_num)]
    norm_num
  · rw [round_f32_eq 3 1 (3 * 2 ^ 22) (by norm_num) (by norm_num) (by norm_num) (by norm_num)]
    norm_num
  · rw [round_f32_eq 4 2 (2 ^ 23) (by norm_num) (by norm_num) (by norm_num) (by norm_num)]
    norm_num
  · rw [round_f32_eq (1 / 2) (-1) (2 ^ 23) (by norm_num) (by norm_num [abs_of_pos])
      (by norm_num [abs_of_pos]) (by norm_num)]
    norm_num
  · rw [round_f32_eq (1 / 4) (-2) (2 ^ 23) (by norm_num) (by norm_num [abs_of_pos])
      (by norm_num [abs_of_pos]) (by norm_num)]
    norm_num
  · unfold FLT_1e_7
    rw [round_f32_eq _ (-24) 14073749 (by norm_num) (by norm_num [abs_of_pos])
      (by norm_num [abs_of_pos]) (by norm_num)]
    norm_num


/-! ## update_dt_limits -/

/-- The value of `get_largest_pot` between two consecutive powers of two. -/
theorem get_largest_pot_eq (a : Int) (k : Nat) (h1 : 2 ^ k ≤ a) (h2 : a < 2 ^ (k + 1)) :
    get_largest_pot a = 2 ^ k := by
  have h0 : (0 : Int) ≤ a := le_trans (by positivity) h1
  have hn : (a.toNat : Int) = a := Int.toNat_of_nonneg h0
  have e : Nat.log 2 a.toNat = k := by
    apply Nat.log_eq_of_pow_le_of_lt_pow
    · have : ((2 ^ k : Nat) : Int) ≤ (a.toNat : Int) := by rw [hn]; exact_mod_cast h1
      exact_mod_cast this
    · have : (a.toNat : Int) < ((2 ^ (k + 1) : Nat) : Int) := by rw [hn]; exact_mod_cast h2
      exact_mod_cast this
  unfold get_largest_pot
  rw [e]

theorem frame_refl (s : MPMScheduler) : update_dt_limits_frame s s :=
  ⟨rfl, rfl, rfl, rfl, rfl, rfl, rfl, rfl, rfl, rfl, rfl, rfl, rfl, rfl⟩

theorem frame_trans {a b c : MPMScheduler} (h1 : update_dt_limits_frame a b)
    (h2 : update_dt_limits_frame b c) : update_dt_limits_frame a c := by
  obtain ⟨a1, a2, a3, a4, a5, a6, a7, a8, a9, a10, a11, a12, a13, a14⟩ := h1
  obtain ⟨b1, b2, b3, b4, b5, b6, b7, b8, b9, b10, b11, b12, b13, b14⟩ := h2
  exact ⟨b1.trans a1, b2.trans a2, b3.trans a3, b4.trans a4, b5.trans a5, b6.trans a6,
    b7.trans a7, b8.trans a8, b9.trans a9, b10.trans a10, b11.trans a11, b12.trans a12,
    b13.trans a13, b14.trans a14⟩

theorem strength_steps_congr {s s' : MPMScheduler} (h : update_dt_limits_frame s s')
    (p : ParticlePtr) : strength_steps s' p = strength_steps s p := by
  obtain ⟨_, _, _, _, _, _, _, _, h9, _, h11, _, _, h14⟩ := h
  unfold strength_steps
  rw [h9, h11, h14]

/-- One iteration of the particle loop of `update_dt_limits` in the words of the statements. -/
theorem dt_limits_particle_eq (ind : Index3D) (st : MPMScheduler) (p : ParticlePtr) :
    update_dt_limits_frame st (dt_limits_particle ind st p) ∧
    (dt_limits_particle ind st p).updated = st.updated ∧
    (dt_limits_particle ind st p).max_dt_int_strength =
      st.max_dt_int_strength.set ind
        (min (st.max_dt_int_strength ind) (get_largest_pot (strength_steps st p))) := by
  refine ⟨frame_refl st, rfl, ?_⟩
  unfold dt_limits_particle strength_steps
  simp only [real_to_int_eq]

/-- The particle loop of `update_dt_limits` for the block `ind`: the strength limit of the block
takes in the quantised step count of every particle of the list, and the strength limits of the
other blocks and all dirty flags stay. -/
theorem dt_limits_particle_fold (ind : Index3D) :
    ∀ (L : List ParticlePtr) (st : MPMScheduler),
      update_dt_limits_frame st (L.foldl (dt_limits_particle ind) st) ∧
      (L.foldl (dt_limits_particle ind) st).updated = st.updated ∧
      (∀ b, b ≠ ind → (L.foldl (dt_limits_particle ind) st).max_dt_int_strength b =
        st.max_dt_int_strength b) ∧
      (L.foldl (dt_limits_particle ind) st).max_dt_int_strength ind =
        L.foldl (fun m p => min m (get_largest_pot (strength_steps st p)))
          (st.max_dt_int_strength ind) := by
  intro L
  induction L with
  | nil => intro st; exact ⟨frame_refl st, rfl, fun _ _ => rfl, rfl⟩
  | cons p L ih =>
    intro st
    rw [List.foldl_cons, List.foldl_cons]
    obtain ⟨f1, u1, s1⟩ := dt_limits_particle_eq ind st p
    obtain ⟨f2, u2, o2, s2⟩ := ih (dt_limits_particle ind st p)
    refine ⟨frame_trans f1 f2, u2.trans u1, ?_, ?_⟩
    · intro b hb
      rw [o2 b hb, s1]
      simp [Array3.set, hb]
    · rw [s2, s1]
      have hset : (st.max_dt_int_strength.set ind
          (min (st.max_dt_int_strength ind) (get_largest_pot (strength_steps st p)))) ind =
          min (st.max_dt_int_strength ind) (get_largest_pot (strength_steps st p)) := by
        simp [Array3.set]
      rw [hset]
      apply foldl_congr_mem
      intro r q _
      rw [strength_steps_congr f1 q]


theorem strength_limit_congr {s s' : MPMScheduler} (h : update_dt_limits_frame s s')
    (b : Index3D) : strength_limit s' b = strength_limit s b := by
  have hb : bucket s' b = bucket s b := by
    unfold bucket
    rw [h.2.2.2.1, h.2.2.2.2.1]
  unfold strength_limit
  rw [hb]
  apply foldl_congr_mem
  intro r q _
  rw [strength_steps_congr h q]

/-- The body of the first block loop of `update_dt_limits` in the words of the statements. -/
theorem dt_limits_block_eq (st : MPMScheduler) (ind : Index3D) :
    update_dt_limits_frame st (dt_limits_block st ind) ∧
    (∀ b, b ≠ ind → (dt_limits_block st ind).updated b = st.updated b ∧
      (dt_limits_block st ind).max_dt_int_strength b = st.max_dt_int_strength b) ∧
    (dt_limits_block st ind).updated ind = 0 ∧
    (dt_limits_block st ind).max_dt_int_strength ind =
      if st.updated ind = 0 then st.max_dt_int_strength ind else strength_limit st ind := by
  by_cases h0 : st.updated ind = 0
  · have e : dt_limits_block st ind = st := by
      unfold dt_limits_block
      rw [if_pos h0]
    rw [e]
    exact ⟨frame_refl st, fun _ _ => ⟨rfl, rfl⟩, h0, by rw [if_pos h0]⟩
  · have e : dt_limits_block st ind =
        (st.particle_groups (st.res.z * st.res.y * ind.i + st.res.z * ind.j + ind.k)).foldl
          (dt_limits_particle ind)
          { st with
            updated := st.updated.set ind 0
            max_dt_int_strength := st.max_dt_int_strength.set ind DT_INF
            max_dt_int_cfl := st.max_dt_int_cfl.set ind DT_INF
            min_vel := st.min_vel.set ind ⟨FLT_1e30, FLT_1e30, FLT_1e30⟩
            max_vel := st.max_vel.set ind ⟨-FLT_1e30, -FLT_1e30, -FLT_1e30⟩ } := by
      unfold dt_limits_block
      rw [if_neg h0]
    rw [e, if_neg h0]
    obtain ⟨f, u, o, sv⟩ := dt_limits_particle_fold ind
      (st.particle_groups (st.res.z * st.res.y * ind.i + st.res.z * ind.j + ind.k))
      { st with
        updated := st.updated.set ind 0
        max_dt_int_strength := st.max_dt_int_strength.set ind DT_INF
        max_dt_int_cfl := st.max_dt_int_cfl.set ind DT_INF
        min_vel := st.min_vel.set ind ⟨FLT_1e30, FLT_1e30, FLT_1e30⟩
        max_vel := st.max_vel.set ind ⟨-FLT_1e30, -FLT_1e30, -FLT_1e30⟩ }
    have f0 : update_dt_limits_frame st
        { st with
          updated := st.updated.set ind 0
          max_dt_int_strength := st.max_dt_int_strength.set ind DT_INF
          max_dt_int_cfl := st.max_dt_int_cfl.set ind DT_INF
          min_vel := st.min_vel.set ind ⟨FLT_1e30, FLT_1e30, FLT_1e30⟩
          max_vel := st.max_vel.set ind ⟨-FLT_1e30, -FLT_1e30, -FLT_1e30⟩ } :=
      ⟨rfl, rfl, rfl, rfl, rfl, rfl, rfl, rfl, rfl, rfl, rfl, rfl, rfl, rfl⟩
    refine ⟨frame_trans f0 f, ?_, ?_, ?_⟩
    · intro b hb
      constructor
      · rw [u]
        simp [Array3.set, hb]
      · rw [o b hb]
        simp [Array3.set, hb]
    · rw [u]
      simp [Array3.set]
    · rw [sv]
      unfold strength_limit bucket bucket_index
      have hinit : (st.max_dt_int_strength.set ind DT_INF) ind = DT_INF := by
        simp [Array3.set]
      dsimp only
      rw [hinit]
      apply foldl_congr_mem
      intro r q _
      rw [strength_steps_congr f0 q]

/-- The first block loop of `update_dt_limits` over distinct blocks: every visited block ends
with a cleared dirty flag, and the visited blocks that were dirty get their strength limit. -/
theorem dt_limits_block_fold :
    ∀ (l : List Index3D) (st : MPMScheduler), l.Nodup →
      update_dt_limits_frame st (l.foldl dt_limits_block st) ∧
      (∀ b, (l.foldl dt_limits_block st).updated b = if b ∈ l then 0 else st.updated b) ∧
      (∀ b, (l.foldl dt_limits_block st).max_dt_int_strength b =
        if b ∈ l ∧ st.updated b ≠ 0 then strength_limit st b else st.max_dt_int_strength b) := by
  intro l
  induction l with
  | nil => intro st _; exact ⟨frame_refl st, fun b => by simp, fun b => by simp⟩
  | cons a l ih =>
    intro st hnd
    have hal : a ∉ l := (List.nodup_cons.mp hnd).1
    rw [List.foldl_cons]
    obtain ⟨f1, o1, u1, s1⟩ := dt_limits_block_eq st a
    obtain ⟨f2, u2, s2⟩ := ih (dt_limits_block st a) (List.nodup_cons.mp hnd).2
    refine ⟨frame_trans f1 f2, ?_, ?_⟩
    · intro b
      rw [u2 b]
      by_cases hba : b = a
      · subst hba
        simp [hal, u1]
      · simp [hba, (o1 b hba).1]
    · intro b
      rw [s2 b]
      by_cases hba : b = a
      · subst hba
        rw [if_neg (fun h => hal h.1), s1]
        by_cases h0 : st.updated b = 0
        · simp [h0]
        · simp [h0]
      · rw [(o1 b hba).1, (o1 b hba).2, strength_limit_congr f1 b]
        simp [hba]


/-- The body of the second block loop of `update_dt_limits` writes `max_dt_int_cfl` only. -/
theorem dt_limits_cfl_frame (levelset : DynamicLevelSet3D) (t : ℚ) (st : MPMScheduler)
    (ind : Index3D) :
    update_dt_limits_frame st (dt_limits_cfl levelset t st ind) ∧
    (dt_limits_cfl levelset t st ind).max_dt_int_strength = st.max_dt_int_strength ∧
    (dt_limits_cfl levelset t st ind).updated = st.updated := by
  unfold dt_limits_cfl
  dsimp only
  split
  · exact ⟨frame_refl st, rfl, rfl⟩
  · exact ⟨⟨rfl, rfl, rfl, rfl, rfl, rfl, rfl, rfl, rfl, rfl, rfl, rfl, rfl, rfl⟩, rfl, rfl⟩

theorem dt_limits_cfl_fold (levelset : DynamicLevelSet3D) (t : ℚ) (l : List Index3D)
    (s : MPMScheduler) :
    update_dt_limits_frame s (l.foldl (dt_limits_cfl levelset t) s) ∧
    (l.foldl (dt_limits_cfl levelset t) s).max_dt_int_strength = s.max_dt_int_strength ∧
    (l.foldl (dt_limits_cfl levelset t) s).updated = s.updated := by
  apply foldl_keeps (fun st : MPMScheduler => update_dt_limits_frame s st ∧
    st.max_dt_int_strength = s.max_dt_int_strength ∧ st.updated = s.updated)
  · intro a x ha
    obtain ⟨f, h1, h2⟩ := dt_limits_cfl_frame levelset t a x
    exact ⟨frame_trans ha.1 f, h1.trans ha.2.1, h2.trans ha.2.2⟩
  · exact ⟨frame_refl s, rfl, rfl⟩

theorem expand_vel_frame (s : MPMScheduler) (ev : Bool) :
    update_dt_limits_frame s (expand s ev false) ∧
    (expand s ev false).max_dt_int_strength = s.max_dt_int_strength ∧
    (expand s ev false).updated = s.updated :=
  ⟨⟨rfl, rfl, rfl, rfl, rfl, rfl, rfl, rfl, rfl, rfl, rfl, rfl, rfl, rfl⟩, rfl, rfl⟩

/-- `update_dt_limits` writes nothing but the dirty flags, the two step limits and the
velocity extrema; it clears the dirty flag of every block of the lattice, gives every block
that was dirty its strength limit and leaves the strength limit of the other blocks. -/
theorem update_dt_limits_eq (levelset : DynamicLevelSet3D) (s : MPMScheduler) (t : ℚ) :
    update_dt_limits_frame s (update_dt_limits levelset s t) ∧
    (∀ b, (update_dt_limits levelset s t).updated b =
      if inside s.res b = true then 0 else s.updated b) ∧
    (∀ b, (update_dt_limits levelset s t).max_dt_int_strength b =
      if inside s.res b = true ∧ s.updated b ≠ 0 then strength_limit s b
      else s.max_dt_int_strength b) := by
  unfold update_dt_limits
  dsimp only
  obtain ⟨f1, u1, s1⟩ := dt_limits_block_fold (get_region s.res) s (nodup_get_region _)
  obtain ⟨f2, s2, u2⟩ := expand_vel_frame ((get_region s.res).foldl dt_limits_block s) true
  obtain ⟨f3, s3, u3⟩ := dt_limits_cfl_fold levelset t
    (get_region (expand ((get_region s.res).foldl dt_limits_block s) true false).res)
    (expand ((get_region s.res).foldl dt_limits_block s) true false)
  refine ⟨frame_trans (frame_trans f1 f2) f3, ?_, ?_⟩
  · intro b
    rw [u3, u2, u1 b]
    simp only [mem_get_region]
  · intro b
    rw [s3, s2, s1 b]
    simp only [mem_get_region]


/-! ## Statements about `update_dt_limits` -/

/-- C30.  `enforce_smoothness` never increases the step multiple `max_dt_int` of any block, and it
keeps the power-of-two invariant: when the step multiple of every block of the lattice is a power
of two that is at least 1 before the call, it is so after the call, whatever the block states
are. -/
theorem enforce_smoothness_monotone_pot (s : MPMScheduler) (t_int_increment : Int) :
    (∀ b, (enforce_smoothness s t_int_increment).max_dt_int b ≤ s.max_dt_int b) ∧
    ((∀ b, inside s.res b = true → is_pot (s.max_dt_int b)) →
      ∀ b, inside s.res b = true →
        is_pot ((enforce_smoothness s t_int_increment).max_dt_int b) ∧
        1 ≤ (enforce_smoothness s t_int_increment).max_dt_int b) := by
  constructor
  · intro b
    rw [enforce_smoothness_eq]
    split
    · exact (smooth_value_spec s.res s.max_dt_int (s.max_dt_int b) b).1
    · exact le_refl _
  · intro hpot b hb
    have h : is_pot ((enforce_smoothness s t_int_increment).max_dt_int b) := by
      rw [enforce_smoothness_eq]
      split
      · rcases (smooth_value_spec s.res s.max_dt_int (s.max_dt_int b) b).2.2 with h | ⟨n, hn, _, h⟩
        · rw [h]
          exact hpot b hb
        · rw [h, mul_comm]
          exact is_pot_double (hpot n hn)
      · exact hpot b hb
    exact ⟨h, is_pot_pos h⟩

/-- C30, witness: the line of three updating blocks with the step multiples 16, 16, 1. -/
theorem enforce_smoothness_monotone_pot_witness :
    (∀ b, inside line_16_16_1.res b = true → is_pot (line_16_16_1.max_dt_int b)) ∧
    (∀ b, (enforce_smoothness line_16_16_1 1).max_dt_int b ≤ line_16_16_1.max_dt_int b) ∧
    ∀ b, inside line_16_16_1.res b = true →
      is_pot ((enforce_smoothness line_16_16_1 1).max_dt_int b) ∧
      1 ≤ (enforce_smoothness line_16_16_1 1).max_dt_int b :=
  have hpot : ∀ b, inside line_16_16_1.res b = true → is_pot (line_16_16_1.max_dt_int b) := by
    intro b _
    show is_pot (if b.i = 2 then 1 else 16)
    split
    · exact ⟨0, rfl⟩
    · exact ⟨4, rfl⟩
  ⟨hpot, (enforce_smoothness_monotone_pot line_16_16_1 1).1,
    (enforce_smoothness_monotone_pot line_16_16_1 1).2 hpot⟩

/-- C25.  `expand(_, true)` sets the state of every block `b` of the lattice to `s[b] + d[b]`,
where `d[b]` is 1 when `b` itself or a block of the lattice adjacent to it has a non-zero state
in the array `s` from before the call, and 0 otherwise; `expand(_, false)` leaves every block
state unchanged. -/
theorem expand_state_dilation (s : MPMScheduler) (expand_vel : Bool) :
    (∀ b, inside s.res b = true →
      ((∃ n, inside s.res n = true ∧ s.states n ≠ 0 ∧ (n = b ∨ adjacent n b)) →
        (expand s expand_vel true).states b = s.states b + 1) ∧
      ((¬ ∃ n, inside s.res n = true ∧ s.states n ≠ 0 ∧ (n = b ∨ adjacent n b)) →
        (expand s expand_vel true).states b = s.states b + 0)) ∧
    (∀ b, (expand s expand_vel false).states b = s.states b) := by
  refine ⟨fun b hb => ⟨?_, ?_⟩, fun b => rfl⟩
  · rintro ⟨n, hn, h0, hnear⟩
    rw [expand_states s expand_vel b hb,
      if_pos ⟨n, (mem_get_region _ _).mpr hn, h0, hnear⟩, add_comm]
  · intro hno
    rw [expand_states s expand_vel b hb, if_neg, add_comm]
    rintro ⟨n, hn, h0, hnear⟩
    exact hno ⟨n, (mem_get_region _ _).mp hn, h0, hnear⟩

/-- C25, witness: in the line of two blocks with the step multiples 4 and 1 both blocks have a
non-zero state, so the state of block 1 goes from 1 to 2. -/
theorem expand_state_dilation_witness :
    inside line_4_1.res ⟨1, 0, 0⟩ = true ∧
    (expand line_4_1 false true).states ⟨1, 0, 0⟩ = line_4_1.states ⟨1, 0, 0⟩ + 1 :=
  ⟨by decide,
    ((expand_state_dilation line_4_1 false).1 ⟨1, 0, 0⟩ (by decide)).1
      ⟨⟨0, 0, 0⟩, by decide, by decide, Or.inr (by decide)⟩⟩


theorem cube_4_initialized :
    initialize_scheduler heap_origin ⟨4, 4, 4⟩ FLT_0_01 1 1 0 4 = some cube_4 := by
  unfold initialize_scheduler
  rw [if_neg (by decide)]
  rfl

/-- C26.  With `sim_res = (4, 4, 4)` and `grid_block_size = 4`, `initialize` makes a lattice of one
block per axis, `update()` enumerates the grid node `(4, 0, 0)`, and the block index
`(4 / 4, 0 / 4, 0 / 4) = (1, 0, 0)` that it reads the state array at is outside the lattice: the
read is out of bounds, which is a failure of `update`. -/
theorem update_reads_outside_lattice :
    initialize_scheduler heap_origin ⟨4, 4, 4⟩ FLT_0_01 1 1 0 4 = some cube_4 ∧
    cube_4.res = ⟨1, 1, 1⟩ ∧
    (⟨4, 0, 0⟩ : Vector3i) ∈ grid_nodes cube_4.sim_res ∧
    (⟨Int.tdiv 4 cube_4.grid_block_size, Int.tdiv 0 cube_4.grid_block_size,
      Int.tdiv 0 cube_4.grid_block_size⟩ : Index3D) = ⟨1, 0, 0⟩ ∧
    owning_block cube_4 ⟨4, 0, 0⟩ = ⟨1, 0, 0⟩ ∧
    inside cube_4.res ⟨1, 0, 0⟩ = false ∧
    (update cube_4).isNone = true :=
  ⟨cube_4_initialized, rfl, by decide, by decide, by decide, by decide, by decide⟩


/-! ## Velocity extrema in `expand` -/

theorem vmin_idem (a v : Vector3) : vmin (vmin a v) v = vmin a v := by
  simp [vmin]

theorem vmax_idem (a v : Vector3) : vmax (vmax a v) v = vmax a v := by
  simp [vmax]

/-- The effect of one guarded call of the lambda of `expand` on the velocity arrays. -/
theorem expand_step_vel (res : Vector3i) (es : Bool) (minv maxv : Array3 Vector3)
    (states : Array3 Int) (acc : ExpandAcc) (ind : Index3D) (d : Int × Int × Int) (b : Index3D) :
    (if inside res (ind.neighbour d.1 d.2.1 d.2.2) = true then
        expand_update true es minv maxv states acc ind d.1 d.2.1 d.2.2
      else acc).new_min_vel b =
      (if inside res (ind.neighbour d.1 d.2.1 d.2.2) = true ∧ b = ind.neighbour d.1 d.2.1 d.2.2
        then vmin (acc.new_min_vel b) (minv ind) else acc.new_min_vel b) ∧
    (if inside res (ind.neighbour d.1 d.2.1 d.2.2) = true then
        expand_update true es minv maxv states acc ind d.1 d.2.1 d.2.2
      else acc).new_max_vel b =
      (if inside res (ind.neighbour d.1 d.2.1 d.2.2) = true ∧ b = ind.neighbour d.1 d.2.1 d.2.2
        then vmax (acc.new_max_vel b) (maxv ind) else acc.new_max_vel b) := by
  by_cases hin : inside res (ind.neighbour d.1 d.2.1 d.2.2) = true
  · rw [if_pos hin]
    by_cases hb : b = ind.neighbour d.1 d.2.1 d.2.2
    · subst hb
      cases es <;> by_cases hs : states ind = 0 <;>
        simp [expand_update, hin, hs, Array3.set, vmin, vmax]
    · cases es <;> by_cases hs : states ind = 0 <;>
        simp [expand_update, hin, hs, hb, Array3.set]
  · simp [hin]


/-- The offset loops of `expand` for one block `ind`: the block's extrema are merged into the
expanded extrema of every in-bounds target. -/
theorem expand_block_vel (res : Vector3i) (es : Bool) (minv maxv : Array3 Vector3)
    (states : Array3 Int) (ind : Index3D) :
    ∀ (ds : List (Int × Int × Int)) (acc : ExpandAcc) (b : Index3D),
      (ds.foldl
        (fun a d =>
          if inside res (ind.neighbour d.1 d.2.1 d.2.2) then
            expand_update true es minv maxv states a ind d.1 d.2.1 d.2.2
          else a) acc).new_min_vel b =
        (if ∃ d ∈ ds,
            inside res (ind.neighbour d.1 d.2.1 d.2.2) = true ∧ b = ind.neighbour d.1 d.2.1 d.2.2
          then vmin (acc.new_min_vel b) (minv ind) else acc.new_min_vel b) ∧
      (ds.foldl
        (fun a d =>
          if inside res (ind.neighbour d.1 d.2.1 d.2.2) then
            expand_update true es minv maxv states a ind d.1 d.2.1 d.2.2
          else a) acc).new_max_vel b =
        (if ∃ d ∈ ds,
            inside res (ind.neighbour d.1 d.2.1 d.2.2) = true ∧ b = ind.neighbour d.1 d.2.1 d.2.2
          then vmax (acc.new_max_vel b) (maxv ind) else acc.new_max_vel b) := by
  intro ds
  induction ds with
  | nil => intro acc b; simp
  | cons d ds ih =>
    intro acc b
    rw [List.foldl_cons]
    obtain ⟨i1, i2⟩ := ih
      (if inside res (ind.neighbour d.1 d.2.1 d.2.2) = true then
        expand_update true es minv maxv states acc ind d.1 d.2.1 d.2.2 else acc) b
    obtain ⟨s1, s2⟩ := expand_step_vel res es minv maxv states acc ind d b
    rw [i1, i2, s1, s2]
    by_cases h2 : ∃ d ∈ ds,
        inside res (ind.neighbour d.1 d.2.1 d.2.2) = true ∧ b = ind.neighbour d.1 d.2.1 d.2.2
    · have h3 : ∃ e ∈ d :: ds,
          inside res (ind.neighbour e.1 e.2.1 e.2.2) = true ∧ b = ind.neighbour e.1 e.2.1 e.2.2 := by
        obtain ⟨e, he1, he2⟩ := h2
        exact ⟨e, List.mem_cons_of_mem d he1, he2⟩
      rw [if_pos h2, if_pos h2, if_pos h3, if_pos h3]
      by_cases h4 : inside res (ind.neighbour d.1 d.2.1 d.2.2) = true ∧
          b = ind.neighbour d.1 d.2.1 d.2.2
      · rw [if_pos h4, if_pos h4, vmin_idem, vmax_idem]
        exact ⟨rfl, rfl⟩
      · rw [if_neg h4, if_neg h4]
        exact ⟨rfl, rfl⟩
    · rw [if_neg h2, if_neg h2]
      by_cases h4 : inside res (ind.neighbour d.1 d.2.1 d.2.2) = true ∧
          b = ind.neighbour d.1 d.2.1 d.2.2
      · rw [if_pos h4, if_pos h4, if_pos ⟨d, List.mem_cons_self d ds, h4⟩,
          if_pos ⟨d, List.mem_cons_self d ds, h4⟩]
        exact ⟨rfl, rfl⟩
      · have h5 : ¬ ∃ e ∈ d :: ds,
            inside res (ind.neighbour e.1 e.2.1 e.2.2) = true ∧
              b = ind.neighbour e.1 e.2.1 e.2.2 := by
          rintro ⟨e, he1, he2⟩
          rcases List.mem_cons.mp he1 with rfl | he1
          · exact h4 he2
          · exact h2 ⟨e, he1, he2⟩
        rw [if_neg h4, if_neg h4, if_neg h5, if_neg h5]
        exact ⟨rfl, rfl⟩

/-- The block loop of `expand`: the expanded extrema of a block take in the extrema of every
visited block that has it among its targets. -/
theorem expand_fold_vel (res : Vector3i) (es : Bool) (minv maxv : Array3 Vector3)
    (states : Array3 Int) (b : Index3D) :
    ∀ (l : List Index3D) (acc : ExpandAcc),
      (l.foldl (expand_block res true es minv maxv states) acc).new_min_vel b =
        l.foldl (fun m ind => if targets res ind b then vmin m (minv ind) else m)
          (acc.new_min_vel b) ∧
      (l.foldl (expand_block res true es minv maxv states) acc).new_max_vel b =
        l.foldl (fun m ind => if targets res ind b then vmax m (maxv ind) else m)
          (acc.new_max_vel b) := by
  intro l
  induction l with
  | nil => intro acc; exact ⟨rfl, rfl⟩
  | cons a l ih =>
    intro acc
    rw [List.foldl_cons, List.foldl_cons, List.foldl_cons]
    obtain ⟨i1, i2⟩ := ih (expand_block res true es minv maxv states acc a)
    obtain ⟨b1, b2⟩ := expand_block_vel res es minv maxv states a neighbour_offsets acc b
    rw [i1, i2]
    unfold expand_block
    rw [b1, b2]
    exact ⟨rfl, rfl⟩

/-- A function that commutes with the step of a fold commutes with the fold. -/
theorem foldl_hom {α β γ : Type} (g : α → γ) (F : α → β → α) (G : γ → β → γ)
    (h : ∀ a x, g (F a x) = G (g a) x) : ∀ (l : List β) (a : α),
    g (l.foldl F a) = l.foldl G (g a) := by
  intro l
  induction l with
  | nil => intro a; rfl
  | cons x l ih => intro a; rw [List.foldl_cons, List.foldl_cons, ih, h]


/-- A running minimum of rationals over the selected elements of a list. -/
theorem foldl_min_rat {β : Type} (P : β → Prop) [DecidablePred P] (v : β → ℚ) :
    ∀ (l : List β) (r0 : ℚ),
      l.foldl (fun r b => if P b then min r (v b) else r) r0 ≤ r0 ∧
      (∀ b ∈ l, P b → l.foldl (fun r b => if P b then min r (v b) else r) r0 ≤ v b) ∧
      (l.foldl (fun r b => if P b then min r (v b) else r) r0 = r0 ∨
        ∃ b ∈ l, P b ∧ l.foldl (fun r b => if P b then min r (v b) else r) r0 = v b) := by
  intro l
  induction l with
  | nil => intro r0; simp
  | cons a l ih =>
    intro r0
    simp only [List.foldl_cons]
    obtain ⟨h1, h2, h3⟩ := ih (if P a then min r0 (v a) else r0)
    have hstart : (if P a then min r0 (v a) else r0) ≤ r0 := by
      split
      · exact min_le_left _ _
      · exact le_refl _
    refine ⟨le_trans h1 hstart, ?_, ?_⟩
    · intro b hb hP
      rcases List.mem_cons.mp hb with rfl | hb
      · refine le_trans h1 ?_
        rw [if_pos hP]
        exact min_le_right _ _
      · exact h2 b hb hP
    · rcases h3 with h3 | ⟨b, hb, hP, h3⟩
      · by_cases hPa : P a
        · rw [if_pos hPa] at h3 ⊢
          rcases min_choice r0 (v a) with hc | hc
          · left; rw [h3]; exact hc
          · right
            refine ⟨a, List.mem_cons_self a l, hPa, ?_⟩
            rw [h3]; exact hc
        · left
          rw [if_neg hPa] at h3 ⊢
          exact h3
      · exact Or.inr ⟨b, List.mem_cons_of_mem a hb, hP, h3⟩

/-- A running maximum of rationals over the selected elements of a list. -/
theorem foldl_max_rat {β : Type} (P : β → Prop) [DecidablePred P] (v : β → ℚ) :
    ∀ (l : List β) (r0 : ℚ),
      r0 ≤ l.foldl (fun r b => if P b then max r (v b) else r) r0 ∧
      (∀ b ∈ l, P b → v b ≤ l.foldl (fun r b => if P b then max r (v b) else r) r0) ∧
      (l.foldl (fun r b => if P b then max r (v b) else r) r0 = r0 ∨
        ∃ b ∈ l, P b ∧ l.foldl (fun r b => if P b then max r (v b) else r) r0 = v b) := by
  intro l
  induction l with
  | nil => intro r0; simp
  | cons a l ih =>
    intro r0
    simp only [List.foldl_cons]
    obtain ⟨h1, h2, h3⟩ := ih (if P a then max r0 (v a) else r0)
    have hstart : r0 ≤ (if P a then max r0 (v a) else r0) := by
      split
      · exact le_max_left _ _
      · exact le_refl _
    refine ⟨le_trans hstart h1, ?_, ?_⟩
    · intro b hb hP
      rcases List.mem_cons.mp hb with rfl | hb
      · refine le_trans ?_ h1
        rw [if_pos hP]
        exact le_max_right _ _
      · exact h2 b hb hP
    · rcases h3 with h3 | ⟨b, hb, hP, h3⟩
      · by_cases hPa : P a
        · rw [if_pos hPa] at h3 ⊢
          rcases max_choice r0 (v a) with hc | hc
          · left; rw [h3]; exact hc
          · right
            refine ⟨a, List.mem_cons_self a l, hPa, ?_⟩
            rw [h3]; exact hc
        · left
          rw [if_neg hPa] at h3 ⊢
          exact h3
      · exact Or.inr ⟨b, List.mem_cons_of_mem a hb, hP, h3⟩

theorem vmin_axis (a v : Vector3) (i : Fin 3) :
    (vmin a v).axis i = min (a.axis i) (v.axis i) := by
  fin_cases i <;> rfl

theorem vmax_axis (a v : Vector3) (i : Fin 3) :
    (vmax a v).axis i = max (a.axis i) (v.axis i) := by
  fin_cases i <;> rfl

/-- One component of a running component-wise minimum is the running minimum of that
component. -/
theorem foldl_vmin_axis {β : Type} (P : β → Prop) [DecidablePred P] (f : β → Vector3)
    (i : Fin 3) (l : List β) (m0 : Vector3) :
    (l.foldl (fun m x => if P x then vmin m (f x) else m) m0).axis i =
      l.foldl (fun r x => if P x then min r ((f x).axis i) else r) (m0.axis i) := by
  apply foldl_hom (fun m : Vector3 => m.axis i)
  intro a x
  dsimp only
  split
  · exact vmin_axis a (f x) i
  · rfl

/-- One component of a running component-wise maximum is the running maximum of that
component. -/
theorem foldl_vmax_axis {β : Type} (P : β → Prop) [DecidablePred P] (f : β → Vector3)
    (i : Fin 3) (l : List β) (m0 : Vector3) :
    (l.foldl (fun m x => if P x then vmax m (f x) else m) m0).axis i =
      l.foldl (fun r x => if P x then max r ((f x).axis i) else r) (m0.axis i) := by
  apply foldl_hom (fun m : Vector3 => m.axis i)
  intro a x
  dsimp only
  split
  · exact vmax_axis a (f x) i
  · rfl

theorem targets_iff (res : Vector3i) (n b : Index3D) :
    targets res n b ↔ inside res b = true ∧ (n = b ∨ adjacent n b) := by
  unfold targets
  constructor
  · rintro ⟨d, hd, hin, hb⟩
    rw [hb]
    exact ⟨hin, (offset_iff_near n _).mp ⟨d, hd, rfl⟩⟩
  · rintro ⟨hin, hnear⟩
    obtain ⟨d, hd, hbd⟩ := (offset_iff_near n b).mpr hnear
    exact ⟨d, hd, by rw [hbd]; exact hin, hbd.symm⟩

/-- The expanded extrema after `expand(true, _)` as running extrema over the lattice. -/
theorem expand_vel_eq (s : MPMScheduler) (es : Bool) (b : Index3D) :
    (expand s true es).min_vel_expanded b =
      (get_region s.res).foldl
        (fun m ind => if targets s.res ind b then vmin m (s.min_vel ind) else m)
        ⟨FLT_1e30, FLT_1e30, FLT_1e30⟩ ∧
    (expand s true es).max_vel_expanded b =
      (get_region s.res).foldl
        (fun m ind => if targets s.res ind b then vmax m (s.max_vel ind) else m)
        ⟨-FLT_1e30, -FLT_1e30, -FLT_1e30⟩ := by
  obtain ⟨h1, h2⟩ := expand_fold_vel s.res es s.min_vel s.max_vel s.states b (get_region s.res)
    { new_min_vel := fun _ => ⟨FLT_1e30, FLT_1e30, FLT_1e30⟩
      new_max_vel := fun _ => ⟨-FLT_1e30, -FLT_1e30, -FLT_1e30⟩
      new_states := fun _ => 0 }
  constructor
  · refine Eq.trans ?_ h1
    cases es <;> rfl
  · refine Eq.trans ?_ h2
    cases es <;> rfl


/-- The expanded extrema after `expand(true, _)`, axis by axis: the minimum (capped by `1e30`) and
the maximum (floored by `-1e30`) of the extrema of the block and its in-bounds neighbours. -/
theorem expand_vel_spec (s : MPMScheduler) (es : Bool) (b : Index3D)
    (hb : inside s.res b = true) (i : Fin 3) :
    (((expand s true es).min_vel_expanded b).axis i ≤ FLT_1e30 ∧
      (∀ n, inside s.res n = true → (n = b ∨ adjacent n b) →
        ((expand s true es).min_vel_expanded b).axis i ≤ (s.min_vel n).axis i) ∧
      (((expand s true es).min_vel_expanded b).axis i = FLT_1e30 ∨
        ∃ n, inside s.res n = true ∧ (n = b ∨ adjacent n b) ∧
          ((expand s true es).min_vel_expanded b).axis i = (s.min_vel n).axis i)) ∧
    (-FLT_1e30 ≤ ((expand s true es).max_vel_expanded b).axis i ∧
      (∀ n, inside s.res n = true → (n = b ∨ adjacent n b) →
        (s.max_vel n).axis i ≤ ((expand s true es).max_vel_expanded b).axis i) ∧
      (((expand s true es).max_vel_expanded b).axis i = -FLT_1e30 ∨
        ∃ n, inside s.res n = true ∧ (n = b ∨ adjacent n b) ∧
          ((expand s true es).max_vel_expanded b).axis i = (s.max_vel n).axis i)) := by
  obtain ⟨e1, e2⟩ := expand_vel_eq s es b
  rw [e1, e2, foldl_vmin_axis, foldl_vmax_axis]
  obtain ⟨a1, a2, a3⟩ := foldl_min_rat (fun ind => targets s.res ind b)
    (fun ind => (s.min_vel ind).axis i) (get_region s.res)
    ((⟨FLT_1e30, FLT_1e30, FLT_1e30⟩ : Vector3).axis i)
  obtain ⟨b1, b2, b3⟩ := foldl_max_rat (fun ind => targets s.res ind b)
    (fun ind => (s.max_vel ind).axis i) (get_region s.res)
    ((⟨-FLT_1e30, -FLT_1e30, -FLT_1e30⟩ : Vector3).axis i)
  have hlo : (⟨FLT_1e30, FLT_1e30, FLT_1e30⟩ : Vector3).axis i = FLT_1e30 := by
    fin_cases i <;> rfl
  have hhi : (⟨-FLT_1e30, -FLT_1e30, -FLT_1e30⟩ : Vector3).axis i = -FLT_1e30 := by
    fin_cases i <;> rfl
  rw [hlo] at a1 a2 a3
  rw [hhi] at b1 b2 b3
  rw [hlo, hhi]
  refine ⟨⟨a1, ?_, ?_⟩, ⟨b1, ?_, ?_⟩⟩
  · intro n hn hnear
    exact a2 n ((mem_get_region _ _).mpr hn) ((targets_iff _ _ _).mpr ⟨hb, hnear⟩)
  · rcases a3 with h | ⟨n, hn, ht, h⟩
    · exact Or.inl h
    · exact Or.inr ⟨n, (mem_get_region _ _).mp hn, ((targets_iff _ _ _).mp ht).2, h⟩
  · intro n hn hnear
    exact b2 n ((mem_get_region _ _).mpr hn) ((targets_iff _ _ _).mpr ⟨hb, hnear⟩)
  · rcases b3 with h | ⟨n, hn, ht, h⟩
    · exact Or.inl h
    · exact Or.inr ⟨n, (mem_get_region _ _).mp hn, ((targets_iff _ _ _).mp ht).2, h⟩

/-- `expand` does not write `min_vel` and `max_vel`. -/
theorem expand_keeps_vel (s : MPMScheduler) (ev es : Bool) :
    (expand s ev es).min_vel = s.min_vel ∧ (expand s ev es).max_vel = s.max_vel := by
  cases es <;> exact ⟨rfl, rfl⟩

/-! ## Statements about the velocity extrema of `expand` -/

/-- C24.  After `expand(true, _)`, for every block `b` of the lattice and every axis `a`,
`min_vel_expanded[b][a]` is the minimum of the sentinel `1e30` and of `min_vel[n][a]` over `b`
itself and the blocks `n` of the lattice adjacent to it (it is at most each of them and equal to
one of them), `max_vel_expanded[b][a]` is the maximum of `-1e30` and of `max_vel[n][a]` over the
same blocks, and `min_vel` and `max_vel` are unchanged. -/
theorem expand_velocity_extrema (s : MPMScheduler) (expand_state : Bool) (b : Index3D)
    (hb : inside s.res b = true) (a : Fin 3) :
    (((expand s true expand_state).min_vel_expanded b).axis a ≤ FLT_1e30 ∧
      (∀ n, inside s.res n = true → (n = b ∨ adjacent n b) →
        ((expand s true expand_state).min_vel_expanded b).axis a ≤ (s.min_vel n).axis a) ∧
      (((expand s true expand_state).min_vel_expanded b).axis a = FLT_1e30 ∨
        ∃ n, inside s.res n = true ∧ (n = b ∨ adjacent n b) ∧
          ((expand s true expand_state).min_vel_expanded b).axis a = (s.min_vel n).axis a)) ∧
    (-FLT_1e30 ≤ ((expand s true expand_state).max_vel_expanded b).axis a ∧
      (∀ n, inside s.res n = true → (n = b ∨ adjacent n b) →
        (s.max_vel n).axis a ≤ ((expand s true expand_state).max_vel_expanded b).axis a) ∧
      (((expand s true expand_state).max_vel_expanded b).axis a = -FLT_1e30 ∨
        ∃ n, inside s.res n = true ∧ (n = b ∨ adjacent n b) ∧
          ((expand s true expand_state).max_vel_expanded b).axis a = (s.max_vel n).axis a)) ∧
    (expand s true expand_state).min_vel = s.min_vel ∧
    (expand s true expand_state).max_vel = s.max_vel :=
  ⟨(expand_vel_spec s expand_state b hb a).1, (expand_vel_spec s expand_state b hb a).2,
    (expand_keeps_vel s true expand_state).1, (expand_keeps_vel s true expand_state).2⟩

/-- C24, witness: block 0 of the line of two blocks with the step multiples 4 and 1 and the first
axis; the velocity extrema of both blocks are the sentinels of `initialize`. -/
theorem expand_velocity_extrema_witness :
    inside line_4_1.res ⟨0, 0, 0⟩ = true ∧
    ((expand line_4_1 true false).min_vel_expanded ⟨0, 0, 0⟩).axis 0 ≤
      (line_4_1.min_vel ⟨1, 0, 0⟩).axis 0 ∧
    (line_4_1.max_vel ⟨1, 0, 0⟩).axis 0 ≤
      ((expand line_4_1 true false).max_vel_expanded ⟨0, 0, 0⟩).axis 0 :=
  ⟨by decide,
    (expand_velocity_extrema line_4_1 false ⟨0, 0, 0⟩ (by decide) 0).1.2.1 ⟨1, 0, 0⟩ (by decide)
      (Or.inr (by decide)),
    (expand_velocity_extrema line_4_1 false ⟨0, 0, 0⟩ (by decide) 0).2.1.2.1 ⟨1, 0, 0⟩ (by decide)
      (Or.inr (by decide))⟩


/-! ## The second loop of `update_dt_limits` -/

/-- The body of the second block loop of `update_dt_limits` in the words of the statements. -/
theorem dt_limits_cfl_eq (levelset : DynamicLevelSet3D) (t : ℚ) (st : MPMScheduler)
    (ind : Index3D) :
    dt_limits_cfl levelset t st ind =
      if block_vel st ind < 0 then st
      else { st with max_dt_int_cfl :=
        st.max_dt_int_cfl.set ind (get_largest_pot (cfl_argument levelset t st ind)) } := by
  rfl

/-- The second block loop of `update_dt_limits` over distinct blocks: it writes `max_dt_int_cfl`
of the visited blocks that it does not skip, and nothing else. -/
theorem dt_limits_cfl_fold_eq (levelset : DynamicLevelSet3D) (t : ℚ) :
    ∀ (l : List Index3D) (s : MPMScheduler), l.Nodup →
      l.foldl (dt_limits_cfl levelset t) s =
        { s with max_dt_int_cfl := fun b =>
            if b ∈ l ∧ ¬ block_vel s b < 0 then get_largest_pot (cfl_argument levelset t s b)
            else s.max_dt_int_cfl b } := by
  intro l
  induction l with
  | nil =>
    intro s _
    simp
  | cons a l ih =>
    intro s hnd
    have hal : a ∉ l := (List.nodup_cons.mp hnd).1
    rw [List.foldl_cons, ih _ (List.nodup_cons.mp hnd).2, dt_limits_cfl_eq]
    by_cases hv : block_vel s a < 0
    · rw [if_pos hv]
      congr 1
      funext b
      by_cases hba : b = a
      · subst hba
        simp [hal, hv]
      · simp [hba]
    · rw [if_neg hv]
      have e1 : ∀ (v : Array3 Int) (b : Index3D),
          block_vel { s with max_dt_int_cfl := v } b = block_vel s b := fun _ _ => rfl
      have e2 : ∀ (v : Array3 Int) (b : Index3D),
          cfl_argument levelset t { s with max_dt_int_cfl := v } b =
            cfl_argument levelset t s b := fun _ _ => rfl
      simp only [e1, e2]
      congr 1
      funext b
      by_cases hba : b = a
      · subst hba
        simp [hal, hv, Array3.set]
      · simp [hba, Array3.set]


/-! ## The velocity extrema in the first loop of `update_dt_limits` -/

/-- The particle loop of `update_dt_limits` for the block `ind`: the velocity extrema of the block
take in the velocity of every particle of the list; the extrema of the other blocks and the CFL
limits stay. -/
theorem dt_limits_particle_fold_vel (ind : Index3D) :
    ∀ (L : List ParticlePtr) (st : MPMScheduler),
      (∀ b, b ≠ ind → (L.foldl (dt_limits_particle ind) st).min_vel b = st.min_vel b ∧
        (L.foldl (dt_limits_particle ind) st).max_vel b = st.max_vel b) ∧
      (L.foldl (dt_limits_particle ind) st).min_vel ind =
        L.foldl (fun m p => vmin m (st.heap p).v) (st.min_vel ind) ∧
      (L.foldl (dt_limits_particle ind) st).max_vel ind =
        L.foldl (fun m p => vmax m (st.heap p).v) (st.max_vel ind) ∧
      (L.foldl (dt_limits_particle ind) st).max_dt_int_cfl = st.max_dt_int_cfl := by
  intro L
  induction L with
  | nil => intro st; exact ⟨fun _ _ => ⟨rfl, rfl⟩, rfl, rfl, rfl⟩
  | cons p L ih =>
    intro st
    rw [List.foldl_cons, List.foldl_cons, List.foldl_cons]
    obtain ⟨o, m1, m2, c⟩ := ih (dt_limits_particle ind st p)
    refine ⟨?_, ?_, ?_, ?_⟩
    · intro b hb
      rw [(o b hb).1, (o b hb).2]
      constructor
      · show (st.min_vel.set ind _) b = _
        simp [Array3.set, hb]
      · show (st.max_vel.set ind _) b = _
        simp [Array3.set, hb]
    · rw [m1]
      have h : (dt_limits_particle ind st p).min_vel ind = vmin (st.min_vel ind) (st.heap p).v := by
        show (st.min_vel.set ind _) ind = _
        simp [Array3.set, vmin]
      rw [h]
      rfl
    · rw [m2]
      have h : (dt_limits_particle ind st p).max_vel ind = vmax (st.max_vel ind) (st.heap p).v := by
        show (st.max_vel.set ind _) ind = _
        simp [Array3.set, vmax]
      rw [h]
      rfl
    · rw [c]
      rfl

theorem block_vel_congr {s s' : MPMScheduler} (h : update_dt_limits_frame s s') (b : Index3D) :
    block_min_vel s' b = block_min_vel s b ∧ block_max_vel s' b = block_max_vel s b := by
  have hb : bucket s' b = bucket s b := by
    unfold bucket
    rw [h.2.2.2.1, h.2.2.2.2.1]
  unfold block_min_vel block_max_vel
  rw [hb, h.2.2.2.2.2.2.2.2.2.2.2.2.2]
  exact ⟨rfl, rfl⟩

/-- The body of the first block loop of `update_dt_limits` on the velocity extrema and the CFL
limit. -/
theorem dt_limits_block_vel (st : MPMScheduler) (ind : Index3D) :
    (∀ b, b ≠ ind → (dt_limits_block st ind).min_vel b = st.min_vel b ∧
      (dt_limits_block st ind).max_vel b = st.max_vel b ∧
      (dt_limits_block st ind).max_dt_int_cfl b = st.max_dt_int_cfl b) ∧
    (dt_limits_block st ind).min_vel ind =
      (if st.updated ind = 0 then st.min_vel ind else block_min_vel st ind) ∧
    (dt_limits_block st ind).max_vel ind =
      (if st.updated ind = 0 then st.max_vel ind else block_max_vel st ind) ∧
    (dt_limits_block st ind).max_dt_int_cfl ind =
      (if st.updated ind = 0 then st.max_dt_int_cfl ind else DT_INF) := by
  by_cases h0 : st.updated ind = 0
  · have e : dt_limits_block st ind = st := by
      unfold dt_limits_block
      rw [if_pos h0]
    rw [e, if_pos h0, if_pos h0, if_pos h0]
    exact ⟨fun _ _ => ⟨rfl, rfl, rfl⟩, rfl, rfl, rfl⟩
  · have e : dt_limits_block st ind =
        (st.particle_groups (st.res.z * st.res.y * ind.i + st.res.z * ind.j + ind.k)).foldl
          (dt_limits_particle ind)
          { st with
            updated := st.updated.set ind 0
            max_dt_int_strength := st.max_dt_int_strength.set ind DT_INF
            max_dt_int_cfl := st.max_dt_int_cfl.set ind DT_INF
            min_vel := st.min_vel.set ind ⟨FLT_1e30, FLT_1e30, FLT_1e30⟩
            max_vel := st.max_vel.set ind ⟨-FLT_1e30, -FLT_1e30, -FLT_1e30⟩ } := by
      unfold dt_limits_block
      rw [if_neg h0]
    rw [e, if_neg h0, if_neg h0, if_neg h0]
    obtain ⟨o, m1, m2, c⟩ := dt_limits_particle_fold_vel ind
      (st.particle_groups (st.res.z * st.res.y * ind.i + st.res.z * ind.j + ind.k))
      { st with
        updated := st.updated.set ind 0
        max_dt_int_strength := st.max_dt_int_strength.set ind DT_INF
        max_dt_int_cfl := st.max_dt_int_cfl.set ind DT_INF
        min_vel := st.min_vel.set ind ⟨FLT_1e30, FLT_1e30, FLT_1e30⟩
        max_vel := st.max_vel.set ind ⟨-FLT_1e30, -FLT_1e30, -FLT_1e30⟩ }
    refine ⟨?_, ?_, ?_, ?_⟩
    · intro b hb
      rw [(o b hb).1, (o b hb).2, c]
      simp [Array3.set, hb]
    · rw [m1]
      simp [Array3.set, block_min_vel, bucket, bucket_index]
    · rw [m2]
      simp [Array3.set, block_max_vel, bucket, bucket_index]
    · rw [c]
      simp [Array3.set]

/-- The first block loop of `update_dt_limits` over distinct blocks: the visited blocks that were
dirty get the velocity extrema of their particles and the CFL limit `1LL << 60`; nothing else
changes in these arrays. -/
theorem dt_limits_block_fold_vel :
    ∀ (l : List Index3D) (st : MPMScheduler), l.Nodup → ∀ b,
      (l.foldl dt_limits_block st).min_vel b =
        (if b ∈ l ∧ st.updated b ≠ 0 then block_min_vel st b else st.min_vel b) ∧
      (l.foldl dt_limits_block st).max_vel b =
        (if b ∈ l ∧ st.updated b ≠ 0 then block_max_vel st b else st.max_vel b) ∧
      (l.foldl dt_limits_block st).max_dt_int_cfl b =
        (if b ∈ l ∧ st.updated b ≠ 0 then DT_INF else st.max_dt_int_cfl b) := by
  intro l
  induction l with
  | nil => intro st _ b; simp
  | cons a l ih =>
    intro st hnd b
    have hal : a ∉ l := (List.nodup_cons.mp hnd).1
    rw [List.foldl_cons]
    obtain ⟨f1, o1, _, _⟩ := dt_limits_block_eq st a
    obtain ⟨v1, m1, m2, c1⟩ := dt_limits_block_vel st a
    obtain ⟨i1, i2, i3⟩ := ih (dt_limits_block st a) (List.nodup_cons.mp hnd).2 b
    rw [i1, i2, i3]
    by_cases hba : b = a
    · subst hba
      have hn : ¬ (b ∈ l ∧ (dt_limits_block st b).updated b ≠ 0) := fun h => hal h.1
      rw [if_neg hn, if_neg hn, if_neg hn, m1, m2, c1]
      by_cases h0 : st.updated b = 0
      · simp [h0]
      · simp [h0]
    · rw [(o1 b hba).1, (v1 b hba).1, (v1 b hba).2.1, (v1 b hba).2.2,
        (block_vel_congr f1 b).1, (block_vel_congr f1 b).2]
      simp [hba]


/-! ## The CFL limits of `update_dt_limits` -/

/-- The result of `update_dt_limits`: the scheduler after the first loop and `expand(true, false)`
with the CFL limits that the second loop writes. -/
theorem update_dt_limits_unfold (levelset : DynamicLevelSet3D) (s : MPMScheduler) (t : ℚ) :
    update_dt_limits levelset s t =
      { expand ((get_region s.res).foldl dt_limits_block s) true false with
        max_dt_int_cfl := fun b =>
          if inside s.res b = true ∧
              ¬ block_vel (expand ((get_region s.res).foldl dt_limits_block s) true false) b < 0
          then get_largest_pot (cfl_argument levelset t
            (expand ((get_region s.res).foldl dt_limits_block s) true false) b)
          else ((get_region s.res).foldl dt_limits_block s).max_dt_int_cfl b } := by
  have hres : (expand ((get_region s.res).foldl dt_limits_block s) true false).res = s.res :=
    (dt_limits_block_fold (get_region s.res) s (nodup_get_region _)).1.2.2.2.2.1
  unfold update_dt_limits
  dsimp only
  rw [dt_limits_cfl_fold_eq levelset t _ _ (nodup_get_region _), hres]
  congr 1
  funext b
  simp only [mem_get_region]
  rfl

/-- What `update_dt_limits` leaves in the velocity extrema, the expanded extrema and the CFL
limits.  The extrema of a block of the lattice that was dirty are those of its particles, the
others stay; the expanded extrema are the extrema merged over the block and its in-bounds
neighbours; the CFL limit of a block of the lattice that the second loop does not skip is
`get_largest_pot` of its argument, and that of a skipped block is `1LL << 60` when the block was
dirty and the old value otherwise. -/
theorem update_dt_limits_cfl_eq (levelset : DynamicLevelSet3D) (s : MPMScheduler) (t : ℚ) :
    (∀ b, (update_dt_limits levelset s t).min_vel b =
      if inside s.res b = true ∧ s.updated b ≠ 0 then block_min_vel s b else s.min_vel b) ∧
    (∀ b, (update_dt_limits levelset s t).max_vel b =
      if inside s.res b = true ∧ s.updated b ≠ 0 then block_max_vel s b else s.max_vel b) ∧
    (∀ b, (update_dt_limits levelset s t).max_dt_int_cfl b =
      if inside s.res b = true ∧ ¬ block_vel (update_dt_limits levelset s t) b < 0 then
        get_largest_pot (cfl_argument levelset t (update_dt_limits levelset s t) b)
      else if inside s.res b = true ∧ s.updated b ≠ 0 then DT_INF else s.max_dt_int_cfl b) ∧
    (∀ b, inside s.res b = true → ∀ i : Fin 3,
      (∀ n, inside s.res n = true → (n = b ∨ adjacent n b) →
        ((update_dt_limits levelset s t).min_vel_expanded b).axis i ≤
          ((update_dt_limits levelset s t).min_vel n).axis i ∧
        ((update_dt_limits levelset s t).max_vel n).axis i ≤
          ((update_dt_limits levelset s t).max_vel_expanded b).axis i) ∧
      (((update_dt_limits levelset s t).min_vel_expanded b).axis i = FLT_1e30 ∨
        ∃ n, inside s.res n = true ∧ (n = b ∨ adjacent n b) ∧
          ((update_dt_limits levelset s t).min_vel_expanded b).axis i =
            ((update_dt_limits levelset s t).min_vel n).axis i) ∧
      (((update_dt_limits levelset s t).max_vel_expanded b).axis i = -FLT_1e30 ∨
        ∃ n, inside s.res n = true ∧ (n = b ∨ adjacent n b) ∧
          ((update_dt_limits levelset s t).max_vel_expanded b).axis i =
            ((update_dt_limits levelset s t).max_vel n).axis i)) := by
  have hres : ((get_region s.res).foldl dt_limits_block s).res = s.res :=
    (dt_limits_block_fold (get_region s.res) s (nodup_get_region _)).1.2.2.2.2.1
  have hv := dt_limits_block_fold_vel (get_region s.res) s (nodup_get_region _)
  simp only [mem_get_region] at hv
  rw [update_dt_limits_unfold]
  refine ⟨fun b => ?_, fun b => ?_, fun b => ?_, fun b hb i => ?_⟩
  · exact (hv b).1
  · exact (hv b).2.1
  · show (if _ then _ else _) = _
    rw [(hv b).2.2]
    rfl
  · obtain ⟨⟨_, a2, a3⟩, ⟨_, b2, b3⟩⟩ := expand_vel_spec
      ((get_region s.res).foldl dt_limits_block s) false b (by rw [hres]; exact hb) i
    rw [hres] at a2 a3 b2 b3
    exact ⟨fun n hn hnear => ⟨a2 n hn hnear, b2 n hn hnear⟩, a3, b3⟩


/-! ## Statements about the lazy recomputation and the CFL limits of `update_dt_limits` -/

/-- C27.  `update_dt_limits` leaves `max_dt_int_strength`, `min_vel` and `max_vel` of every block
whose dirty flag `updated` is 0 unchanged, and after it returns the dirty flag of every block of
the lattice is 0. -/
theorem update_dt_limits_lazy (levelset : DynamicLevelSet3D) (s : MPMScheduler) (t : ℚ) :
    (∀ b, s.updated b = 0 →
      (update_dt_limits levelset s t).max_dt_int_strength b = s.max_dt_int_strength b ∧
      (update_dt_limits levelset s t).min_vel b = s.min_vel b ∧
      (update_dt_limits levelset s t).max_vel b = s.max_vel b) ∧
    (∀ b, inside s.res b = true → (update_dt_limits levelset s t).updated b = 0) := by
  obtain ⟨_, hu, hs⟩ := update_dt_limits_eq levelset s t
  obtain ⟨h1, h2, _, _⟩ := update_dt_limits_cfl_eq levelset s t
  constructor
  · intro b h0
    have hn : ¬ (inside s.res b = true ∧ s.updated b ≠ 0) := fun h => h.2 h0
    rw [hs b, h1 b, h2 b, if_neg hn, if_neg hn, if_neg hn]
    exact ⟨rfl, rfl, rfl⟩
  · intro b hb
    rw [hu b, if_pos hb]

/-- C27, witness: the line of one block whose dirty flag was cleared by an earlier run. -/
theorem update_dt_limits_lazy_witness :
    line_limits.updated ⟨0, 0, 0⟩ = 0 ∧ inside line_limits.res ⟨0, 0, 0⟩ = true ∧
    (update_dt_limits empty_levelset line_limits 0).max_dt_int_strength ⟨0, 0, 0⟩ = 8 ∧
    (update_dt_limits empty_levelset line_limits 0).min_vel ⟨0, 0, 0⟩ =
      line_limits.min_vel ⟨0, 0, 0⟩ ∧
    (update_dt_limits empty_levelset line_limits 0).max_vel ⟨0, 0, 0⟩ =
      line_limits.max_vel ⟨0, 0, 0⟩ ∧
    (update_dt_limits empty_levelset line_limits 0).updated ⟨0, 0, 0⟩ = 0 :=
  ⟨rfl, by decide,
    ((update_dt_limits_lazy empty_levelset line_limits 0).1 ⟨0, 0, 0⟩ rfl).1,
    ((update_dt_limits_lazy empty_levelset line_limits 0).1 ⟨0, 0, 0⟩ rfl).2.1,
    ((update_dt_limits_lazy empty_levelset line_limits 0).1 ⟨0, 0, 0⟩ rfl).2.2,
    (update_dt_limits_lazy empty_levelset line_limits 0).2 ⟨0, 0, 0⟩ (by decide)⟩


/-- The velocity extrema of the particles of a block enclose the velocity of every particle of
the block, and they are the sentinels for a block without particles. -/
theorem block_extrema_spec (s : MPMScheduler) (b : Index3D) (i : Fin 3) :
    (∀ p ∈ bucket s b, (block_min_vel s b).axis i ≤ ((s.heap p).v).axis i ∧
      ((s.heap p).v).axis i ≤ (block_max_vel s b).axis i) ∧
    (bucket s b = [] → (block_min_vel s b).axis i = FLT_1e30 ∧
      (block_max_vel s b).axis i = -FLT_1e30) := by
  have e1 : (block_min_vel s b).axis i =
      (bucket s b).foldl (fun r p => if True then min r (((s.heap p).v).axis i) else r)
        ((⟨FLT_1e30, FLT_1e30, FLT_1e30⟩ : Vector3).axis i) := by
    unfold block_min_vel
    apply foldl_hom (fun m : Vector3 => m.axis i)
    intro a x
    rw [if_pos trivial]
    exact vmin_axis a _ i
  have e2 : (block_max_vel s b).axis i =
      (bucket s b).foldl (fun r p => if True then max r (((s.heap p).v).axis i) else r)
        ((⟨-FLT_1e30, -FLT_1e30, -FLT_1e30⟩ : Vector3).axis i) := by
    unfold block_max_vel
    apply foldl_hom (fun m : Vector3 => m.axis i)
    intro a x
    rw [if_pos trivial]
    exact vmax_axis a _ i
  obtain ⟨_, a2, _⟩ := foldl_min_rat (fun _ : ParticlePtr => True)
    (fun p => ((s.heap p).v).axis i) (bucket s b)
    ((⟨FLT_1e30, FLT_1e30, FLT_1e30⟩ : Vector3).axis i)
  obtain ⟨_, b2, _⟩ := foldl_max_rat (fun _ : ParticlePtr => True)
    (fun p => ((s.heap p).v).axis i) (bucket s b)
    ((⟨-FLT_1e30, -FLT_1e30, -FLT_1e30⟩ : Vector3).axis i)
  constructor
  · intro p hp
    rw [e1, e2]
    exact ⟨a2 p hp trivial, b2 p hp trivial⟩
  · intro hemp
    rw [e1, e2, hemp]
    fin_cases i <;> exact ⟨rfl, rfl⟩

/-- The literal `1e-7f` is positive, and the sentinel `1e30f` is too. -/
theorem flt_pos : 0 < FLT_1e_7 ∧ 0 < FLT_1e30 ∧ FLT_1e_7 < FLT_1e30 := by
  unfold FLT_1e_7 FLT_1e30
  norm_num

/-- The velocity extent of a block is not negative when the expanded maximum is not below the
expanded minimum on some axis. -/
theorem block_vel_nonneg (st : MPMScheduler) (b : Index3D) (i : Fin 3)
    (h : (st.min_vel_expanded b).axis i ≤ (st.max_vel_expanded b).axis i) :
    0 ≤ block_vel st b := by
  have hm : 0 ≤ max (max (fsub (st.max_vel_expanded b).x (st.min_vel_expanded b).x)
      (fsub (st.max_vel_expanded b).y (st.min_vel_expanded b).y))
      (fsub (st.max_vel_expanded b).z (st.min_vel_expanded b).z) := by
    fin_cases i
    · exact le_trans (round_f32_nonneg _ (sub_nonneg.mpr h))
        (le_trans (le_max_left _ _) (le_max_left _ _))
    · exact le_trans (round_f32_nonneg _ (sub_nonneg.mpr h))
        (le_trans (le_max_right _ _) (le_max_left _ _))
    · exact le_trans (round_f32_nonneg _ (sub_nonneg.mpr h)) (le_max_right _ _)
  unfold block_vel fadd
  exact round_f32_nonneg _ (add_nonneg hm (le_of_lt flt_pos.1))

/-- The velocity extent of a block whose expanded extrema are the sentinels: the float
`-1e30f - 1e30f + 1e-7f`, which is `-2e30f`. -/
theorem block_vel_sentinel (st : MPMScheduler) (b : Index3D)
    (hlo : st.min_vel_expanded b = ⟨FLT_1e30, FLT_1e30, FLT_1e30⟩)
    (hhi : st.max_vel_expanded b = ⟨-FLT_1e30, -FLT_1e30, -FLT_1e30⟩) :
    block_vel st b = -2 * FLT_1e30 := by
  have h1 : fsub (-FLT_1e30) FLT_1e30 = -2 * FLT_1e30 := by
    unfold fsub FLT_1e30
    rw [round_f32_eq _ 100 (-13234890) (by norm_num) (by norm_num [abs_neg, abs_of_pos])
      (by norm_num [abs_neg, abs_of_pos]) (by norm_num [abs_lt])]
    norm_num
  have h2 : fadd (-2 * FLT_1e30) FLT_1e_7 = -2 * FLT_1e30 := by
    unfold fadd FLT_1e30 FLT_1e_7
    rw [round_f32_eq _ 100 (-13234890) (by norm_num [abs_of_neg]) (by norm_num [abs_of_neg])
      (by norm_num [abs_of_neg]) (by norm_num [abs_lt])]
    norm_num
  unfold block_vel
  rw [hlo, hhi]
  dsimp only
  rw [h1, max_self, max_self, h2]

/-- The velocity extent that the second loop of `update_dt_limits` finds for a block of the
lattice when all blocks were dirty: the negative float `-2e30f` when neither the block nor an
in-bounds neighbour holds a particle, and not negative otherwise. -/
theorem update_dt_limits_block_vel (levelset : DynamicLevelSet3D) (s : MPMScheduler) (t : ℚ)
    (hd : ∀ n, inside s.res n = true → s.updated n ≠ 0) (b : Index3D)
    (hb : inside s.res b = true) :
    ((∀ n, inside s.res n = true → (n = b ∨ adjacent n b) → bucket s n = []) →
      block_vel (update_dt_limits levelset s t) b = -2 * FLT_1e30) ∧
    ((∃ n, inside s.res n = true ∧ (n = b ∨ adjacent n b) ∧ bucket s n ≠ []) →
      0 ≤ block_vel (update_dt_limits levelset s t) b) := by
  obtain ⟨h1, h2, _, h4⟩ := update_dt_limits_cfl_eq levelset s t
  constructor
  · intro hemp
    have hmin : ∀ i : Fin 3,
        ((update_dt_limits levelset s t).min_vel_expanded b).axis i = FLT_1e30 := by
      intro i
      obtain ⟨_, a3, _⟩ := h4 b hb i
      rcases a3 with h | ⟨n, hn, hnear, h⟩
      · exact h
      · rw [h, h1 n, if_pos ⟨hn, hd n hn⟩]
        exact ((block_extrema_spec s n i).2 (hemp n hn hnear)).1
    have hmax : ∀ i : Fin 3,
        ((update_dt_limits levelset s t).max_vel_expanded b).axis i = -FLT_1e30 := by
      intro i
      obtain ⟨_, _, b3⟩ := h4 b hb i
      rcases b3 with h | ⟨n, hn, hnear, h⟩
      · exact h
      · rw [h, h2 n, if_pos ⟨hn, hd n hn⟩]
        exact ((block_extrema_spec s n i).2 (hemp n hn hnear)).2
    apply block_vel_sentinel
    · have e0 := hmin 0
      have e1 := hmin 1
      have e2 := hmin 2
      cases hq : (update_dt_limits levelset s t).min_vel_expanded b with
      | mk x y z =>
        rw [hq] at e0 e1 e2
        change x = FLT_1e30 at e0
        change y = FLT_1e30 at e1
        change z = FLT_1e30 at e2
        rw [e0, e1, e2]
    · have e0 := hmax 0
      have e1 := hmax 1
      have e2 := hmax 2
      cases hq : (update_dt_limits levelset s t).max_vel_expanded b with
      | mk x y z =>
        rw [hq] at e0 e1 e2
        change x = -FLT_1e30 at e0
        change y = -FLT_1e30 at e1
        change z = -FLT_1e30 at e2
        rw [e0, e1, e2]
  · rintro ⟨n, hn, hnear, hne⟩
    obtain ⟨p, hp⟩ := List.exists_mem_of_ne_nil _ hne
    obtain ⟨a2, _, _⟩ := h4 b hb 0
    obtain ⟨c1, c2⟩ := a2 n hn hnear
    rw [h1 n, if_pos ⟨hn, hd n hn⟩] at c1
    rw [h2 n, if_pos ⟨hn, hd n hn⟩] at c2
    obtain ⟨d1, d2⟩ := (block_extrema_spec s n 0).1 p hp
    exact block_vel_nonneg _ b 0 (le_trans c1 (le_trans d1 (le_trans d2 c2)))

/-- C28.  When every block of the lattice is dirty on entry, the second loop of `update_dt_limits`
skips a block of the lattice exactly when neither the block nor a block of the lattice adjacent
to it holds a particle.  In that case the velocity extent `block_vel` that the loop tests is
negative (it is the float `-2e30f`), and `max_dt_int_cfl` of the block stays at the reset value
`2^60`.  When the block or a block of the lattice adjacent to it holds a particle, the velocity
extent is not negative, so the block is not skipped, also when the block itself is empty. -/
theorem update_dt_limits_skips_empty (levelset : DynamicLevelSet3D) (s : MPMScheduler) (t : ℚ)
    (hd : ∀ n, inside s.res n = true → s.updated n ≠ 0) (b : Index3D)
    (hb : inside s.res b = true) :
    (block_vel (update_dt_limits levelset s t) b < 0 ↔
      ∀ n, inside s.res n = true → (n = b ∨ adjacent n b) → bucket s n = []) ∧
    ((∀ n, inside s.res n = true → (n = b ∨ adjacent n b) → bucket s n = []) →
      (update_dt_limits levelset s t).max_dt_int_cfl b = 2 ^ 60) ∧
    ((∃ n, inside s.res n = true ∧ (n = b ∨ adjacent n b) ∧ bucket s n ≠ []) →
      ¬ block_vel (update_dt_limits levelset s t) b < 0) := by
  obtain ⟨_, _, h3, _⟩ := update_dt_limits_cfl_eq levelset s t
  obtain ⟨v1, v2⟩ := update_dt_limits_block_vel levelset s t hd b hb
  have hneg : (∀ n, inside s.res n = true → (n = b ∨ adjacent n b) → bucket s n = []) →
      block_vel (update_dt_limits levelset s t) b < 0 := by
    intro hemp
    rw [v1 hemp]
    have := flt_pos.2.1
    linarith
  refine ⟨⟨?_, hneg⟩, ?_, ?_⟩
  · intro hv n hn hnear
    by_contra hne
    exact absurd hv (not_lt.mpr (v2 ⟨n, hn, hnear, hne⟩))
  · intro hemp
    rw [h3 b, if_neg (fun h => h.2 (hneg hemp)), if_pos ⟨hb, hd b hb⟩]
    rfl
  · intro hex
    exact not_lt.mpr (v2 hex)


theorem line_one_particle_eq :
    line_one_particle.res = ⟨3, 1, 1⟩ ∧
    (∀ n, line_one_particle.updated n = 1) ∧
    (∀ m, line_one_particle.particle_groups m = if m = 0 then [0] else []) := by
  have hpos : get_rough_pos (line_scheduler 3) 0 = ⟨0, 0, 0⟩ := get_rough_pos_line 3 0
  have hin : inside (line_scheduler 3).res (get_rough_pos (line_scheduler 3) 0) = true := by
    rw [hpos]; decide
  unfold line_one_particle
  rw [insert_particle_inside _ _ _ hin, hpos]
  refine ⟨rfl, ?_, ?_⟩
  · intro n
    show ((line_scheduler 3).updated.set ⟨0, 0, 0⟩ 1) n = 1
    unfold Array3.set
    split <;> rfl
  · intro m
    show groups_set (line_scheduler 3).particle_groups (bucket_index (line_scheduler 3).res 0 0 0)
      ((line_scheduler 3).particle_groups (bucket_index (line_scheduler 3).res 0 0 0) ++ [0]) m = _
    have hidx : bucket_index (line_scheduler 3).res 0 0 0 = 0 := by decide
    rw [hidx]
    unfold groups_set
    split <;> rfl

/-- C28, witness: the line of three dirty blocks with one particle in block 0.  Block 1 is empty
but adjacent to block 0, and is not skipped; block 2 has no particle in reach, is skipped and
keeps the reset value. -/
theorem update_dt_limits_skips_empty_witness :
    (∀ n, inside line_one_particle.res n = true → line_one_particle.updated n ≠ 0) ∧
    inside line_one_particle.res ⟨1, 0, 0⟩ = true ∧
    inside line_one_particle.res ⟨2, 0, 0⟩ = true ∧
    bucket line_one_particle ⟨1, 0, 0⟩ = [] ∧
    ¬ block_vel (update_dt_limits empty_levelset line_one_particle 0) ⟨1, 0, 0⟩ < 0 ∧
    block_vel (update_dt_limits empty_levelset line_one_particle 0) ⟨2, 0, 0⟩ < 0 ∧
    (update_dt_limits empty_levelset line_one_particle 0).max_dt_int_cfl ⟨2, 0, 0⟩ = 2 ^ 60 :=
  have hres : line_one_particle.res = ⟨3, 1, 1⟩ := line_one_particle_eq.1
  have hd : ∀ n, inside line_one_particle.res n = true → line_one_particle.updated n ≠ 0 := by
    intro n _
    rw [line_one_particle_eq.2.1 n]
    decide
  have hbucket : ∀ n : Index3D, n.j = 0 → n.k = 0 →
      bucket line_one_particle n = if n.i = 0 then [0] else [] := by
    intro n hj hk
    unfold bucket
    rw [line_one_particle_eq.2.2, hres]
    unfold bucket_index
    rw [hj, hk]
    simp
  have h1 : inside line_one_particle.res ⟨1, 0, 0⟩ = true := by rw [hres]; decide
  have h2 : inside line_one_particle.res ⟨2, 0, 0⟩ = true := by rw [hres]; decide
  have h0 : inside line_one_particle.res ⟨0, 0, 0⟩ = true := by rw [hres]; decide
  have hemp : ∀ n, inside line_one_particle.res n = true →
      (n = ⟨2, 0, 0⟩ ∨ adjacent n ⟨2, 0, 0⟩) → bucket line_one_particle n = [] := by
    intro n hn hnear
    rw [hres, inside_iff] at hn
    dsimp only at hn
    obtain ⟨⟨_, _⟩, ⟨_, _⟩, ⟨_, _⟩⟩ := hn
    have hj : n.j = 0 := by omega
    have hk : n.k = 0 := by omega
    have hi : n.i ≠ 0 := by
      rcases hnear with h | h
      · rw [h]; decide
      · intro h0
        have := h.2.1
        rw [h0] at this
        norm_num at this
    rw [hbucket n hj hk, if_neg hi]
  ⟨hd, h1, h2, by rw [hbucket ⟨1, 0, 0⟩ rfl rfl]; rfl,
    (update_dt_limits_skips_empty empty_levelset line_one_particle 0 hd ⟨1, 0, 0⟩ h1).2.2
      ⟨⟨0, 0, 0⟩, h0, Or.inr (by decide), by rw [hbucket ⟨0, 0, 0⟩ rfl rfl]; decide⟩,
    (update_dt_limits_skips_empty empty_levelset line_one_particle 0 hd ⟨2, 0, 0⟩ h2).1.2 hemp,
    (update_dt_limits_skips_empty empty_levelset line_one_particle 0 hd ⟨2, 0, 0⟩ h2).2.1 hemp⟩


/-! ## The scheduler with a single particle at the origin -/

theorem cube_scheduler_initialized (h : ParticlePtr → MPMParticle) :
    initialize_scheduler h ⟨4, 4, 4⟩ FLT_0_01 1 1 0 4 = some (cube_scheduler h) := by
  unfold initialize_scheduler
  rw [if_neg (by decide)]
  rfl

theorem single_particle_state (h : ParticlePtr → MPMParticle) (hpos : (h 0).pos = ⟨0, 0, 0⟩) :
    (single_particle h).res = ⟨1, 1, 1⟩ ∧ (single_particle h).heap = h ∧
    (single_particle h).cfl = 1 ∧ (single_particle h).base_delta_t = FLT_0_01 ∧
    (single_particle h).grid_block_size = 4 ∧
    (∀ n, (single_particle h).updated n = 1) ∧
    (∀ m, (single_particle h).particle_groups m = if m = 0 then [0] else []) := by
  have hp : get_rough_pos (cube_scheduler h) 0 = ⟨0, 0, 0⟩ := by
    simp [get_rough_pos, cube_scheduler, initialize_fields, hpos, real_to_int]
  have hin : inside (cube_scheduler h).res (get_rough_pos (cube_scheduler h) 0) = true := by
    rw [hp]; rfl
  unfold single_particle
  rw [insert_particle_inside _ _ _ hin, hp]
  refine ⟨rfl, rfl, rfl, rfl, rfl, ?_, ?_⟩
  · intro n
    show (Array3.set (fun _ => (1 : Int)) ⟨0, 0, 0⟩ 1) n = 1
    unfold Array3.set
    split <;> rfl
  · intro m
    show groups_set (fun _ => []) (bucket_index ⟨1, 1, 1⟩ 0 0 0)
      ([] ++ [0]) m = _
    have hidx : bucket_index ⟨1, 1, 1⟩ 0 0 0 = 0 := by decide
    rw [hidx]
    unfold groups_set
    split <;> rfl


/-- The quantities of the second loop of `update_dt_limits` for the single block of the scheduler
with one particle at the origin that moves with the velocity `(v, 0, 0)`: the velocity extent is
the float `0 + 1e-7f`, which is `1e-7f`, the absolute velocity is `v`, the level set is queried at
`(2, 2, 2)`, and the block is not skipped. -/
theorem single_particle_limits (levelset : DynamicLevelSet3D) (t : ℚ)
    (h : ParticlePtr → MPMParticle) (v : ℚ) (hpos : (h 0).pos = ⟨0, 0, 0⟩)
    (hv : (h 0).v = ⟨v, 0, 0⟩) (hv1 : FLT_1e_7 ≤ v) (hv2 : v ≤ FLT_1e30) :
    block_vel (update_dt_limits levelset (single_particle h) t) ⟨0, 0, 0⟩ = FLT_1e_7 ∧
    block_absolute_vel (update_dt_limits levelset (single_particle h) t) ⟨0, 0, 0⟩ = v ∧
    query_position (update_dt_limits levelset (single_particle h) t) ⟨0, 0, 0⟩ = ⟨2, 2, 2⟩ ∧
    (update_dt_limits levelset (single_particle h) t).cfl = 1 ∧
    (update_dt_limits levelset (single_particle h) t).base_delta_t = FLT_0_01 ∧
    (update_dt_limits levelset (single_particle h) t).grid_block_size = 4 ∧
    (update_dt_limits levelset (single_particle h) t).max_dt_int_cfl ⟨0, 0, 0⟩ =
      get_largest_pot (cfl_argument levelset t
        (update_dt_limits levelset (single_particle h) t) ⟨0, 0, 0⟩) := by
  obtain ⟨sres, sheap, scfl, sdt, sgbs, supd, sgrp⟩ := single_particle_state h hpos
  obtain ⟨fr, _, _⟩ := update_dt_limits_eq levelset (single_particle h) t
  obtain ⟨_, _, _, _, _, _, _, _, f9, f10, _, f12, _, _⟩ := fr
  obtain ⟨m1, m2, c3, e4⟩ := update_dt_limits_cfl_eq levelset (single_particle h) t
  obtain ⟨p1, p2, p3⟩ := flt_pos
  have hin : inside (single_particle h).res ⟨0, 0, 0⟩ = true := by rw [sres]; rfl
  have hdirty : (single_particle h).updated ⟨0, 0, 0⟩ ≠ 0 := by rw [supd]; decide
  have honly : ∀ n, inside (single_particle h).res n = true → n = ⟨0, 0, 0⟩ := by
    intro n hn
    rw [sres, inside_iff] at hn
    dsimp only at hn
    obtain ⟨⟨_, _⟩, ⟨_, _⟩, ⟨_, _⟩⟩ := hn
    cases n
    simp only [Index3D.mk.injEq]
    dsimp only at *
    omega
  have hbucket : bucket (single_particle h) ⟨0, 0, 0⟩ = [0] := by
    unfold bucket
    rw [sgrp, sres]
    rfl
  have hmin : (update_dt_limits levelset (single_particle h) t).min_vel ⟨0, 0, 0⟩ = ⟨v, 0, 0⟩ := by
    rw [m1, if_pos ⟨hin, hdirty⟩]
    unfold block_min_vel
    rw [hbucket, sheap]
    simp only [List.foldl_cons, List.foldl_nil, vmin, hv]
    rw [min_eq_right hv2, min_eq_right (le_of_lt p2)]
  have hmax : (update_dt_limits levelset (single_particle h) t).max_vel ⟨0, 0, 0⟩ = ⟨v, 0, 0⟩ := by
    rw [m2, if_pos ⟨hin, hdirty⟩]
    unfold block_max_vel
    rw [hbucket, sheap]
    simp only [List.foldl_cons, List.foldl_nil, vmax, hv]
    rw [max_eq_right (by linarith), max_eq_right (by linarith)]
  have hbound : ∀ i : Fin 3, (⟨v, 0, 0⟩ : Vector3).axis i ≤ FLT_1e30 ∧
      -FLT_1e30 ≤ (⟨v, 0, 0⟩ : Vector3).axis i := by
    intro i
    fin_cases i
    · exact ⟨hv2, by show -FLT_1e30 ≤ v; linarith⟩
    · exact ⟨le_of_lt p2, by show -FLT_1e30 ≤ 0; linarith⟩
    · exact ⟨le_of_lt p2, by show -FLT_1e30 ≤ 0; linarith⟩
  have hexp : ∀ i : Fin 3,
      ((update_dt_limits levelset (single_particle h) t).min_vel_expanded ⟨0, 0, 0⟩).axis i =
        (⟨v, 0, 0⟩ : Vector3).axis i ∧
      ((update_dt_limits levelset (single_particle h) t).max_vel_expanded ⟨0, 0, 0⟩).axis i =
        (⟨v, 0, 0⟩ : Vector3).axis i := by
    intro i
    obtain ⟨a2, a3, b3⟩ := e4 ⟨0, 0, 0⟩ hin i
    obtain ⟨l1, l2⟩ := a2 ⟨0, 0, 0⟩ hin (Or.inl rfl)
    rw [hmin] at l1
    rw [hmax] at l2
    constructor
    · rcases a3 with e | ⟨n, hn, _, e⟩
      · exact le_antisymm l1 (by rw [e]; exact (hbound i).1)
      · rw [e, honly n hn, hmin]
    · rcases b3 with e | ⟨n, hn, _, e⟩
      · exact le_antisymm (by rw [e]; exact (hbound i).2) l2
      · rw [e, honly n hn, hmax]
  have x1 : ((update_dt_limits levelset (single_particle h) t).min_vel_expanded ⟨0, 0, 0⟩).x = v :=
    (hexp 0).1
  have x2 : ((update_dt_limits levelset (single_particle h) t).max_vel_expanded ⟨0, 0, 0⟩).x = v :=
    (hexp 0).2
  have y1 : ((update_dt_limits levelset (single_particle h) t).min_vel_expanded ⟨0, 0, 0⟩).y = 0 :=
    (hexp 1).1
  have y2 : ((update_dt_limits levelset (single_particle h) t).max_vel_expanded ⟨0, 0, 0⟩).y = 0 :=
    (hexp 1).2
  have z1 : ((update_dt_limits levelset (single_particle h) t).min_vel_expanded ⟨0, 0, 0⟩).z = 0 :=
    (hexp 2).1
  have z2 : ((update_dt_limits levelset (single_particle h) t).max_vel_expanded ⟨0, 0, 0⟩).z = 0 :=
    (hexp 2).2
  have hbv : block_vel (update_dt_limits levelset (single_particle h) t) ⟨0, 0, 0⟩ = FLT_1e_7 := by
    unfold block_vel
    rw [x1, x2, y1, y2, z1, z2]
    unfold fsub fadd
    rw [sub_self, sub_self, round_f32_zero, max_self, max_self, zero_add]
    exact round_f32_small.2.2.2.2.2.2
  have hv0 : 0 ≤ v := le_trans (le_of_lt p1) hv1
  refine ⟨hbv, ?_, ?_, f10.trans scfl, f9.trans sdt, f12.trans sgbs, ?_⟩
  · unfold block_absolute_vel
    rw [x1, x2, y1, y2, z1, z2, abs_of_nonneg hv0, abs_zero, max_eq_right hv1, max_self,
      max_eq_left hv0, max_eq_left hv0, max_eq_left hv0, max_eq_left hv0]
  · have e4 : round_f32 ((4 : Int) : ℚ) = 4 := by
      push_cast
      exact round_f32_small.2.2.2.1
    have e2 : fmul (((0 : Int) : ℚ) + 1 / 2) 4 = 2 := by
      unfold fmul
      have e : (((0 : Int) : ℚ) + 1 / 2) * 4 = 2 := by norm_num
      rw [e]
      exact round_f32_small.2.1
    unfold query_position Index3D.get_pos
    rw [f12, sgbs]
    dsimp only
    rw [e4, e2]
  · rw [c3, if_pos]
    exact ⟨hin, by rw [hbv]; exact not_lt.mpr (le_of_lt p1)⟩


/-- The floats `0.01f` and `1e-7f` are finite and not zero. -/
theorem flt_finite :
    |FLT_0_01| < 2 ^ 128 ∧ FLT_0_01 ≠ 0 ∧ |FLT_1e_7| < 2 ^ 128 ∧ FLT_1e_7 ≠ 0 := by
  unfold FLT_0_01 FLT_1e_7
  refine ⟨?_, ?_, ?_, ?_⟩ <;> norm_num [abs_of_pos]

/-- The CFL steps of a block with the velocity extent `1e-7f` for `cfl = 1` and
`base_delta_t = 0.01f`: the float `1 / 1e-7f` is `1e7`, and the float `1e7 / 0.01f` is `1e9`. -/
theorem cfl_steps_single :
    fdiv 1 FLT_1e_7 = 10000000 ∧ fdiv (fdiv 1 FLT_1e_7) FLT_0_01 = 1000000000 ∧
    real_to_int64 (fdiv (fdiv 1 FLT_1e_7) FLT_0_01) = 1000000000 := by
  have h1 : fdiv 1 FLT_1e_7 = 10000000 := by
    rw [fdiv_eq 1 FLT_1e_7 (by norm_num) flt_finite.2.2.2 flt_finite.2.2.1]
    unfold FLT_1e_7
    rw [round_f32_eq _ 23 10000000 (by norm_num) (by norm_num [abs_of_pos])
      (by norm_num [abs_of_pos]) (by norm_num [abs_lt])]
    norm_num
  have h2 : fdiv 10000000 FLT_0_01 = 1000000000 := by
    rw [fdiv_eq _ FLT_0_01 (by norm_num [abs_of_pos]) flt_finite.2.1 flt_finite.1]
    unfold FLT_0_01
    rw [round_f32_eq _ 29 15625000 (by norm_num) (by norm_num [abs_of_pos])
      (by norm_num [abs_of_pos]) (by norm_num [abs_lt])]
    norm_num
  refine ⟨h1, by rw [h1, h2], ?_⟩
  rw [h1, h2, real_to_int64_of_nonneg _ (by norm_num) (by norm_num)]
  norm_num

/-- The boundary steps for the margin 0.5, `cfl = 1` and `base_delta_t = 0.01f`: 25 for the
absolute velocity 2, where the float `0.25 / 0.01f` is 25, and 0 for the absolute velocity 100,
where the float `0.005f / 0.01f` is 0.5. -/
theorem boundary_steps_single :
    fdiv (fdiv (fmul 1 (1 / 2)) 2) FLT_0_01 = 25 ∧
    real_to_int64 (fdiv (fdiv (fmul 1 (1 / 2)) 2) FLT_0_01) = 25 ∧
    fdiv (fdiv (fmul 1 (1 / 2)) 100) FLT_0_01 = 1 / 2 ∧
    real_to_int64 (fdiv (fdiv (fmul 1 (1 / 2)) 100) FLT_0_01) = 0 := by
  have h0 : fmul 1 (1 / 2) = 1 / 2 := by
    unfold fmul
    rw [one_mul]
    exact round_f32_small.2.2.2.2.1
  have h1 : fdiv (1 / 2) 2 = 1 / 4 := by
    rw [fdiv_eq _ 2 (by norm_num [abs_of_pos]) (by norm_num) (by norm_num)]
    have e : (1 / 2 : ℚ) / 2 = 1 / 4 := by norm_num
    rw [e]
    exact round_f32_small.2.2.2.2.2.1
  have h2 : fdiv (1 / 4) FLT_0_01 = 25 := by
    rw [fdiv_eq _ FLT_0_01 (by norm_num [abs_of_pos]) flt_finite.2.1 flt_finite.1]
    unfold FLT_0_01
    rw [round_f32_eq _ 4 13107200 (by norm_num) (by norm_num [abs_of_pos])
      (by norm_num [abs_of_pos]) (by norm_num [abs_lt])]
    norm_num
  have h3 : fdiv (1 / 2) 100 = 10737418 / 2147483648 := by
    rw [fdiv_eq _ 100 (by norm_num [abs_of_pos]) (by norm_num) (by norm_num)]
    rw [round_f32_eq _ (-8) 10737418 (by norm_num) (by norm_num [abs_of_pos])
      (by norm_num [abs_of_pos]) (by norm_num [abs_lt])]
    norm_num
  have h4 : fdiv (10737418 / 2147483648) FLT_0_01 = 1 / 2 := by
    rw [fdiv_eq _ FLT_0_01 (by norm_num [abs_of_pos]) flt_finite.2.1 flt_finite.1]
    unfold FLT_0_01
    have e : (10737418 / 2147483648 : ℚ) / (5368709 / 536870912) = 1 / 2 := by norm_num
    rw [e]
    exact round_f32_small.2.2.2.2.1
  refine ⟨by rw [h0, h1, h2], ?_, by rw [h0, h3, h4], ?_⟩
  · rw [h0, h1, h2, real_to_int64_of_nonneg _ (by norm_num) (by norm_num)]
    norm_num
  · rw [h0, h3, h4, real_to_int64_of_nonneg _ (by norm_num) (by norm_num), Int.floor_eq_iff]
    constructor <;> norm_num

/-- The margin for the distance 1 and the block size 4 is 0.5: the float `1 - 4 * 0.75f` is
`-2`. -/
theorem margin_near :
    max (fsub 1 (fmul (round_f32 ((4 : Int) : ℚ)) (3 / 4))) (1 / 2) = 1 / 2 := by
  have e4 : round_f32 ((4 : Int) : ℚ) = 4 := by
    push_cast
    exact round_f32_small.2.2.2.1
  have h1 : fmul 4 (3 / 4) = 3 := by
    unfold fmul
    have e : (4 : ℚ) * (3 / 4) = 3 := by norm_num
    rw [e]
    exact round_f32_small.2.2.1
  have h2 : fsub 1 3 = -2 := by
    unfold fsub
    rw [round_f32_eq _ 1 (-(2 ^ 23)) (by norm_num) (by norm_num) (by norm_num) (by norm_num)]
    norm_num
  rw [e4, h1, h2]
  norm_num

/-- The margin for the distance 0, which is the distance of a block whose query position is
outside the domain of the level set, is 0.5 for every block size that is not negative. -/
theorem boundary_margin_zero (st : MPMScheduler) (hg : 0 ≤ st.grid_block_size) :
    boundary_margin st 0 = 1 / 2 := by
  have hg1 : (0 : ℚ) ≤ (st.grid_block_size : ℚ) := by exact_mod_cast hg
  have h1 : 0 ≤ fmul (round_f32 (st.grid_block_size : ℚ)) (3 / 4) :=
    round_f32_nonneg _ (mul_nonneg (round_f32_nonneg _ hg1) (by norm_num))
  have h2 : fsub 0 (fmul (round_f32 (st.grid_block_size : ℚ)) (3 / 4)) ≤ 0 :=
    round_f32_nonpos _ (by linarith)
  unfold boundary_margin
  exact max_eq_right (le_trans h2 (by norm_num))

/-- The clamped CFL bound of the single block of the scheduler with one particle at the origin,
`int64(1 / 1e-7f / 0.01f) = 1000000000`: the velocity extent of a single particle is `1e-7f`,
whatever its velocity.  The boundary bound of the block for the margin `d` is
`int64(1 * d / v / 0.01f)`. -/
theorem single_particle_cfl_bound (levelset : DynamicLevelSet3D) (t : ℚ)
    (h : ParticlePtr → MPMParticle) (v : ℚ) (hpos : (h 0).pos = ⟨0, 0, 0⟩)
    (hv : (h 0).v = ⟨v, 0, 0⟩) (hv1 : FLT_1e_7 ≤ v) (hv2 : v ≤ FLT_1e30) :
    cfl_bound (update_dt_limits levelset (single_particle h) t) ⟨0, 0, 0⟩ = 1000000000 ∧
    ∀ d : ℚ, boundary_bound (update_dt_limits levelset (single_particle h) t) ⟨0, 0, 0⟩ d =
      real_to_int64 (fdiv (fdiv (fmul 1 d) v) FLT_0_01) := by
  obtain ⟨hbv, hav, _, hcfl, hdt, _, _⟩ :=
    single_particle_limits levelset t h v hpos hv hv1 hv2
  constructor
  · unfold cfl_bound
    rw [hbv, hcfl, hdt, cfl_steps_single.2.2]
    rfl
  · intro d
    unfold boundary_bound
    rw [hav, hcfl, hdt]

theorem heap_origin_bounds : FLT_1e_7 ≤ (2 : ℚ) ∧ (2 : ℚ) ≤ FLT_1e30 := by
  unfold FLT_1e_7 FLT_1e30
  norm_num

theorem heap_fast_bounds : FLT_1e_7 ≤ (100 : ℚ) ∧ (100 : ℚ) ≤ FLT_1e30 := by
  unfold FLT_1e_7 FLT_1e30
  norm_num

/-- The argument of `get_largest_pot` in the second loop of `update_dt_limits` by the answer of
the level set: the CFL bound alone when the sampled distance is not below `LevelSet3D::INF`; the
smaller of the CFL bound and the boundary bound for the margin 0.5 when the query position is
outside the domain of the level set, where the distance is taken to be 0. -/
theorem cfl_argument_cases (levelset : DynamicLevelSet3D) (t : ℚ) (st : MPMScheduler)
    (b : Index3D) :
    (levelset.inside (query_position st b) = true →
      LevelSet3D_INF ≤ levelset.sample (query_position st b) t →
      cfl_argument levelset t st b = cfl_bound st b) ∧
    (levelset.inside (query_position st b) = false → 0 ≤ st.grid_block_size →
      cfl_argument levelset t st b = min (cfl_bound st b) (boundary_bound st b (1 / 2))) := by
  constructor
  · intro hin hfar
    have hl : last_distance levelset t st b = levelset.sample (query_position st b) t := by
      unfold last_distance
      rw [if_pos hin]
    unfold cfl_argument
    rw [hl, if_neg (not_lt.mpr hfar)]
  · intro hout hg
    have hl : last_distance levelset t st b = 0 := by
      unfold last_distance
      rw [if_neg (by rw [hout]; decide)]
    unfold cfl_argument
    rw [hl, if_pos (by unfold LevelSet3D_INF; norm_num), boundary_margin_zero st hg]

/-! ## Statements about the CFL limit and the boundary -/

/-- C21, counterexample.  One particle at the origin with the velocity `(2, 0, 0)`,
`grid_block_size = 4`, `base_delta_t = 0.01f`, `cfl = 1`, and a level set whose domain is empty:
the query position of the block is outside the domain, but `max_dt_int_cfl` of the block is 16,
while the clamped CFL value is `int64(1 / 1e-7f / 0.01f) = 1000000000` and `get_largest_pot` of
it alone is `2^29`.  Outside the domain the code takes the distance 0, so the boundary bound
`int64(1 * 0.5 / 2 / 0.01f) = 25` applies. -/
theorem outside_domain_boundary_applies :
    empty_levelset.inside (query_position
      (update_dt_limits empty_levelset (single_particle heap_origin) 0) ⟨0, 0, 0⟩) = false ∧
    cfl_bound (update_dt_limits empty_levelset (single_particle heap_origin) 0) ⟨0, 0, 0⟩ =
      1000000000 ∧
    boundary_bound (update_dt_limits empty_levelset (single_particle heap_origin) 0) ⟨0, 0, 0⟩
      (1 / 2) = 25 ∧
    (update_dt_limits empty_levelset (single_particle heap_origin) 0).max_dt_int_cfl ⟨0, 0, 0⟩ =
      16 ∧
    get_largest_pot
      (cfl_bound (update_dt_limits empty_levelset (single_particle heap_origin) 0) ⟨0, 0, 0⟩) =
      536870912 ∧
    (update_dt_limits empty_levelset (single_particle heap_origin) 0).max_dt_int_cfl ⟨0, 0, 0⟩ ≠
      get_largest_pot
        (cfl_bound (update_dt_limits empty_levelset (single_particle heap_origin) 0)
          ⟨0, 0, 0⟩) := by
  obtain ⟨_, _, _, _, _, hg, hc⟩ := single_particle_limits empty_levelset 0 heap_origin 2 rfl rfl
    heap_origin_bounds.1 heap_origin_bounds.2
  obtain ⟨hb, hbd⟩ := single_particle_cfl_bound empty_levelset 0 heap_origin 2 rfl rfl
    heap_origin_bounds.1 heap_origin_bounds.2
  have h25 : boundary_bound (update_dt_limits empty_levelset (single_particle heap_origin) 0)
      ⟨0, 0, 0⟩ (1 / 2) = 25 := by
    rw [hbd, boundary_steps_single.2.1]
  have harg : cfl_argument empty_levelset 0
      (update_dt_limits empty_levelset (single_particle heap_origin) 0) ⟨0, 0, 0⟩ = 25 := by
    rw [(cfl_argument_cases empty_levelset 0 _ ⟨0, 0, 0⟩).2 rfl (by rw [hg]; decide), hb, h25]
    decide
  have h16 : (update_dt_limits empty_levelset (single_particle heap_origin) 0).max_dt_int_cfl
      ⟨0, 0, 0⟩ = 16 := by
    rw [hc, harg]
    exact get_largest_pot_eq 25 4 (by norm_num) (by norm_num)
  have hpot : get_largest_pot (cfl_bound
      (update_dt_limits empty_levelset (single_particle heap_origin) 0) ⟨0, 0, 0⟩) =
      536870912 := by
    rw [hb]
    exact get_largest_pot_eq 1000000000 29 (by norm_num) (by norm_num)
  refine ⟨rfl, hb, h25, h16, hpot, ?_⟩
  rw [h16, hpot]
  decide

/-- C21, as amended.  In `update_dt_limits`, for a block of the lattice that the second loop does
not skip: when the query position is inside the domain of the level set and the sampled distance
is not below `LevelSet3D::INF`, no boundary constraint applies and `max_dt_int_cfl` is
`get_largest_pot` of the clamped CFL value `int64(cfl / block_vel / base_delta_t)` alone; when
the query position is outside the domain, the distance is taken to be 0, the margin is 0.5 (for a
non-negative block size), and `max_dt_int_cfl` is `get_largest_pot` of the smaller of the clamped
CFL value and the boundary bound `int64(cfl * 0.5 / block_absolute_vel / base_delta_t)`, when
that bound is at least 1.  The products and quotients are those of float arithmetic. -/
theorem update_dt_limits_boundary_cases (levelset : DynamicLevelSet3D) (s : MPMScheduler) (t : ℚ)
    (b : Index3D) (hb : inside s.res b = true)
    (hns : ¬ block_vel (update_dt_limits levelset s t) b < 0) :
    (levelset.inside (query_position (update_dt_limits levelset s t) b) = true →
      LevelSet3D_INF ≤ levelset.sample (query_position (update_dt_limits levelset s t) b) t →
      (update_dt_limits levelset s t).max_dt_int_cfl b =
        get_largest_pot (cfl_bound (update_dt_limits levelset s t) b)) ∧
    (levelset.inside (query_position (update_dt_limits levelset s t) b) = false →
      0 ≤ s.grid_block_size →
      1 ≤ boundary_bound (update_dt_limits levelset s t) b (1 / 2) →
      (update_dt_limits levelset s t).max_dt_int_cfl b =
        get_largest_pot (min (cfl_bound (update_dt_limits levelset s t) b)
          (boundary_bound (update_dt_limits levelset s t) b (1 / 2)))) := by
  obtain ⟨fr, _, _⟩ := update_dt_limits_eq levelset s t
  obtain ⟨_, _, h3, _⟩ := update_dt_limits_cfl_eq levelset s t
  have hval : (update_dt_limits levelset s t).max_dt_int_cfl b =
      get_largest_pot (cfl_argument levelset t (update_dt_limits levelset s t) b) := by
    rw [h3 b, if_pos ⟨hb, hns⟩]
  obtain ⟨c1, c2⟩ := cfl_argument_cases levelset t (update_dt_limits levelset s t) b
  constructor
  · intro hin hfar
    rw [hval, c1 hin hfar]
  · intro hout hg _
    rw [hval, c2 hout (by rw [fr.2.2.2.2.2.2.2.2.2.2.2.1]; exact hg)]


/-- C21, witness: the single block of the scheduler with one particle at the origin, once with a
level set that reports `LevelSet3D::INF` everywhere and once with a level set whose domain is
empty. -/
theorem update_dt_limits_boundary_cases_witness :
    inside (single_particle heap_origin).res ⟨0, 0, 0⟩ = true ∧
    ¬ block_vel (update_dt_limits far_levelset (single_particle heap_origin) 0) ⟨0, 0, 0⟩ < 0 ∧
    ¬ block_vel (update_dt_limits empty_levelset (single_particle heap_origin) 0) ⟨0, 0, 0⟩ < 0 ∧
    0 ≤ (single_particle heap_origin).grid_block_size ∧
    1 ≤ boundary_bound (update_dt_limits empty_levelset (single_particle heap_origin) 0)
      ⟨0, 0, 0⟩ (1 / 2) ∧
    (update_dt_limits far_levelset (single_particle heap_origin) 0).max_dt_int_cfl ⟨0, 0, 0⟩ =
      get_largest_pot
        (cfl_bound (update_dt_limits far_levelset (single_particle heap_origin) 0) ⟨0, 0, 0⟩) ∧
    (update_dt_limits empty_levelset (single_particle heap_origin) 0).max_dt_int_cfl ⟨0, 0, 0⟩ =
      get_largest_pot (min
        (cfl_bound (update_dt_limits empty_levelset (single_particle heap_origin) 0) ⟨0, 0, 0⟩)
        (boundary_bound (update_dt_limits empty_levelset (single_particle heap_origin) 0)
          ⟨0, 0, 0⟩ (1 / 2))) :=
  have hin : inside (single_particle heap_origin).res ⟨0, 0, 0⟩ = true := by
    rw [(single_particle_state heap_origin rfl).1]
    rfl
  have hg : 0 ≤ (single_particle heap_origin).grid_block_size := by
    rw [(single_particle_state heap_origin rfl).2.2.2.2.1]
    decide
  have hpos : 0 ≤ FLT_1e_7 := le_of_lt flt_pos.1
  have hfar : ¬ block_vel (update_dt_limits far_levelset (single_particle heap_origin) 0)
      ⟨0, 0, 0⟩ < 0 := by
    rw [(single_particle_limits far_levelset 0 heap_origin 2 rfl rfl
      heap_origin_bounds.1 heap_origin_bounds.2).1]
    exact not_lt.mpr hpos
  have hemp : ¬ block_vel (update_dt_limits empty_levelset (single_particle heap_origin) 0)
      ⟨0, 0, 0⟩ < 0 := by
    rw [(single_particle_limits empty_levelset 0 heap_origin 2 rfl rfl
      heap_origin_bounds.1 heap_origin_bounds.2).1]
    exact not_lt.mpr hpos
  have hbd : 1 ≤ boundary_bound (update_dt_limits empty_levelset (single_particle heap_origin) 0)
      ⟨0, 0, 0⟩ (1 / 2) := by
    rw [(single_particle_cfl_bound empty_levelset 0 heap_origin 2 rfl rfl
      heap_origin_bounds.1 heap_origin_bounds.2).2, boundary_steps_single.2.1]
    decide
  ⟨hin, hfar, hemp, hg, hbd,
    (update_dt_limits_boundary_cases far_levelset (single_particle heap_origin) 0 ⟨0, 0, 0⟩ hin
      hfar).1 rfl (le_refl _),
    (update_dt_limits_boundary_cases empty_levelset (single_particle heap_origin) 0 ⟨0, 0, 0⟩ hin
      hemp).2 rfl hg hbd⟩

/-- C22.  One particle at the origin with the velocity `(100, 0, 0)`, `grid_block_size = 4`,
`base_delta_t = 0.01f`, `cfl = 1`, and a level set that reports the distance 1: the block is not
skipped, the clamped CFL bound is `int64(1 / 1e-7f / 0.01f) = 1000000000`, the margin is
`max(1 - 3, 0.5) = 0.5`, and the boundary bound `int64(1 * 0.5 / 100 / 0.01f) = int64(0.5)` is 0:
it is not clamped, so the value passed to `get_largest_pot` is 0. -/
theorem boundary_limit_not_clamped :
    ¬ block_vel (update_dt_limits near_levelset (single_particle heap_fast) 0) ⟨0, 0, 0⟩ < 0 ∧
    last_distance near_levelset 0
      (update_dt_limits near_levelset (single_particle heap_fast) 0) ⟨0, 0, 0⟩ = 1 ∧
    cfl_bound (update_dt_limits near_levelset (single_particle heap_fast) 0) ⟨0, 0, 0⟩ =
      1000000000 ∧
    boundary_margin (update_dt_limits near_levelset (single_particle heap_fast) 0) 1 = 1 / 2 ∧
    boundary_bound (update_dt_limits near_levelset (single_particle heap_fast) 0) ⟨0, 0, 0⟩
      (1 / 2) = 0 ∧
    cfl_argument near_levelset 0
      (update_dt_limits near_levelset (single_particle heap_fast) 0) ⟨0, 0, 0⟩ = 0 ∧
    (update_dt_limits near_levelset (single_particle heap_fast) 0).max_dt_int_cfl ⟨0, 0, 0⟩ =
      get_largest_pot 0 := by
  obtain ⟨hbv, _, _, _, _, hg, hc⟩ := single_particle_limits near_levelset 0 heap_fast 100 rfl rfl
    heap_fast_bounds.1 heap_fast_bounds.2
  obtain ⟨hb, hbd⟩ := single_particle_cfl_bound near_levelset 0 heap_fast 100 rfl rfl
    heap_fast_bounds.1 heap_fast_bounds.2
  have hl : last_distance near_levelset 0
      (update_dt_limits near_levelset (single_particle heap_fast) 0) ⟨0, 0, 0⟩ = 1 := rfl
  have hm : boundary_margin (update_dt_limits near_levelset (single_particle heap_fast) 0) 1 =
      1 / 2 := by
    unfold boundary_margin
    rw [hg]
    exact margin_near
  have hzero : boundary_bound (update_dt_limits near_levelset (single_particle heap_fast) 0)
      ⟨0, 0, 0⟩ (1 / 2) = 0 := by
    rw [hbd, boundary_steps_single.2.2.2]
  have harg : cfl_argument near_levelset 0
      (update_dt_limits near_levelset (single_particle heap_fast) 0) ⟨0, 0, 0⟩ = 0 := by
    unfold cfl_argument
    rw [hl, if_pos (by unfold LevelSet3D_INF; norm_num), hm, hb, hzero]
    decide
  refine ⟨?_, hl, hb, hm, hzero, harg, ?_⟩
  · rw [hbv]
    exact not_lt.mpr (le_of_lt flt_pos.1)
  · rw [hc, harg]


/-- C23, counterexample.  One particle at the origin with the velocity `(2, 0, 0)`,
`grid_block_size = 4`, `base_delta_t = 0.01f`, `cfl = 1`, and a level set that reports
`LevelSet3D::INF`, so that no boundary constraint applies: the velocity extent of the block is the
range of the velocities of its particles plus `1e-7f`, which is `1e-7f` for a single particle, the
clamped CFL value is `int64(1 / 1e-7f / 0.01f) = 1000000000`, and `max_dt_int_cfl` is `2^29`,
which exceeds `get_largest_pot(50) = 32`. -/
theorem single_particle_cfl_exceeds_32 :
    initialize_scheduler heap_origin ⟨4, 4, 4⟩ FLT_0_01 1 1 0 4 =
      some (cube_scheduler heap_origin) ∧
    single_particle heap_origin = insert_particle (cube_scheduler heap_origin) 0 true ∧
    ¬ last_distance far_levelset 0
      (update_dt_limits far_levelset (single_particle heap_origin) 0) ⟨0, 0, 0⟩ <
        LevelSet3D_INF ∧
    block_vel (update_dt_limits far_levelset (single_particle heap_origin) 0) ⟨0, 0, 0⟩ =
      FLT_1e_7 ∧
    cfl_bound (update_dt_limits far_levelset (single_particle heap_origin) 0) ⟨0, 0, 0⟩ =
      1000000000 ∧
    (update_dt_limits far_levelset (single_particle heap_origin) 0).max_dt_int_cfl ⟨0, 0, 0⟩ =
      536870912 ∧
    get_largest_pot 50 = 32 ∧
    ¬ (update_dt_limits far_levelset (single_particle heap_origin) 0).max_dt_int_cfl ⟨0, 0, 0⟩ ≤
      get_largest_pot 50 := by
  have h50 : get_largest_pot 50 = 32 := get_largest_pot_eq 50 5 (by norm_num) (by norm_num)
  have hb := (single_particle_cfl_bound far_levelset 0 heap_origin 2 rfl rfl heap_origin_bounds.1
    heap_origin_bounds.2).1
  have hval : (update_dt_limits far_levelset (single_particle heap_origin) 0).max_dt_int_cfl
      ⟨0, 0, 0⟩ = 536870912 := by
    rw [(single_particle_limits far_levelset 0 heap_origin 2 rfl rfl heap_origin_bounds.1
        heap_origin_bounds.2).2.2.2.2.2.2,
      (cfl_argument_cases far_levelset 0 _ ⟨0, 0, 0⟩).1 rfl (le_refl _), hb]
    exact get_largest_pot_eq 1000000000 29 (by norm_num) (by norm_num)
  refine ⟨cube_scheduler_initialized heap_origin, rfl, ?_, ?_, hb, hval, h50, ?_⟩
  · exact not_lt.mpr (le_refl _)
  · exact (single_particle_limits far_levelset 0 heap_origin 2 rfl rfl heap_origin_bounds.1
      heap_origin_bounds.2).1
  · rw [hval, h50]
    decide

/-- C23, as amended.  With a single particle at the origin with the velocity `(2, 0, 0)`,
`grid_block_size = 4`, `base_delta_t = 0.01f` and `cfl = 1`, the velocity extent of the block of
the particle is `1e-7f`, the clamped CFL value is `int64(1 / 1e-7f / 0.01f) = 1000000000`, and
the boundary bound for the margin 0.5 is `int64(1 * 0.5 / 2 / 0.01f) = 25`.  With a level set
that reports a distance that is not below `LevelSet3D::INF` at the query position `(2, 2, 2)` (no
boundary constraint), `max_dt_int_cfl` of the block is `get_largest_pot(1000000000) = 2^29`, a
power of two.  With a level set whose domain does not contain the query position the boundary
bound applies and `max_dt_int_cfl` is `get_largest_pot(25) = 16`, a power of two that is at most
`get_largest_pot(50) = 32`. -/
theorem single_particle_cfl_limit (levelset : DynamicLevelSet3D) (t : ℚ) :
    block_vel (update_dt_limits levelset (single_particle heap_origin) t) ⟨0, 0, 0⟩ = FLT_1e_7 ∧
    cfl_bound (update_dt_limits levelset (single_particle heap_origin) t) ⟨0, 0, 0⟩ =
      1000000000 ∧
    boundary_bound (update_dt_limits levelset (single_particle heap_origin) t) ⟨0, 0, 0⟩
      (1 / 2) = 25 ∧
    get_largest_pot 1000000000 = 2 ^ 29 ∧ get_largest_pot 25 = 16 ∧ get_largest_pot 50 = 32 ∧
    (levelset.inside ⟨2, 2, 2⟩ = true → LevelSet3D_INF ≤ levelset.sample ⟨2, 2, 2⟩ t →
      (update_dt_limits levelset (single_particle heap_origin) t).max_dt_int_cfl ⟨0, 0, 0⟩ =
        2 ^ 29 ∧
      is_pot ((update_dt_limits levelset (single_particle heap_origin) t).max_dt_int_cfl
        ⟨0, 0, 0⟩)) ∧
    (levelset.inside ⟨2, 2, 2⟩ = false →
      (update_dt_limits levelset (single_particle heap_origin) t).max_dt_int_cfl ⟨0, 0, 0⟩ = 16 ∧
      is_pot ((update_dt_limits levelset (single_particle heap_origin) t).max_dt_int_cfl
        ⟨0, 0, 0⟩) ∧
      (update_dt_limits levelset (single_particle heap_origin) t).max_dt_int_cfl ⟨0, 0, 0⟩ ≤
        get_largest_pot 50) := by
  obtain ⟨hbv, _, hq, _, _, hg, hc⟩ := single_particle_limits levelset t heap_origin 2 rfl rfl
    heap_origin_bounds.1 heap_origin_bounds.2
  obtain ⟨hb, hbd⟩ := single_particle_cfl_bound levelset t heap_origin 2 rfl rfl
    heap_origin_bounds.1 heap_origin_bounds.2
  obtain ⟨c1, c2⟩ := cfl_argument_cases levelset t
    (update_dt_limits levelset (single_particle heap_origin) t) ⟨0, 0, 0⟩
  rw [hq] at c1 c2
  have h25 : boundary_bound (update_dt_limits levelset (single_particle heap_origin) t)
      ⟨0, 0, 0⟩ (1 / 2) = 25 := by
    rw [hbd, boundary_steps_single.2.1]
  have p29 : get_largest_pot 1000000000 = 2 ^ 29 :=
    get_largest_pot_eq 1000000000 29 (by norm_num) (by norm_num)
  have p4 : get_largest_pot 25 = 16 := get_largest_pot_eq 25 4 (by norm_num) (by norm_num)
  have p5 : get_largest_pot 50 = 32 := get_largest_pot_eq 50 5 (by norm_num) (by norm_num)
  refine ⟨hbv, hb, h25, p29, p4, p5, ?_, ?_⟩
  · intro hin hfar
    have h29 : (update_dt_limits levelset (single_particle heap_origin) t).max_dt_int_cfl
        ⟨0, 0, 0⟩ = 2 ^ 29 := by
      rw [hc, c1 hin hfar, hb, p29]
    exact ⟨h29, ⟨29, h29⟩⟩
  · intro hout
    have h16 : (update_dt_limits levelset (single_particle heap_origin) t).max_dt_int_cfl
        ⟨0, 0, 0⟩ = 16 := by
      have hmin : min (1000000000 : Int) 25 = 25 := by decide
      rw [hc, c2 hout (by rw [hg]; decide), hb, h25, hmin, p4]
    refine ⟨h16, ⟨4, h16⟩, ?_⟩
    rw [h16, p5]
    decide

/-- C23, witness: a level set that reports `LevelSet3D::INF` everywhere, and a level set whose
domain is empty. -/
theorem single_particle_cfl_limit_witness :
    far_levelset.inside ⟨2, 2, 2⟩ = true ∧
    LevelSet3D_INF ≤ far_levelset.sample ⟨2, 2, 2⟩ 0 ∧
    empty_levelset.inside ⟨2, 2, 2⟩ = false ∧
    (update_dt_limits far_levelset (single_particle heap_origin) 0).max_dt_int_cfl ⟨0, 0, 0⟩ =
      2 ^ 29 ∧
    (update_dt_limits empty_levelset (single_particle heap_origin) 0).max_dt_int_cfl ⟨0, 0, 0⟩ =
      16 :=
  ⟨rfl, le_refl _, rfl,
    ((single_particle_cfl_limit far_levelset 0).2.2.2.2.2.2.1 rfl (le_refl _)).1,
    ((single_particle_cfl_limit empty_levelset 0).2.2.2.2.2.2.2 rfl).1⟩


/-! ## Conservation of the particles under a rebuild of the buckets -/

/-- What a successful `update()` leaves in the members that the rebuild of the buckets reads. -/
theorem update_of_some (s s1 : MPMScheduler) (h : update s = some s1) :
    s1.active_particles = collect_active_particles s ∧ s1.states = s.states ∧
    s1.res = s.res ∧ s1.particle_groups = s.particle_groups ∧
    s1.grid_block_size = s.grid_block_size := by
  unfold update at h
  split at h
  · exact absurd h (by simp)
  · injection h with h
    rw [← h, update_particle_states_eq]
    exact ⟨rfl, rfl, rfl, rfl, rfl⟩

theorem lands_in_iff (s : MPMScheduler) (n : Int) (p : ParticlePtr) :
    lands_in s n p = true ↔
      inside s.res (get_rough_pos s p) = true ∧
      n = bucket_index s.res (get_rough_pos s p).i (get_rough_pos s p).j (get_rough_pos s p).k := by
  simp only [lands_in, Bool.and_eq_true, decide_eq_true_eq]

/-- When every bucketed particle lies in the bucket of its block coordinate, a particle of the
bucket of a block of the lattice has that block as its block coordinate. -/
theorem bucket_block (s : MPMScheduler)
    (h1 : ∀ n p, p ∈ s.particle_groups n → lands_in s n p = true) (a : Index3D)
    (ha : inside s.res a = true) (p : ParticlePtr) (hp : p ∈ bucket s a) :
    get_rough_pos s p = a := by
  obtain ⟨hin, hidx⟩ := (lands_in_iff s _ p).mp (h1 _ p hp)
  exact (bucket_index_injective s.res a _ ha hin hidx).symm

/-- The active particles that `update()` collects are distinct when every bucketed particle lies
in the bucket of its block coordinate and no bucket holds a particle twice. -/
theorem active_particles_nodup (s : MPMScheduler)
    (h1 : ∀ n p, p ∈ s.particle_groups n → lands_in s n p = true)
    (hnd : ∀ n, (s.particle_groups n).Nodup) : (collect_active_particles s).Nodup := by
  rw [collect_active_particles_eq, List.nodup_flatMap]
  constructor
  · intro b _
    exact hnd _
  · apply List.Nodup.pairwise_of_forall_ne ((nodup_get_region s.res).filter _)
    intro a ha b hb hab
    have ha' : inside s.res a = true := (mem_get_region _ _).mp (List.mem_of_mem_filter ha)
    have hb' : inside s.res b = true := (mem_get_region _ _).mp (List.mem_of_mem_filter hb)
    show List.Disjoint (bucket s a) (bucket s b)
    rw [List.disjoint_left]
    intro p hpa hpb
    exact hab ((bucket_block s h1 a ha' p hpa).symm.trans (bucket_block s h1 b hb' p hpb))

/-- The blocks whose buckets hold the active particles. -/
theorem mem_collect_active_particles (s : MPMScheduler) (p : ParticlePtr) :
    p ∈ collect_active_particles s ↔
      ∃ b, inside s.res b = true ∧ s.states b ≠ 0 ∧ p ∈ bucket s b := by
  rw [collect_active_particles_eq]
  simp only [List.mem_flatMap, List.mem_filter, mem_get_region, decide_eq_true_eq]
  constructor
  · rintro ⟨b, ⟨hb, hs⟩, hp⟩
    exact ⟨b, hb, hs, hp⟩
  · rintro ⟨b, hb, hs, hp⟩
    exact ⟨b, ⟨hb, hs⟩, hp⟩


/-- An active particle is in no bucket that the rebuild keeps: its bucket is that of a block with
a non-zero state, which is emptied. -/
theorem active_not_in_kept_bucket (s : MPMScheduler)
    (h1 : ∀ n p, p ∈ s.particle_groups n → lands_in s n p = true) (p : ParticlePtr)
    (hp : p ∈ collect_active_particles s) (n : Int) :
    p ∉ (if ∃ ind ∈ get_region s.res, s.states ind ≠ 0 ∧ bucket_index s.res ind.i ind.j ind.k = n
      then [] else s.particle_groups n) := by
  obtain ⟨a, ha, hs, hpa⟩ := (mem_collect_active_particles s p).mp hp
  split
  · exact List.not_mem_nil p
  · rename_i hno
    intro hpn
    apply hno
    refine ⟨a, (mem_get_region _ _).mpr ha, hs, ?_⟩
    obtain ⟨_, hidx⟩ := (lands_in_iff s n p).mp (h1 n p hpn)
    rw [hidx, bucket_block s h1 a ha p hpa]

theorem get_rough_pos_congr_pos (s s' : MPMScheduler)
    (h1 : ∀ q, (s'.heap q).pos = (s.heap q).pos)
    (h2 : s'.grid_block_size = s.grid_block_size) (q : ParticlePtr) :
    get_rough_pos s' q = get_rough_pos s q := by
  unfold get_rough_pos
  rw [h1, h2]

theorem get_rough_pos_coarse_line :
    get_rough_pos coarse_line 0 = ⟨0, 0, 0⟩ ∧ get_rough_pos coarse_line 1 = ⟨0, 0, 0⟩ ∧
    get_rough_pos coarse_line 2 = ⟨1, 0, 0⟩ := by
  have h0 : trunc_toward_zero (((0 : ℚ) + 1 / 2) / 2) = 0 := by
    rw [trunc_toward_zero, if_pos (by norm_num), Int.floor_eq_iff]
    constructor <;> norm_num
  have h1 : trunc_toward_zero (((1 : ℚ) + 1 / 2) / 2) = 0 := by
    rw [trunc_toward_zero, if_pos (by norm_num), Int.floor_eq_iff]
    constructor <;> norm_num
  have h2 : trunc_toward_zero (((2 : ℚ) + 1 / 2) / 2) = 1 := by
    rw [trunc_toward_zero, if_pos (by norm_num), Int.floor_eq_iff]
    constructor <;> norm_num
  have hy : trunc_toward_zero ((1 : ℚ) / 2 / 2) = 0 := by
    rw [trunc_toward_zero, if_pos (by norm_num), Int.floor_eq_iff]
    constructor <;> norm_num
  refine ⟨?_, ?_, ?_⟩ <;>
    simp only [get_rough_pos, coarse_line, initialize_fields, heap_line, real_to_int_eq,
      Nat.cast_zero, Nat.cast_one, Nat.cast_ofNat, Int.cast_ofNat, h0, h1, h2, hy]

/-- C29, counterexample.  A line of two blocks of size 2 in which the bucket of the updating
block 0 holds the particle 0 twice (the state that `insert_particle(p, true)` followed by
`update_particle_groups()` leaves for a block with state 0): every bucketed particle lies in the
bucket of its block coordinate and no particle is in two buckets, `update()` produces the active
particles, the particles do not move, and after `update_particle_groups()` the particle 0, whose
block coordinate is in bounds, is in its bucket twice. -/
theorem rebuild_keeps_duplicates :
    (∀ n p, p ∈ coarse_duplicate.particle_groups n → lands_in coarse_duplicate n p = true) ∧
    (∀ n m p, p ∈ coarse_duplicate.particle_groups n → p ∈ coarse_duplicate.particle_groups m →
      n = m) ∧
    ∃ s1, update coarse_duplicate = some s1 ∧ (0 : ParticlePtr) ∈ s1.active_particles ∧
      inside s1.res (get_rough_pos s1 0) = true ∧
      ((update_particle_groups s1).particle_groups
        (bucket_index s1.res (get_rough_pos s1 0).i (get_rough_pos s1 0).j
          (get_rough_pos s1 0).k)).count 0 = 2 := by
  have hpos : get_rough_pos coarse_duplicate 0 = ⟨0, 0, 0⟩ :=
    (get_rough_pos_congr coarse_line coarse_duplicate rfl rfl 0).trans
      get_rough_pos_coarse_line.1
  have hgrp : ∀ n p, p ∈ coarse_duplicate.particle_groups n → n = 0 ∧ p = 0 := by
    intro n p hp
    have hp' : p ∈ (if n = 0 then [0, 0] else ([] : List ParticlePtr)) := hp
    split at hp'
    · rename_i hn
      simp at hp'
      exact ⟨hn, hp'⟩
    · exact absurd hp' (List.not_mem_nil p)
  refine ⟨?_, ?_, ?_⟩
  · intro n p hp
    obtain ⟨rfl, rfl⟩ := hgrp n p hp
    rw [lands_in_iff, hpos]
    exact ⟨by decide, by decide⟩
  · intro n m p hn hm
    rw [(hgrp n p hn).1, (hgrp m p hm).1]
  · obtain ⟨s1, hup⟩ : ∃ s1, update coarse_duplicate = some s1 :=
      ⟨_, update_eq coarse_duplicate (by decide) (by decide)⟩
    obtain ⟨hact, hst, hres, hpg, hgbs⟩ := update_of_some coarse_duplicate s1 hup
    have hact' : s1.active_particles = [0, 0] := by
      rw [hact]
      decide
    have hheap : ∀ q, (s1.heap q).pos = (coarse_duplicate.heap q).pos := by
      intro q
      rw [update_eq coarse_duplicate (by decide) (by decide)] at hup
      injection hup with hup
      rw [← hup]
      show (if q ∈ collect_active_particles coarse_duplicate then tagged coarse_duplicate q
        else coarse_duplicate.heap q).pos = _
      split
      · exact (tagged_fields coarse_duplicate q).1
      · rfl
    have hpos1 : get_rough_pos s1 0 = ⟨0, 0, 0⟩ :=
      (get_rough_pos_congr_pos coarse_duplicate s1 hheap hgbs 0).trans hpos
    have hland : lands_in s1 0 0 = true := by
      rw [lands_in_iff, hpos1, hres]
      exact ⟨by decide, by decide⟩
    refine ⟨s1, hup, ?_, ?_, ?_⟩
    · rw [hact']
      decide
    · rw [hpos1, hres]
      decide
    · rw [hpos1, hres]
      have hidx : bucket_index coarse_duplicate.res 0 0 0 = 0 := by decide
      have hex : ∃ ind ∈ get_region s1.res, s1.states ind ≠ 0 ∧
          bucket_index s1.res ind.i ind.j ind.k = 0 := by
        rw [hres, hst]
        exact ⟨⟨0, 0, 0⟩, by decide, by decide, by decide⟩
      show ((update_particle_groups s1).particle_groups
        (bucket_index coarse_duplicate.res 0 0 0)).count 0 = 2
      rw [hidx, update_particle_groups_groups, if_pos hex, hact']
      simp [hland]

/-- C29, as amended.  If every bucketed particle lies in the bucket of its block coordinate (so
that no particle is in two buckets), no bucket holds a particle twice, and `active_particles` was
produced by `update()` with the block states unchanged since, then after the particles move
arbitrarily and `update_particle_groups()` runs, every formerly active particle whose new block
coordinate is in bounds is in the bucket of its new coordinate exactly once and in no other
bucket, every formerly active particle whose new block coordinate is out of bounds is in no
bucket, and every particle of a block of the lattice with state 0 is still in the bucket of that
block. -/
theorem rebuild_conserves_particles (s s1 : MPMScheduler) (heap' : ParticlePtr → MPMParticle)
    (h1 : ∀ n p, p ∈ s.particle_groups n → lands_in s n p = true)
    (hnd : ∀ n, (s.particle_groups n).Nodup)
    (hup : update s = some s1) :
    (∀ p ∈ s1.active_particles,
      inside s.res (get_rough_pos { s1 with heap := heap' } p) = true →
      ((update_particle_groups { s1 with heap := heap' }).particle_groups
        (bucket_index s.res (get_rough_pos { s1 with heap := heap' } p).i
          (get_rough_pos { s1 with heap := heap' } p).j
          (get_rough_pos { s1 with heap := heap' } p).k)).count p = 1 ∧
      ∀ n, n ≠ bucket_index s.res (get_rough_pos { s1 with heap := heap' } p).i
          (get_rough_pos { s1 with heap := heap' } p).j
          (get_rough_pos { s1 with heap := heap' } p).k →
        p ∉ (update_particle_groups { s1 with heap := heap' }).particle_groups n) ∧
    (∀ p ∈ s1.active_particles,
      inside s.res (get_rough_pos { s1 with heap := heap' } p) = false →
      ∀ n, p ∉ (update_particle_groups { s1 with heap := heap' }).particle_groups n) ∧
    (∀ b, inside s.res b = true → s.states b = 0 → ∀ p ∈ bucket s b,
      p ∈ bucket (update_particle_groups { s1 with heap := heap' }) b) := by
  obtain ⟨hact, hst, hres, hpg, _⟩ := update_of_some s s1 hup
  have hgroups : ∀ n, (update_particle_groups { s1 with heap := heap' }).particle_groups n =
      (if ∃ ind ∈ get_region s.res, s.states ind ≠ 0 ∧ bucket_index s.res ind.i ind.j ind.k = n
        then [] else s.particle_groups n) ++
      (collect_active_particles s).filter (lands_in { s1 with heap := heap' } n) := by
    intro n
    rw [update_particle_groups_groups]
    show (if ∃ ind ∈ get_region s1.res, s1.states ind ≠ 0 ∧
        bucket_index s1.res ind.i ind.j ind.k = n then [] else s1.particle_groups n) ++
      s1.active_particles.filter (lands_in { s1 with heap := heap' } n) = _
    rw [hres, hst, hpg, hact]
  have hnodup := active_particles_nodup s h1 hnd
  have hland : ∀ n p, lands_in { s1 with heap := heap' } n p = true ↔
      inside s.res (get_rough_pos { s1 with heap := heap' } p) = true ∧
      n = bucket_index s.res (get_rough_pos { s1 with heap := heap' } p).i
        (get_rough_pos { s1 with heap := heap' } p).j
        (get_rough_pos { s1 with heap := heap' } p).k := by
    intro n p
    rw [lands_in_iff]
    show inside s1.res _ = true ∧ n = bucket_index s1.res _ _ _ ↔ _
    rw [hres]
  refine ⟨?_, ?_, ?_⟩
  · intro p hp hin
    rw [hact] at hp
    constructor
    · rw [hgroups, List.count_append,
        List.count_eq_zero.mpr (active_not_in_kept_bucket s h1 p hp _), zero_add,
        List.count_filter ((hland _ p).mpr ⟨hin, rfl⟩)]
      exact List.count_eq_one_of_mem hnodup hp
    · intro n hn hmem
      rw [hgroups, List.mem_append] at hmem
      rcases hmem with hmem | hmem
      · exact active_not_in_kept_bucket s h1 p hp n hmem
      · exact hn ((hland n p).mp (List.mem_filter.mp hmem).2).2
  · intro p hp hout n hmem
    rw [hact] at hp
    rw [hgroups, List.mem_append] at hmem
    rcases hmem with hmem | hmem
    · exact active_not_in_kept_bucket s h1 p hp n hmem
    · have := ((hland n p).mp (List.mem_filter.mp hmem).2).1
      rw [hout] at this
      exact absurd this (by decide)
  · intro b hb h0 p hp
    have hr : (update_particle_groups { s1 with heap := heap' }).res = s.res :=
      (update_particle_groups_frame { s1 with heap := heap' }).2.1.trans hres
    unfold bucket
    rw [hr, hgroups, List.mem_append]
    left
    rw [if_neg]
    · exact hp
    · rintro ⟨ind, hind, hs, hidx⟩
      have : ind = b :=
        bucket_index_injective s.res ind b ((mem_get_region _ _).mp hind) hb hidx
      rw [this] at hs
      exact hs h0


/-- C29, witness: the line of two blocks of size 2 with the particles 0 and 1 in the updating
block 0 and the particle 2 in the buffer block 1; the particle 2 stays in block 1 and is in the
bucket of that block exactly once after the rebuild. -/
theorem rebuild_conserves_particles_witness :
    (∀ n p, p ∈ coarse_line.particle_groups n → lands_in coarse_line n p = true) ∧
    (∀ n, (coarse_line.particle_groups n).Nodup) ∧
    ∃ s1, update coarse_line = some s1 ∧ (2 : ParticlePtr) ∈ s1.active_particles ∧
      inside coarse_line.res (get_rough_pos { s1 with heap := heap_line } 2) = true ∧
      ((update_particle_groups { s1 with heap := heap_line }).particle_groups
        (bucket_index coarse_line.res (get_rough_pos { s1 with heap := heap_line } 2).i
          (get_rough_pos { s1 with heap := heap_line } 2).j
          (get_rough_pos { s1 with heap := heap_line } 2).k)).count 2 = 1 := by
  obtain ⟨p0, p1, p2⟩ := get_rough_pos_coarse_line
  have hgrp : ∀ n p, p ∈ coarse_line.particle_groups n →
      (n = 0 ∧ (p = 0 ∨ p = 1)) ∨ (n = 1 ∧ p = 2) := by
    intro n p hp
    have hp' : p ∈ (if n = 0 then [0, 1] else if n = 1 then [2]
      else ([] : List ParticlePtr)) := hp
    split at hp'
    · rename_i hn
      simp at hp'
      exact Or.inl ⟨hn, hp'⟩
    · split at hp'
      · rename_i hn
        exact Or.inr ⟨hn, List.mem_singleton.mp hp'⟩
      · exact absurd hp' (List.not_mem_nil p)
  have h1 : ∀ n p, p ∈ coarse_line.particle_groups n → lands_in coarse_line n p = true := by
    intro n p hp
    rw [lands_in_iff]
    rcases hgrp n p hp with ⟨rfl, rfl | rfl⟩ | ⟨rfl, rfl⟩
    · rw [p0]; exact ⟨by decide, by decide⟩
    · rw [p1]; exact ⟨by decide, by decide⟩
    · rw [p2]; exact ⟨by decide, by decide⟩
  have hnd : ∀ n, (coarse_line.particle_groups n).Nodup := by
    intro n
    show (if n = 0 then [0, 1] else if n = 1 then [2] else ([] : List ParticlePtr)).Nodup
    split
    · decide
    · split
      · exact List.nodup_singleton _
      · exact List.nodup_nil
  obtain ⟨s1, hup⟩ : ∃ s1, update coarse_line = some s1 :=
    ⟨_, update_eq coarse_line (by decide) (by decide)⟩
  obtain ⟨hact, _, _, _, hgbs⟩ := update_of_some coarse_line s1 hup
  have hmem : (2 : ParticlePtr) ∈ s1.active_particles := by
    rw [hact]
    decide
  have hpos1 : get_rough_pos { s1 with heap := heap_line } 2 = ⟨1, 0, 0⟩ :=
    (get_rough_pos_congr coarse_line { s1 with heap := heap_line } rfl hgbs 2).trans p2
  have hin : inside coarse_line.res (get_rough_pos { s1 with heap := heap_line } 2) = true := by
    rw [hpos1]
    decide
  exact ⟨h1, hnd, s1, hup, hmem, hin,
    ((rebuild_conserves_particles coarse_line s1 heap_line h1 hnd hup).1 2 hmem hin).1⟩


/-! ## Statements about the expanded extrema without velocity expansion and the bucket index -/

/-- Without velocity expansion the lambda of `expand` does not touch the velocity arrays. -/
theorem expand_update_no_vel (es : Bool) (minv maxv : Array3 Vector3) (states : Array3 Int)
    (a : ExpandAcc) (ind : Index3D) (dx dy dz : Int) :
    (expand_update false es minv maxv states a ind dx dy dz).new_min_vel = a.new_min_vel ∧
    (expand_update false es minv maxv states a ind dx dy dz).new_max_vel = a.new_max_vel := by
  cases es <;> by_cases hs : states ind = 0 <;> simp [expand_update, hs]

theorem expand_block_no_vel (res : Vector3i) (es : Bool) (minv maxv : Array3 Vector3)
    (states : Array3 Int) (acc : ExpandAcc) (ind : Index3D) :
    (expand_block res false es minv maxv states acc ind).new_min_vel = acc.new_min_vel ∧
    (expand_block res false es minv maxv states acc ind).new_max_vel = acc.new_max_vel := by
  unfold expand_block
  apply foldl_keeps (fun a : ExpandAcc =>
    a.new_min_vel = acc.new_min_vel ∧ a.new_max_vel = acc.new_max_vel)
  · intro a d ha
    dsimp only
    split
    · obtain ⟨h1, h2⟩ := expand_update_no_vel es minv maxv states a ind d.1 d.2.1 d.2.2
      exact ⟨h1.trans ha.1, h2.trans ha.2⟩
    · exact ha
  · exact ⟨rfl, rfl⟩

/-- C33.  `expand` overwrites the expanded velocity arrays also when `expand_vel` is false: after
`expand(false, _)` every entry of `min_vel_expanded` is `(1e30, 1e30, 1e30)` and every entry of
`max_vel_expanded` is `(-1e30, -1e30, -1e30)`, whatever the arrays held before; in particular the
expanded extrema that `update_dt_limits` computed are gone after a later `expand(false, _)`. -/
theorem expand_without_vel_resets_extrema (s : MPMScheduler) (expand_state : Bool) :
    (∀ b, (expand s false expand_state).min_vel_expanded b = ⟨FLT_1e30, FLT_1e30, FLT_1e30⟩ ∧
      (expand s false expand_state).max_vel_expanded b =
        ⟨-FLT_1e30, -FLT_1e30, -FLT_1e30⟩) ∧
    (∀ (levelset : DynamicLevelSet3D) (t : ℚ) (b : Index3D),
      (expand (update_dt_limits levelset s t) false expand_state).min_vel_expanded b =
        ⟨FLT_1e30, FLT_1e30, FLT_1e30⟩ ∧
      (expand (update_dt_limits levelset s t) false expand_state).max_vel_expanded b =
        ⟨-FLT_1e30, -FLT_1e30, -FLT_1e30⟩) := by
  have key : ∀ (st : MPMScheduler) (b : Index3D),
      (expand st false expand_state).min_vel_expanded b = ⟨FLT_1e30, FLT_1e30, FLT_1e30⟩ ∧
      (expand st false expand_state).max_vel_expanded b =
        ⟨-FLT_1e30, -FLT_1e30, -FLT_1e30⟩ := by
    intro st b
    have hfold : ∀ (l : List Index3D) (acc : ExpandAcc),
        (l.foldl (expand_block st.res false expand_state st.min_vel st.max_vel st.states)
          acc).new_min_vel = acc.new_min_vel ∧
        (l.foldl (expand_block st.res false expand_state st.min_vel st.max_vel st.states)
          acc).new_max_vel = acc.new_max_vel := by
      intro l acc
      apply foldl_keeps (fun a : ExpandAcc =>
        a.new_min_vel = acc.new_min_vel ∧ a.new_max_vel = acc.new_max_vel)
      · intro a ind ha
        obtain ⟨h1, h2⟩ := expand_block_no_vel st.res expand_state st.min_vel st.max_vel
          st.states a ind
        exact ⟨h1.trans ha.1, h2.trans ha.2⟩
      · exact ⟨rfl, rfl⟩
    obtain ⟨h1, h2⟩ := hfold (get_region st.res)
      { new_min_vel := fun _ => ⟨FLT_1e30, FLT_1e30, FLT_1e30⟩
        new_max_vel := fun _ => ⟨-FLT_1e30, -FLT_1e30, -FLT_1e30⟩
        new_states := fun _ => 0 }
    constructor
    · refine Eq.trans ?_ (congrFun h1 b)
      cases expand_state <;> rfl
    · refine Eq.trans ?_ (congrFun h2 b)
      cases expand_state <;> rfl
  exact ⟨fun b => key s b, fun levelset t b => key (update_dt_limits levelset s t) b⟩


/-- The bucket index of a block of the lattice is a valid index into the buckets. -/
theorem bucket_index_range (res : Vector3i) (a : Index3D) (ha : inside res a = true) :
    0 ≤ bucket_index res a.i a.j a.k ∧ bucket_index res a.i a.j a.k < bucket_count res := by
  obtain ⟨⟨hi0, hi1⟩, ⟨hj0, hj1⟩, ⟨hk0, hk1⟩⟩ := (inside_iff res a).mp ha
  unfold bucket_index bucket_count
  have hz : 0 < res.z := lt_of_le_of_lt hk0 hk1
  have hy : 0 < res.y := lt_of_le_of_lt hj0 hj1
  have hzy : 0 < res.z * res.y := mul_pos hz hy
  have h1 : 0 ≤ res.z * res.y * a.i := mul_nonneg (le_of_lt hzy) hi0
  have h2 : 0 ≤ res.z * a.j := mul_nonneg (le_of_lt hz) hj0
  have h3 : res.z * res.y * a.i ≤ res.z * res.y * (res.x - 1) :=
    mul_le_mul_of_nonneg_left (by omega) (le_of_lt hzy)
  have h4 : res.z * a.j ≤ res.z * (res.y - 1) :=
    mul_le_mul_of_nonneg_left (by omega) (le_of_lt hz)
  constructor
  · omega
  · have e : res.x * res.y * res.z =
        res.z * res.y * (res.x - 1) + res.z * (res.y - 1) + res.z := by ring
    rw [e]
    omega

/-- C34.  The bucket index `res.z * res.y * x + res.z * y + z` (which `has_particle` writes as
`x * res.y * res.z + y * res.z + z`) is injective on the blocks of the lattice, and for a block of
the lattice it lies in `[0, res.x * res.y * res.z)`, the number of buckets that `initialize`
allocates: distinct blocks never share a bucket, and the bucket that `insert_particle` appends to
and the bucket that `has_particle` reads are in range. -/
theorem bucket_index_in_range_injective (s : MPMScheduler) (a b : Index3D)
    (ha : inside s.res a = true) (hb : inside s.res b = true) :
    (bucket_index s.res a.i a.j a.k = bucket_index s.res b.i b.j b.k → a = b) ∧
    (a ≠ b → bucket_index s.res a.i a.j a.k ≠ bucket_index s.res b.i b.j b.k) ∧
    0 ≤ bucket_index s.res a.i a.j a.k ∧
    bucket_index s.res a.i a.j a.k < bucket_count s.res ∧
    a.i * s.res.y * s.res.z + a.j * s.res.z + a.k = bucket_index s.res a.i a.j a.k ∧
    has_particle s a = decide (0 < (s.particle_groups (bucket_index s.res a.i a.j a.k)).length) ∧
    (∀ (p : ParticlePtr) (is_new_particle : Bool), get_rough_pos s p = a →
      (insert_particle s p is_new_particle).particle_groups (bucket_index s.res a.i a.j a.k) =
        s.particle_groups (bucket_index s.res a.i a.j a.k) ++ [p]) := by
  have hidx : a.i * s.res.y * s.res.z + a.j * s.res.z + a.k =
      bucket_index s.res a.i a.j a.k := by
    unfold bucket_index
    ring
  refine ⟨bucket_index_injective s.res a b ha hb, ?_, (bucket_index_range s.res a ha).1,
    (bucket_index_range s.res a ha).2, hidx, ?_, ?_⟩
  · intro hne
    exact fun h => hne (bucket_index_injective s.res a b ha hb h)
  · unfold has_particle
    rw [hidx]
  · intro p is_new hp
    have hin : inside s.res (get_rough_pos s p) = true := by rw [hp]; exact ha
    rw [insert_particle_inside s p is_new hin, hp]
    simp [groups_set]

/-- C34, witness: the two blocks of the line of two blocks of size 2. -/
theorem bucket_index_in_range_injective_witness :
    inside coarse_line.res ⟨0, 0, 0⟩ = true ∧ inside coarse_line.res ⟨1, 0, 0⟩ = true ∧
    bucket_index coarse_line.res 0 0 0 ≠ bucket_index coarse_line.res 1 0 0 ∧
    0 ≤ bucket_index coarse_line.res 0 0 0 ∧
    bucket_index coarse_line.res 0 0 0 < bucket_count coarse_line.res :=
  ⟨by decide, by decide,
    ((bucket_index_in_range_injective coarse_line ⟨0, 0, 0⟩ ⟨1, 0, 0⟩ (by decide)
      (by decide)).2.1 (by decide)),
    (bucket_index_in_range_injective coarse_line ⟨0, 0, 0⟩ ⟨1, 0, 0⟩ (by decide)
      (by decide)).2.2.1,
    (bucket_index_in_range_injective coarse_line ⟨0, 0, 0⟩ ⟨1, 0, 0⟩ (by decide)
      (by decide)).2.2.2.1⟩


/-! ## Statements about the divisors of `set_time` and `update_max_dt_int` -/

/-- C31, counterexample.  Right after `initialize` both step limits of every block are 0.  A call
of `update_max_dt_int(0)` in that state divides by `max_dt_int = 1` and returns, but it sets
`max_dt_int` to `min(2, 0) = 0`; in the state it leaves, which is reachable through the public
operations, `set_time(0)` and `update_max_dt_int(0)` evaluate `t_int % 0`. -/
theorem division_by_zero_after_early_update_max_dt_int :
    ∃ s s' r, initialize_scheduler heap_line ⟨1, 1, 1⟩ 1 1 1 0 1 = some s ∧
      update_max_dt_int s 0 = some (s', r) ∧
      Reachable (fun _ => True) s' ∧
      inside s'.res ⟨0, 0, 0⟩ = true ∧ s'.max_dt_int ⟨0, 0, 0⟩ = 0 ∧
      set_time s' 0 = none ∧ update_max_dt_int s' 0 = none := by
  have hne : ∀ b, inside (line_scheduler 1).res b = true → (line_scheduler 1).max_dt_int b ≠ 0 := by
    intro b _
    simp [line_scheduler, initialize_fields]
  have hstep := update_max_dt_int_eq (line_scheduler 1) 0 hne
  have hv : (update_max_dt_int (line_scheduler 1) 0).map
      (fun p => p.1.max_dt_int ⟨0, 0, 0⟩) = some 0 := by decide
  have h1 : (update_max_dt_int (line_scheduler 1) 0).bind
      (fun p => (set_time p.1 0).map (fun _ => ())) = none := by
    decide
  have h2 : (update_max_dt_int (line_scheduler 1) 0).bind
      (fun p => (update_max_dt_int p.1 0).map (fun q => q.2)) = none := by
    decide
  rw [hstep] at hv h1 h2
  refine ⟨line_scheduler 1, _, _, line_scheduler_initialized 1, hstep,
    Reachable.max_dt _ _ 0 _ (Reachable.init _ _ _ _ _ _ _ _ (line_scheduler_initialized 1))
      trivial hstep, by decide, ?_, ?_, ?_⟩
  · simpa using hv
  · simpa using h1
  · simpa using h2


/-- C31, as amended.  In every state reachable from `initialize` through the public operations in
which each call of `update_max_dt_int` found both step limits of every block a power of two that
is at least 1, every step multiple `max_dt_int` is non-zero, so every `t_int % max_dt_int[ind]`
that `set_time` and `update_max_dt_int` evaluate has a non-zero divisor and both operations
return. -/
theorem reachable_divisors_nonzero (s : MPMScheduler) (hr : Reachable limits_pot s) :
    (∀ b, s.max_dt_int b ≠ 0) ∧
    (∀ t_int, ∃ s', set_time s t_int = some s') ∧
    (∀ t_int, ∃ s' r, update_max_dt_int s t_int = some (s', r)) := by
  have hne : ∀ b, s.max_dt_int b ≠ 0 := by
    intro b
    have := is_pot_pos (reachable_is_pot s hr b)
    omega
  refine ⟨hne, ?_, ?_⟩
  · intro t_int
    exact ⟨_, set_time_eq s t_int (fun b _ => hne b)⟩
  · intro t_int
    exact ⟨_, _, update_max_dt_int_eq s t_int (fun b _ => hne b)⟩

/-- C31, witness: the line of one block after `initialize` and a first `update_dt_limits`. -/
theorem reachable_divisors_nonzero_witness :
    Reachable limits_pot (update_dt_limits empty_levelset (line_scheduler 1) 0) ∧
    (update_dt_limits empty_levelset (line_scheduler 1) 0).max_dt_int ⟨0, 0, 0⟩ ≠ 0 ∧
    (∃ s', set_time (update_dt_limits empty_levelset (line_scheduler 1) 0) 0 = some s') ∧
    (∃ s' r, update_max_dt_int (update_dt_limits empty_levelset (line_scheduler 1) 0) 0 =
      some (s', r)) :=
  have h1 : Reachable limits_pot (update_dt_limits empty_levelset (line_scheduler 1) 0) :=
    Reachable.dt_limits (line_scheduler 1) _
      (Reachable.init _ _ _ _ _ _ _ _ (line_scheduler_initialized 1))
      (update_dt_limits_eq empty_levelset (line_scheduler 1) 0).1
  ⟨h1,
    (reachable_divisors_nonzero (update_dt_limits empty_levelset (line_scheduler 1) 0) h1).1
      ⟨0, 0, 0⟩,
    (reachable_divisors_nonzero (update_dt_limits empty_levelset (line_scheduler 1) 0) h1).2.1 0,
    (reachable_divisors_nonzero (update_dt_limits empty_levelset (line_scheduler 1) 0)
      h1).2.2 0⟩


/-! ## Statements about the result of `update_max_dt_int` and the update boundaries -/

/-- Of two powers of two the smaller divides the larger. -/
theorem is_pot_dvd_of_le {x y : Int} (hx : is_pot x) (hy : is_pot y) (h : x ≤ y) : x ∣ y := by
  obtain ⟨j, rfl⟩ := hx
  obtain ⟨k, rfl⟩ := hy
  have hjk : j ≤ k := by
    by_contra hlt
    push_neg at hlt
    have : (2 : Int) ^ k < 2 ^ j := pow_lt_pow_right₀ (by norm_num) hlt
    omega
  exact pow_dvd_pow 2 hjk

/-- No multiple of `m` lies strictly between a multiple `t` of `r` and `t + r`, when `r`
divides `m`. -/
theorem no_multiple_between {r m t T : Int} (hrm : r ∣ m) (hrt : r ∣ t)
    (h1 : t < T) (h2 : T < t + r) : Int.tmod T m ≠ 0 := by
  intro h0
  have hmT : m ∣ T := Int.dvd_of_tmod_eq_zero h0
  have hd : r ∣ T - t := Int.dvd_sub (dvd_trans hrm hmT) hrt
  have hle : r ≤ T - t := Int.le_of_dvd (by omega) hd
  omega

/-- C32, counterexample.  A single block that holds a particle, with the step multiple 2 and the
limits 16 and 8, at the logical time 2 (the state after `update_max_dt_int(0)` from the step
multiple 1): `update_max_dt_int(2)` doubles the step multiple to 4 and returns 4, and advancing
the logical time from 2 by 4 steps over the time 4, at which the block is updating
(`4 % 4 == 0`). -/
theorem advance_steps_over_boundary :
    (∀ b, inside line_2.res b = true → is_pot (line_2.max_dt_int b) ∧
      is_pot (line_2.max_dt_int_cfl b) ∧ is_pot (line_2.max_dt_int_strength b)) ∧
    inside line_2.res ⟨0, 0, 0⟩ = true ∧ has_particle line_2 ⟨0, 0, 0⟩ = true ∧
    ∃ s' r, update_max_dt_int line_2 2 = some (s', r) ∧ r = 4 ∧
      s'.max_dt_int ⟨0, 0, 0⟩ = 4 ∧ r ∣ s'.max_dt_int ⟨0, 0, 0⟩ ∧
      (2 : Int) < 4 ∧ (4 : Int) < 2 + r ∧ Int.tmod 4 (s'.max_dt_int ⟨0, 0, 0⟩) = 0 := by
  have hne : ∀ b, inside line_2.res b = true → line_2.max_dt_int b ≠ 0 := by
    intro b _
    show (2 : Int) ≠ 0
    decide
  have hstep := update_max_dt_int_eq line_2 2 hne
  have hv : (update_max_dt_int line_2 2).map
      (fun p => (p.1.max_dt_int ⟨0, 0, 0⟩, p.2)) = some (4, 4) := by decide
  rw [hstep] at hv
  simp only [Option.map_some', Option.some.injEq, Prod.mk.injEq] at hv
  obtain ⟨hm, hr⟩ := hv
  refine ⟨fun _ _ => ⟨⟨1, rfl⟩, ⟨4, rfl⟩, ⟨3, rfl⟩⟩, by decide, by decide, _, _, hstep, hr, hm,
    ?_, by decide, ?_, ?_⟩
  · dsimp only
    rw [hr, hm]
  · rw [hr]
    decide
  · dsimp only
    rw [hm]
    decide


/-- C32, as amended.  If the `max_dt_int`, `max_dt_int_cfl` and `max_dt_int_strength` of every
block of the lattice are powers of two that are at least 1, `update_max_dt_int(t)` returns, and
its result `r` is a power of two that is at least 1 and divides the updated `max_dt_int` of every
block of the lattice that holds a particle; so, when the logical time `t` is a multiple of `r`,
advancing it by `r` does not step over a time at which such a block is updating: no `T` with
`t < T < t + r` has `T % max_dt_int == 0`. -/
theorem update_max_dt_int_result_divides (s : MPMScheduler) (t : Int)
    (hpot : ∀ b, inside s.res b = true → is_pot (s.max_dt_int b) ∧
      is_pot (s.max_dt_int_cfl b) ∧ is_pot (s.max_dt_int_strength b)) :
    ∃ s' r, update_max_dt_int s t = some (s', r) ∧ is_pot r ∧ 1 ≤ r ∧
      ∀ b, inside s.res b = true → has_particle s b = true →
        is_pot (s'.max_dt_int b) ∧ r ∣ s'.max_dt_int b ∧
        (r ∣ t → ∀ T, t < T → T < t + r → Int.tmod T (s'.max_dt_int b) ≠ 0) := by
  have hne : ∀ b, inside s.res b = true → s.max_dt_int b ≠ 0 := by
    intro b hb
    have := is_pot_pos (hpot b hb).1
    omega
  have hnext : ∀ b, inside s.res b = true → is_pot (next_max_dt_int s t b) := fun b hb =>
    is_pot_next_max_dt_int s t b (hpot b hb).1 (hpot b hb).2.1 (hpot b hb).2.2
  obtain ⟨_, h2, h3⟩ := foldl_min_spec (fun b => has_particle s b)
    (fun b => next_max_dt_int s t b) (get_region s.res) DT_INF
  have hr : is_pot ((get_region s.res).foldl
      (fun r b => if has_particle s b = true then min r (next_max_dt_int s t b) else r)
      DT_INF) := by
    rcases h3 with h3 | ⟨b, hb, _, h3⟩
    · rw [h3]
      exact ⟨60, rfl⟩
    · rw [h3]
      exact hnext b ((mem_get_region _ _).mp hb)
  refine ⟨_, _, update_max_dt_int_eq s t hne, hr, is_pot_pos hr, ?_⟩
  intro b hb hp
  dsimp only
  rw [if_pos hb]
  have hdvd := is_pot_dvd_of_le hr (hnext b hb) (h2 b ((mem_get_region _ _).mpr hb) hp)
  exact ⟨hnext b hb, hdvd, fun hrt T h1 h2 => no_multiple_between hdvd hrt h1 h2⟩

/-- C32, witness: the line of two blocks with the step multiples 4 and 1 at the logical time 4. -/
theorem update_max_dt_int_result_divides_witness :
    (∀ b, inside line_4_1.res b = true → is_pot (line_4_1.max_dt_int b) ∧
      is_pot (line_4_1.max_dt_int_cfl b) ∧ is_pot (line_4_1.max_dt_int_strength b)) ∧
    ∃ s' r, update_max_dt_int line_4_1 4 = some (s', r) ∧ is_pot r ∧ 1 ≤ r ∧
      ∀ b, inside line_4_1.res b = true → has_particle line_4_1 b = true →
        is_pot (s'.max_dt_int b) ∧ r ∣ s'.max_dt_int b ∧
        (r ∣ 4 → ∀ T, 4 < T → T < 4 + r → Int.tmod T (s'.max_dt_int b) ≠ 0) :=
  have hpot : ∀ b, inside line_4_1.res b = true → is_pot (line_4_1.max_dt_int b) ∧
      is_pot (line_4_1.max_dt_int_cfl b) ∧ is_pot (line_4_1.max_dt_int_strength b) := by
    intro b _
    refine ⟨?_, ⟨4, rfl⟩, ⟨3, rfl⟩⟩
    show is_pot (if b.i = 0 then 4 else 1)
    split
    · exact ⟨2, rfl⟩
    · exact ⟨0, rfl⟩
  ⟨hpot, update_max_dt_int_result_divides line_4_1 4 hpot⟩

end Taichi
